import Mathlib

/-!
# Reverse-mode automatic differentiation over a run-time DAG

A shallow embedding of `Tutorials/src/toyCodeChp9sections2to4.cpp`.

* The free store is a list of nodes; a `shared_ptr<Node>` is an index into it.
  Dereferencing an index outside the store has no defined behaviour and is `none`.
* `double` is idealised as an arbitrary field `α` and the library function `log` as a
  parameter `log : α → α`; statements about derivatives and decimal values take the reals
  and `Real.log`.
* Recursive member functions take a recursion budget (`fuel`); the entry points of
  `Number` pass the size of the store, which is enough for every store in which
  operands are allocated before the nodes that use them (`WF`).
* Where the difference between `double` and the reals decides a statement, two further
  arithmetics are used: `Dbl α`, exact numbers together with NaN, and `Binary64`, the
  finite doubles of IEEE 754 with round-to-nearest-even.
* The expression templates of `Tutorials/src/toyCodeChp15section2.cpp` are the inductive
  type `Expr`; the cells the `shared_ptr<double> adj` of the `Number`s point to are a
  map from addresses to values.
-/

namespace AAD

variable {α : Type}

/-- The dynamic type of a node together with what the subclass stores: `Leaf` holds
`myValue`, the three operation nodes hold the addresses put into `myArguments`. -/
inductive Kind (α : Type) where
  | Leaf (myValue : α)
  | PlusNode (lhs rhs : Nat)
  | TimesNode (lhs rhs : Nat)
  | LogNode (arg : Nat)

/-- The vector `myArguments`: empty for a `Leaf`, resized to 2 or 1 by the constructors. -/
def Kind.myArguments : Kind α → List Nat
  | .Leaf _ => []
  | .PlusNode lhs rhs => [lhs, rhs]
  | .TimesNode lhs rhs => [lhs, rhs]
  | .LogNode arg => [arg]

/-- The data members of `class Node`. -/
structure Node (α : Type) where
  kind : Kind α
  myProcessed : Bool
  myOrder : Nat
  myResult : α
  myAdjoint : α

/-- The free store: the node at address `i` is the `i`-th entry. -/
abbrev Heap (α : Type) := List (Node α)

/-- Write through a pointer: apply `f` to the node at address `i`. -/
def update (h : Heap α) (i : Nat) (f : Node α → Node α) : Option (Heap α) :=
  match h[i]? with
  | none => none
  | some n => some (h.set i (f n))

/-- `Node::result`. -/
def result (h : Heap α) (i : Nat) : Option α := (h[i]?).map (fun n => n.myResult)

/-- `Node::order`. -/
def order (h : Heap α) (i : Nat) : Option Nat := (h[i]?).map (fun n => n.myOrder)

/-- `Node::adjoint` (read access). -/
def adjoint (h : Heap α) (i : Nat) : Option α := (h[i]?).map (fun n => n.myAdjoint)

/-- `Node::postOrder`: skip a processed node, otherwise recurse into the arguments, visit the
node and mark it processed.  The visitor carries its captured state `σ`. -/
def postOrder {σ : Type} (visitFunc : σ × Heap α → Nat → Option (σ × Heap α)) :
    Nat → σ × Heap α → Nat → Option (σ × Heap α)
  | 0, _, _ => none
  | fuel + 1, st, this =>
    match st.2[this]? with
    | none => none
    | some n =>
      if n.myProcessed = false then
        (n.kind.myArguments.foldlM (postOrder visitFunc fuel) st).bind fun st1 =>
        (visitFunc st1 this).bind fun st2 =>
        (update st2.2 this (fun m => { m with myProcessed := true })).map fun h3 => (st2.1, h3)
      else some st

/-- `Node::preOrder`: visit the node, then recurse into the arguments; no processed flag. -/
def preOrder {σ : Type} (visitFunc : σ × Heap α → Nat → Option (σ × Heap α)) :
    Nat → σ × Heap α → Nat → Option (σ × Heap α)
  | 0, _, _ => none
  | fuel + 1, st, this =>
    (visitFunc st this).bind fun st1 =>
    match st1.2[this]? with
    | none => none
    | some n => n.kind.myArguments.foldlM (preOrder visitFunc fuel) st1

/-- `Node::resetProcessed`. -/
def resetProcessed : Nat → Heap α → Nat → Option (Heap α)
  | 0, _, _ => none
  | fuel + 1, h, this =>
    match h[this]? with
    | none => none
    | some n =>
      (n.kind.myArguments.foldlM (resetProcessed fuel) h).bind fun h1 =>
      update h1 this (fun m => { m with myProcessed := false })

/-- `Node::resetAdjoints`. -/
def resetAdjoints [Zero α] : Nat → Heap α → Nat → Option (Heap α)
  | 0, _, _ => none
  | fuel + 1, h, this =>
    match h[this]? with
    | none => none
    | some n =>
      (n.kind.myArguments.foldlM (resetAdjoints fuel) h).bind fun h1 =>
      update h1 this (fun m => { m with myAdjoint := 0 })

/-- `Node::setOrder`. -/
def Node.setOrder (h : Heap α) (this : Nat) (order : Nat) : Option (Heap α) :=
  update h this (fun m => { m with myOrder := order })

/-- The virtual `evaluate` of `PlusNode`, `TimesNode`, `LogNode` and `Leaf`. -/
def Node.evaluate [Add α] [Mul α] (log : α → α) (h : Heap α) (this : Nat) : Option (Heap α) :=
  match h[this]? with
  | none => none
  | some n =>
    match n.kind with
    | .Leaf myValue => update h this (fun m => { m with myResult := myValue })
    | .PlusNode lhs rhs =>
      (result h lhs).bind fun a => (result h rhs).bind fun b =>
      update h this (fun m => { m with myResult := a + b })
    | .TimesNode lhs rhs =>
      (result h lhs).bind fun a => (result h rhs).bind fun b =>
      update h this (fun m => { m with myResult := a * b })
    | .LogNode arg =>
      (result h arg).bind fun a =>
      update h this (fun m => { m with myResult := log a })

/-- One line written to `cout` by `propagateAdjoint`: whether it is the `Leaf` line
("Accumulating leaf") or an operation line ("Propogating node"), then `myOrder` and
`myAdjoint` as printed. -/
structure LogLine (α : Type) where
  isLeaf : Bool
  order : Nat
  adjoint : α

/-- `x->adjoint() += d` through the pointer `x`. -/
def addAdjoint [Add α] (h : Heap α) (x : Nat) (d : α) : Option (Heap α) :=
  update h x (fun m => { m with myAdjoint := m.myAdjoint + d })

/-- The virtual `propagateAdjoint` of the four node classes; the first component of the
state is the text written to `cout` so far.  Every statement reads `myAdjoint` and the
operand results from the store as it is at that statement. -/
def Node.propagateAdjoint [Zero α] [Add α] [Mul α] [Div α] (st : List (LogLine α) × Heap α) (this : Nat) :
    Option (List (LogLine α) × Heap α) :=
  match st.2[this]? with
  | none => none
  | some n =>
    match n.kind with
    | .Leaf _ => some (st.1 ++ [⟨true, n.myOrder, n.myAdjoint⟩], st.2)
    | .PlusNode lhs rhs =>
      (addAdjoint st.2 lhs n.myAdjoint).bind fun h1 =>
      (adjoint h1 this).bind fun a1 =>
      (addAdjoint h1 rhs a1).bind fun h2 =>
      (update h2 this (fun m => { m with myAdjoint := 0 })).map fun h3 =>
      (st.1 ++ [⟨false, n.myOrder, n.myAdjoint⟩], h3)
    | .TimesNode lhs rhs =>
      (result st.2 rhs).bind fun r1 =>
      (addAdjoint st.2 lhs (n.myAdjoint * r1)).bind fun h1 =>
      (adjoint h1 this).bind fun a1 =>
      (result h1 lhs).bind fun r0 =>
      (addAdjoint h1 rhs (a1 * r0)).bind fun h2 =>
      (update h2 this (fun m => { m with myAdjoint := 0 })).map fun h3 =>
      (st.1 ++ [⟨false, n.myOrder, n.myAdjoint⟩], h3)
    | .LogNode arg =>
      (result st.2 arg).bind fun r0 =>
      (addAdjoint st.2 arg (n.myAdjoint / r0)).bind fun h1 =>
      (update h1 this (fun m => { m with myAdjoint := 0 })).map fun h2 =>
      (st.1 ++ [⟨false, n.myOrder, n.myAdjoint⟩], h2)

/-- The lambda of `Number::evaluate`: `n.evaluate()`, no captured state. -/
def evaluateLam [Add α] [Mul α] (log : α → α) (st : Unit × Heap α) (n : Nat) :
    Option (Unit × Heap α) :=
  (Node.evaluate log st.2 n).map fun h => ((), h)

/-- The lambda of `Number::setOrder`: `n.setOrder(++order)` with the captured `int order`.
Incrementing past `INT_MAX` has no defined behaviour. -/
def setOrderLam (st : Nat × Heap α) (n : Nat) : Option (Nat × Heap α) :=
  if st.1 + 1 < 2 ^ 31 then (Node.setOrder st.2 n (st.1 + 1)).map fun h => (st.1 + 1, h)
  else none

/-- `Number::evaluate` on the `Number` whose `myNode` is the given address: the returned
`double` and the store afterwards. -/
def Number.evaluate [Add α] [Mul α] (log : α → α) (h : Heap α) (myNode : Nat) :
    Option (α × Heap α) :=
  (resetProcessed h.length h myNode).bind fun h1 =>
  (postOrder (evaluateLam log) h.length ((), h1) myNode).bind fun st =>
  (result st.2 myNode).map fun r => (r, st.2)

/-- `Number::setOrder`. -/
def Number.setOrder (h : Heap α) (myNode : Nat) : Option (Heap α) :=
  (resetProcessed h.length h myNode).bind fun h1 =>
  (postOrder setOrderLam h.length (0, h1) myNode).map fun st => st.2

/-- `Number::propagateAdjoints`: the lines written to `cout` and the store afterwards. -/
def Number.propagateAdjoints [Zero α] [One α] [Add α] [Mul α] [Div α] (h : Heap α)
    (myNode : Nat) :
    Option (List (LogLine α) × Heap α) :=
  (resetAdjoints h.length h myNode).bind fun h1 =>
  (update h1 myNode (fun m => { m with myAdjoint := 1 })).bind fun h2 =>
  preOrder Node.propagateAdjoint h.length ([], h2) myNode

/-- `Number::setVal`: the cast to `Leaf` yields a null pointer for any other node. -/
def Number.setVal (h : Heap α) (myNode : Nat) (val : α) : Option (Heap α) :=
  match h[myNode]? with
  | none => none
  | some n =>
    match n.kind with
    | .Leaf _ => some (h.set myNode { n with kind := .Leaf val })
    | _ => none

/-- `Number::getVal`. -/
def Number.getVal (h : Heap α) (myNode : Nat) : Option α :=
  match h[myNode]? with
  | none => none
  | some n =>
    match n.kind with
    | .Leaf myValue => some myValue
    | _ => none

/-- A freshly constructed node: `myProcessed = false`, `myOrder = 0`, `myAdjoint = 0.0`;
`myResult` has no initialiser, `uninit` stands for whatever it holds. -/
def newNode [Zero α] (uninit : α) (k : Kind α) : Node α :=
  { kind := k, myProcessed := false, myOrder := 0, myResult := uninit, myAdjoint := 0 }

/-! ### The graph seen as pure data -/

/-- The kind (structure and leaf value) of the node at `i`. -/
def kindAt (h : Heap α) (i : Nat) : Option (Kind α) := (h[i]?).map (fun n => n.kind)

/-- The operand addresses of the node at `i`; no operands outside the store. -/
def args (h : Heap α) (i : Nat) : List Nat :=
  match kindAt h i with
  | none => []
  | some k => k.myArguments

/-- The processed flag of the node at `i`. -/
def proc (h : Heap α) (i : Nat) : Bool :=
  match h[i]? with
  | none => false
  | some n => n.myProcessed

/-- Whether the node at `i` is a `Leaf`. -/
def isLeaf (h : Heap α) (i : Nat) : Bool :=
  match kindAt h i with
  | some (.Leaf _) => true
  | _ => false

/-- A store as the constructors of the program build it: every operand of a node was
allocated before the node.  Such a store is acyclic and has no dangling operand. -/
def WF (h : Heap α) : Prop := ∀ i, i < h.length → ∀ a ∈ args h i, a < i

instance (h : Heap α) : Decidable (WF h) := by unfold WF; infer_instance

/-- Reachability along operand edges: `Reach g i n` when `n` is `i` or an operand, an
operand of an operand, ... of `i`. -/
inductive Reach (g : Nat → List Nat) : Nat → Nat → Prop
  | refl (i : Nat) : Reach g i i
  | step {i a n : Nat} : a ∈ g i → Reach g a n → Reach g i n

/-- The nodes a flag-guarded post-order walk visits for a list of roots, left to right,
`vis` telling which nodes are already marked. -/
def seqOver (f : (Nat → Bool) → Nat → List Nat) : (Nat → Bool) → List Nat → List Nat
  | _, [] => []
  | vis, a :: as =>
    f vis a ++ seqOver f (fun n => vis n || decide (n ∈ f vis a)) as

/-- The visiting sequence of a flag-guarded post-order walk from `i` over the graph `g`. -/
def postSeq (g : Nat → List Nat) : Nat → (Nat → Bool) → Nat → List Nat
  | 0, _, _ => []
  | fuel + 1, vis, i =>
    if vis i then [] else seqOver (postSeq g fuel) vis (g i) ++ [i]

/-- The visiting sequence of the unguarded pre-order walk from `i` over the graph `g`. -/
def preSeq (g : Nat → List Nat) : Nat → Nat → List Nat
  | 0, _ => []
  | fuel + 1, i => i :: (g i).flatMap (preSeq g fuel)

/-- The value of the expression denoted by the node at `i`: a leaf denotes its stored value,
an operation node the operation applied to what its operands denote. -/
def value [Zero α] [Add α] [Mul α] (log : α → α) (h : Heap α) : Nat → Nat → α
  | 0, _ => 0
  | fuel + 1, i =>
    match kindAt h i with
    | none => 0
    | some (.Leaf myValue) => myValue
    | some (.PlusNode lhs rhs) => value log h fuel lhs + value log h fuel rhs
    | some (.TimesNode lhs rhs) => value log h fuel lhs * value log h fuel rhs
    | some (.LogNode arg) => log (value log h fuel arg)

/-- The value denoted by node `i`, with the recursion budget a well-formed store needs. -/
def denote [Zero α] [Add α] [Mul α] (log : α → α) (h : Heap α) (i : Nat) : α :=
  value log h (i + 1) i

/-- The cached result of the node at `i` (0 outside the store). -/
def res [Zero α] (h : Heap α) (i : Nat) : α := (result h i).getD 0

/-- The cached adjoint of the node at `i` (0 outside the store). -/
def adj [Zero α] (h : Heap α) (i : Nat) : α := (adjoint h i).getD 0

/-- The local partial derivative of node `i` with respect to its operand in slot `k`, taken
at the cached results: 1 for add, the other operand for multiply, 1 / operand for log. -/
def localPartial [Field α] (h : Heap α) (i k : Nat) : α :=
  match kindAt h i with
  | some (.PlusNode _ _) => 1
  | some (.TimesNode lhs rhs) => if k = 0 then res h rhs else res h lhs
  | some (.LogNode arg) => 1 / res h arg
  | _ => 0

/-- All operand paths from `i` down to `target`; a path is its list of edges, an edge being
a node together with one of its operand slots. -/
def paths (g : Nat → List Nat) (target : Nat) : Nat → Nat → List (List (Nat × Nat))
  | 0, _ => []
  | fuel + 1, i =>
    if i = target then [[]]
    else (g i).enum.flatMap fun ka => (paths g target fuel ka.2).map fun p => (i, ka.1) :: p

/-- The chain-rule sum: over every path from `i` to `target`, the product of the local
partial derivatives along the path. -/
def pathSum [Field α] (h : Heap α) (i target : Nat) : α :=
  ((paths (args h) target (i + 1) i).map fun p =>
    (p.map fun e => localPartial h e.1 e.2).prod).sum

/-! ### The graphs of the examples -/

/-- The store after `Number x[5] = {x0, .., x4}; Number y = f(x);`: the five inputs at
addresses 0..4, the constant `5.0` at 5, then the nodes of
`y1 = x[2] * (5.0 * x[0] + x[1])`, `y2 = log(y1)` and `y = (y1 + x[3] * y2) * (y1 + y2)`;
the root `y` is at address 13. -/
def fHeap [Field α] (uninit : α) (x0 x1 x2 x3 x4 : α) : Heap α :=
  [ newNode uninit (.Leaf x0), newNode uninit (.Leaf x1), newNode uninit (.Leaf x2),
    newNode uninit (.Leaf x3), newNode uninit (.Leaf x4), newNode uninit (.Leaf 5),
    newNode uninit (.TimesNode 5 0), newNode uninit (.PlusNode 6 1),
    newNode uninit (.TimesNode 2 7), newNode uninit (.LogNode 8),
    newNode uninit (.TimesNode 3 9), newNode uninit (.PlusNode 8 10),
    newNode uninit (.PlusNode 8 9), newNode uninit (.TimesNode 11 12) ]

/-- The store after `Number x = a; Number y = b; Number r = x + y; Number big = y * r;`:
the graph rooted at `r` (address 2) is reused as an operand of `big` (address 3), which
also uses the leaf `y` directly. -/
def reuseHeap [Zero α] (uninit : α) (a b : α) : Heap α :=
  [ newNode uninit (.Leaf a), newNode uninit (.Leaf b), newNode uninit (.PlusNode 0 1),
    newNode uninit (.TimesNode 1 2) ]

/-- The calls of `main` that write order indices, results and adjoints, in the order of
`main`: `y.setOrder(); y.evaluate(); y.propagateAdjoints();`.  The result is the value
returned by `evaluate`, the lines written by `propagateAdjoints` and the final store. -/
def runMain [Field α] (log : α → α) (h : Heap α) (y : Nat) :
    Option (α × List (LogLine α) × Heap α) :=
  (Number.setOrder h y).bind fun h1 =>
  (Number.evaluate log h1 y).bind fun r =>
  (Number.propagateAdjoints r.2 y).map fun p => (r.1, p.1, p.2)

/-- The store after `Number x = v; Number y = x * x;`: one leaf, used as both operands. -/
def diamondHeap [Zero α] (uninit : α) (v : α) : Heap α :=
  [ newNode uninit (.Leaf v), newNode uninit (.TimesNode 0 0) ]

/-- The store after `Number x = v; Number y = log(x);`. -/
def logHeap [Zero α] (uninit : α) (v : α) : Heap α :=
  [ newNode uninit (.Leaf v), newNode uninit (.LogNode 0) ]

/-- The store after `Number z = c; Number x = a; Number y = b; Number r = x + y;
Number big = z * r;`: the graph rooted at `r` (address 3) is reused as an operand of `big`
(address 4), which uses no other node of it. -/
def reuseThroughHeap [Zero α] (uninit : α) (c a b : α) : Heap α :=
  [ newNode uninit (.Leaf c), newNode uninit (.Leaf a), newNode uninit (.Leaf b),
    newNode uninit (.PlusNode 1 2), newNode uninit (.TimesNode 0 3) ]

/-! ### Predicates used by the statements -/

/-- Operands have smaller addresses than their users, for a bare graph. -/
def WFg (g : Nat → List Nat) : Prop := ∀ i a, a ∈ g i → a < i

/-- A set of nodes that contains the operands of its members. -/
def Closed (g : Nat → List Nat) (vis : Nat → Bool) : Prop :=
  ∀ n, vis n = true → ∀ a ∈ g n, vis a = true

/-- A list in which the operands of every entry are in `vis` or occur earlier in the list. -/
def Topo (g : Nat → List Nat) : (Nat → Bool) → List Nat → Prop
  | _, [] => True
  | vis, n :: L => (∀ a ∈ g n, vis a = true) ∧ Topo g (fun m => vis m || decide (m = n)) L

/-- One step of a guarded post-order walk: the visitor, then `myProcessed = true`. -/
def markStep {σ : Type} (visitFunc : σ × Heap α → Nat → Option (σ × Heap α))
    (st : σ × Heap α) (n : Nat) : Option (σ × Heap α) :=
  (visitFunc st n).bind fun st2 =>
    (update st2.2 n (fun m => { m with myProcessed := true })).map fun h3 => (st2.1, h3)

/-- A visitor that leaves the size of the store, the kinds and the processed flags alone. -/
def Pres {σ : Type} (visitFunc : σ × Heap α → Nat → Option (σ × Heap α)) : Prop :=
  ∀ st n st', visitFunc st n = some st' →
    st'.2.length = st.2.length ∧ (∀ j, kindAt st'.2 j = kindAt st.2 j) ∧
      (∀ j, proc st'.2 j = proc st.2 j)

/-- The common shape of `Node::resetProcessed` and `Node::resetAdjoints`: recurse into the
arguments, then apply `F` to this node. -/
def resetWith (F : Node α → Node α) : Nat → Heap α → Nat → Option (Heap α)
  | 0, _, _ => none
  | fuel + 1, h, this =>
    match h[this]? with
    | none => none
    | some n => (n.kind.myArguments.foldlM (resetWith F fuel) h).bind fun h1 => update h1 this F

/-- What `evaluate` stores in node `i`: its operation applied to the cached results of its
operands. -/
def opResult [Zero α] [Add α] [Mul α] (log : α → α) (h : Heap α) (i : Nat) : α :=
  match kindAt h i with
  | none => 0
  | some (.Leaf myValue) => myValue
  | some (.PlusNode lhs rhs) => res h lhs + res h rhs
  | some (.TimesNode lhs rhs) => res h lhs * res h rhs
  | some (.LogNode arg) => log (res h arg)

/-- The assignment `d` of a number to every node agrees at node `j` with the operation of
`j` applied to the numbers of its operands. -/
def Consistent [Add α] [Mul α] (log : α → α) (h : Heap α) (d : Nat → α) (j : Nat) : Prop :=
  match kindAt h j with
  | none => True
  | some (.Leaf myValue) => d j = myValue
  | some (.PlusNode lhs rhs) => d j = d lhs + d rhs
  | some (.TimesNode lhs rhs) => d j = d lhs * d rhs
  | some (.LogNode arg) => d j = log (d arg)

/-- The store `h` with the adjoint of every node `j` replaced by `a j`. -/
def withAdj (h : Heap α) (a : Nat → α) : Heap α :=
  h.mapIdx fun j m => { m with myAdjoint := a j }

/-- What one call of `propagateAdjoint` on node `n`, holding adjoint `A`, adds to the
adjoint of node `j`. -/
def pushed [Field α] (h : Heap α) (A : α) (n j : Nat) : α :=
  match kindAt h n with
  | some (.PlusNode lhs rhs) => (if j = lhs then A else 0) + (if j = rhs then A else 0)
  | some (.TimesNode lhs rhs) =>
    (if j = lhs then A * res h rhs else 0) + (if j = rhs then A * res h lhs else 0)
  | some (.LogNode arg) => if j = arg then A / res h arg else 0
  | _ => 0

/-- The adjoints after one call of `propagateAdjoint` on node `n`, from the adjoints `a`
before it. -/
def stepAdj [Field α] (h : Heap α) (a : Nat → α) (n : Nat) : Nat → α := fun j =>
  if isLeaf h n then a j else if j = n then 0 else a j + pushed h (a n) n j

/-- The order index of the node at `i` (0 outside the store). -/
def ordAt (h : Heap α) (i : Nat) : Nat := (order h i).getD 0

/-- The lines `propagateAdjoint` writes when called on the nodes of a list in turn. -/
def propLog [Field α] (h : Heap α) : (Nat → α) → List Nat → List (LogLine α)
  | _, [] => []
  | a, n :: L => ⟨isLeaf h n, ordAt h n, a n⟩ :: propLog h (stepAdj h a n) L

mutual

/-- `Node::breadthFirst(visitFunc, q)`: push the arguments to the back of the queue, visit
the node, then run the loop until the queue is empty.  The result is the state and the
queue left behind. -/
def breadthFirstQ {σ : Type} (visitFunc : σ × Heap α → Nat → Option (σ × Heap α)) :
    Nat → σ × Heap α → List Nat → Nat → Option ((σ × Heap α) × List Nat)
  | 0, _, _, _ => none
  | fuel + 1, st, q, this =>
    match st.2[this]? with
    | none => none
    | some n =>
      (visitFunc st this).bind fun st1 =>
      breadthFirstWhile visitFunc fuel st1 (q ++ n.kind.myArguments)

/-- The loop `while (!q.empty())` of `Node::breadthFirst`: take the front node off the
queue and call `breadthFirst(visitFunc, q)` on it. -/
def breadthFirstWhile {σ : Type} (visitFunc : σ × Heap α → Nat → Option (σ × Heap α)) :
    Nat → σ × Heap α → List Nat → Option ((σ × Heap α) × List Nat)
  | 0, _, _ => none
  | _ + 1, st, [] => some (st, [])
  | fuel + 1, st, n :: q =>
    (breadthFirstQ visitFunc fuel st q n).bind fun r =>
    breadthFirstWhile visitFunc fuel r.1 r.2

end

/-- `Node::breadthFirst(visitFunc)`: the walk started with an empty queue. -/
def Node.breadthFirst {σ : Type} (visitFunc : σ × Heap α → Nat → Option (σ × Heap α))
    (fuel : Nat) (st : σ × Heap α) (this : Nat) : Option (σ × Heap α) :=
  (breadthFirstQ visitFunc fuel st [] this).map fun r => r.1

/-- The breadth-first form of `Number::propagateAdjoints`, the variant kept in the source
as a comment: the same reset and seeding, then `myNode->breadthFirst(lam)`. -/
def Number.propagateAdjointsBreadthFirst [Zero α] [One α] [Add α] [Mul α] [Div α]
    (fuel : Nat) (h : Heap α) (myNode : Nat) :
    Option (List (LogLine α) × Heap α) :=
  (resetAdjoints h.length h myNode).bind fun h1 =>
  (update h1 myNode (fun m => { m with myAdjoint := 1 })).bind fun h2 =>
  Node.breadthFirst Node.propagateAdjoint fuel ([], h2) myNode

/-- The visiting sequence of the breadth-first walk over the graph `g` for a queue `q`:
the front node, then the sequence for the rest of the queue followed by its operands. -/
def bfSeq (g : Nat → List Nat) : Nat → List Nat → Option (List Nat)
  | 0, _ => none
  | _ + 1, [] => some []
  | fuel + 1, n :: q => (bfSeq g fuel (q ++ g n)).map fun L => n :: L

/-- A visitor that only records the address of the node it is applied to. -/
def recordLam (st : List Nat × Heap α) (n : Nat) : Option (List Nat × Heap α) :=
  some (st.1 ++ [n], st.2)

/-- `new`: the node is placed behind the nodes already in the store. -/
def alloc (h : Heap α) (n : Node α) : Heap α × Nat := (h ++ [n], h.length)

/-- `Number(double val)`: a fresh `Leaf`. -/
def Number.ofDouble [Zero α] (uninit : α) (h : Heap α) (val : α) : Heap α × Nat :=
  alloc h (newNode uninit (.Leaf val))

/-- `operator+(Number lhs, Number rhs)`. -/
def operatorPlus [Zero α] (uninit : α) (h : Heap α) (lhs rhs : Nat) : Heap α × Nat :=
  alloc h (newNode uninit (.PlusNode lhs rhs))

/-- `operator*(Number lhs, Number rhs)`. -/
def operatorTimes [Zero α] (uninit : α) (h : Heap α) (lhs rhs : Nat) : Heap α × Nat :=
  alloc h (newNode uninit (.TimesNode lhs rhs))

/-- `log(Number arg)`: a fresh `LogNode`; nothing is computed. -/
def logOfNumber [Zero α] (uninit : α) (h : Heap α) (arg : Nat) : Heap α × Nat :=
  alloc h (newNode uninit (.LogNode arg))

/-! ### The expression templates of `toyCodeChp15section2.cpp` -/

/-- An instance of the expression templates: a `Number` holds its value and the address of
the cell its `shared_ptr<double> adj` points to, `ExprTimes` and `ExprLog` hold copies of
their operands. -/
inductive Expr (α : Type) where
  | Number (val : α) (adj : Nat)
  | ExprTimes (lhs rhs : Expr α)
  | ExprLog (arg : Expr α)

/-- The member `value()` of `Number`, `ExprTimes` and `ExprLog`. -/
def Expr.value [Mul α] (log : α → α) : Expr α → α
  | .Number val _ => val
  | .ExprTimes lhs rhs => lhs.value log * rhs.value log
  | .ExprLog arg => log (arg.value log)

/-- A `double` with rounding and overflow left out: a number of `α`, or `nan`, which stands
for every value that is not a finite number (NaN and the two infinities).  As in the
program, arithmetic on a value that is not a finite number gives such a value again; the one
case the program treats otherwise, a finite number divided by an infinity (a zero), is not
represented. -/
inductive Dbl (α : Type) where
  | num (x : α)
  | nan

/-- The `double` 0.0. -/
instance Dbl.instZero [Zero α] : Zero (Dbl α) := ⟨.num 0⟩

/-- The `double` 1.0. -/
instance Dbl.instOne [One α] : One (Dbl α) := ⟨.num 1⟩

/-- `operator+` on `double`. -/
instance Dbl.instAdd [Add α] : Add (Dbl α) :=
  ⟨fun x y => match x, y with
    | .num a, .num b => .num (a + b)
    | _, _ => .nan⟩

/-- `operator*` on `double`. -/
instance Dbl.instMul [Mul α] : Mul (Dbl α) :=
  ⟨fun x y => match x, y with
    | .num a, .num b => .num (a * b)
    | _, _ => .nan⟩

/-- `operator/` on `double`: a division by zero gives an infinity or NaN. -/
instance Dbl.instDiv [Zero α] [Div α] [DecidableEq α] : Div (Dbl α) :=
  ⟨fun x y => match x, y with
    | .num a, .num b => if b = 0 then .nan else .num (a / b)
    | _, _ => .nan⟩

/-- `std::log` on `double`, from the logarithm `log` of the positive numbers: the logarithm
of a negative number is NaN and the logarithm of zero is minus infinity. -/
def Dbl.log [Zero α] [LT α] [DecidableRel (fun a b : α => a < b)] (log : α → α) :
    Dbl α → Dbl α
  | .num a => if 0 < a then .num (log a) else .nan
  | .nan => .nan

/-! ### Values of type `double` with rounding -/

/-- Bisection for the binary logarithm: the largest `k + j` with `j < 2 ^ steps` and
`2 ^ (k + j) ≤ n`, given `2 ^ k ≤ n`. -/
def log2From : Nat → Nat → Nat → Nat
  | 0, k, _ => k
  | steps + 1, k, n =>
    if 2 ^ (k + 2 ^ steps) ≤ n then log2From steps (k + 2 ^ steps) n else log2From steps k n

/-- The number of binary digits of `n`, for `n < 2 ^ 4096`. -/
def bitLength (n : Nat) : Nat := if n = 0 then 0 else log2From 12 0 n + 1

/-- The integer nearest to `a / b`, the even one of the two when `a / b` lies half-way. -/
def roundTiesEven (a b : Nat) : Nat :=
  if 2 * (a % b) < b then a / b
  else if b < 2 * (a % b) then a / b + 1
  else if (a / b) % 2 = 0 then a / b else a / b + 1

/-- Round `a / b`, counted in units of `2 ^ (-1074)`, to 53 significant binary digits: the
spacing of the doubles around `a / b` is one unit below `2 ^ 53` units and doubles with
every further binary digit. -/
def roundUnits (a b : Nat) : Nat :=
  roundTiesEven a (b * 2 ^ (bitLength (a / b) - 53)) * 2 ^ (bitLength (a / b) - 53)

/-- A `double` of IEEE 754 binary64: `finite n` is the number `n * 2 ^ (-1074)` (every
finite double, subnormal or normal, is such a multiple; the two zeros are not told apart),
`nan` stands for NaN and the two infinities, with the proviso made for `Dbl`. -/
inductive Binary64 where
  | finite (units : Int)
  | nan
  deriving DecidableEq

/-- The double nearest to `a / b` units (round to nearest, ties to even); an infinity when
the rounded number reaches `2 ^ 1024`. -/
def Binary64.round (a : Int) (b : Nat) : Binary64 :=
  if a.natAbs / b < 2 ^ 2098 ∧ roundUnits a.natAbs b < 2 ^ 2098 then
    .finite (if a < 0 then -(roundUnits a.natAbs b : Int) else roundUnits a.natAbs b)
  else .nan

/-- The `double` a decimal literal `a / b` denotes, such as `0.1` for `1 / 10`. -/
def Binary64.ofDecimal (a : Int) (b : Nat) : Binary64 := Binary64.round (a * 2 ^ 1074) b

/-- The `double` 0.0. -/
instance Binary64.instZero : Zero Binary64 := ⟨.finite 0⟩

/-- The `double` 1.0. -/
instance Binary64.instOne : One Binary64 := ⟨.finite (2 ^ 1074)⟩

/-- `operator+` on `double`: the exact sum, rounded. -/
instance Binary64.instAdd : Add Binary64 :=
  ⟨fun x y => match x, y with
    | .finite a, .finite b => Binary64.round (a + b) 1
    | _, _ => .nan⟩

/-- `operator*` on `double`: the exact product, rounded. -/
instance Binary64.instMul : Mul Binary64 :=
  ⟨fun x y => match x, y with
    | .finite a, .finite b => Binary64.round (a * b) (2 ^ 1074)
    | _, _ => .nan⟩

/-- `operator/` on `double`: the exact quotient, rounded; a division by zero gives an
infinity or NaN. -/
instance Binary64.instDiv : Div Binary64 :=
  ⟨fun x y => match x, y with
    | .finite a, .finite b =>
      if b = 0 then .nan
      else Binary64.round (if b < 0 then -(a * 2 ^ 1074) else a * 2 ^ 1074) b.natAbs
    | _, _ => .nan⟩

/-- The store after `Number x = 0.1; Number a = x + x; Number b = x + a; Number c = x * a;
Number y = b * c;`, in binary64 arithmetic; the root `y` is at address 4. -/
def roundingHeap : Heap Binary64 :=
  [ newNode 0 (.Leaf (Binary64.ofDecimal 1 10)), newNode 0 (.PlusNode 0 0),
    newNode 0 (.PlusNode 0 1), newNode 0 (.TimesNode 0 1), newNode 0 (.TimesNode 2 3) ]

/-! ### How a call ends -/

/-- The ways a call of a member function can end in C++: it returns, it throws an exception
and leaves the store as it is at the `throw`, or it runs into undefined behaviour, as when
a null pointer is dereferenced. -/
inductive Outcome (α β : Type) where
  | returns (b : β)
  | throws (h : Heap α)
  | undefinedBehaviour

/-- `Number::setVal`, with the way the call ends: `dynamic_pointer_cast<Leaf>(myNode)` is a
null pointer unless the node is a `Leaf`, and `->setVal(val)` dereferences it; the function
has no `throw`. -/
def Number.setValOutcome (h : Heap α) (myNode : Nat) (val : α) : Outcome α (Heap α) :=
  match h[myNode]? with
  | none => .undefinedBehaviour
  | some n =>
    match n.kind with
    | .Leaf _ => .returns (h.set myNode { n with kind := .Leaf val })
    | _ => .undefinedBehaviour

/-- `Number::getVal`, with the way the call ends. -/
def Number.getValOutcome (h : Heap α) (myNode : Nat) : Outcome α α :=
  match h[myNode]? with
  | none => .undefinedBehaviour
  | some n =>
    match n.kind with
    | .Leaf myValue => .returns myValue
    | _ => .undefinedBehaviour

/-- The store of `y = x * x` with `x = v` after `y.evaluate()`: results cached, flags set. -/
def evaluatedDiamondHeap [Zero α] [Mul α] (v : α) : Heap α :=
  [ ⟨.Leaf v, true, 0, v, 0⟩, ⟨.TimesNode 0 0, true, 0, v * v, 0⟩ ]

/-- The store of `y = x * x` with `x = v` after `y.evaluate()` and the first two statements of
`y.propagateAdjoints()`: adjoints reset, the adjoint of `y` set to 1. -/
def seededDiamondHeap [Zero α] [One α] [Mul α] (v : α) : Heap α :=
  [ ⟨.Leaf v, true, 0, v, 0⟩, ⟨.TimesNode 0 0, true, 0, v * v, 1⟩ ]

/-! ## Reachability -/

theorem Reach.trans {g : Nat → List Nat} {a b c : Nat} (h1 : Reach g a b) (h2 : Reach g b c) :
    Reach g a c := by
  induction h1 with
  | refl _ => exact h2
  | step ha _ ih => exact Reach.step ha (ih h2)

theorem Reach.tail {g : Nat → List Nat} {i n a : Nat} (h1 : Reach g i n) (ha : a ∈ g n) :
    Reach g i a :=
  h1.trans (Reach.step ha (Reach.refl a))

theorem Reach.le {g : Nat → List Nat} (hg : WFg g) {i n : Nat} (h : Reach g i n) : n ≤ i := by
  induction h with
  | refl _ => exact Nat.le_refl _
  | step ha _ ih => exact Nat.le_of_lt (Nat.lt_of_le_of_lt ih (hg _ _ ha))

theorem Reach.eq_or_step {g : Nat → List Nat} {i n : Nat} (h : Reach g i n) :
    n = i ∨ ∃ a ∈ g i, Reach g a n := by
  cases h with
  | refl _ => exact Or.inl rfl
  | step ha h2 => exact Or.inr ⟨_, ha, h2⟩

theorem Closed.reach {g : Nat → List Nat} {vis : Nat → Bool} (hc : Closed g vis) {i n : Nat}
    (h : Reach g i n) (hi : vis i = true) : vis n = true := by
  induction h with
  | refl _ => exact hi
  | step ha _ ih => exact ih (hc _ hi _ ha)

/-! ## The post-order visiting sequence -/

theorem Topo.congr {g : Nat → List Nat} {vis vis' : Nat → Bool} (h : ∀ m, vis m = vis' m)
    {L : List Nat} (ht : Topo g vis L) : Topo g vis' L := by
  have e : vis = vis' := funext h
  subst e
  exact ht

theorem Topo.append_iff {g : Nat → List Nat} (A B : List Nat) :
    ∀ vis : Nat → Bool, Topo g vis (A ++ B) ↔
      Topo g vis A ∧ Topo g (fun m => vis m || decide (m ∈ A)) B := by
  induction A with
  | nil =>
    intro vis
    simp only [List.nil_append, Topo, true_and]
    constructor <;> intro h <;> refine Topo.congr ?_ h <;> intro m <;> simp
  | cons n A ih =>
    intro vis
    show ((∀ a ∈ g n, vis a = true) ∧ Topo g (fun m => vis m || decide (m = n)) (A ++ B)) ↔
      ((∀ a ∈ g n, vis a = true) ∧ Topo g (fun m => vis m || decide (m = n)) A) ∧
        Topo g (fun m => vis m || decide (m ∈ n :: A)) B
    rw [ih, and_assoc]
    constructor
    · rintro ⟨h1, h2, h3⟩
      refine ⟨h1, h2, Topo.congr ?_ h3⟩
      intro m
      simp [Bool.or_assoc]
    · rintro ⟨h1, h2, h3⟩
      refine ⟨h1, h2, Topo.congr ?_ h3⟩
      intro m
      simp [Bool.or_assoc]

theorem Topo.split {g : Nat → List Nat} {vis : Nat → Bool} {L1 L2 : List Nat} {n : Nat}
    (h : Topo g vis (L1 ++ n :: L2)) : ∀ a ∈ g n, vis a = true ∨ a ∈ L1 := by
  rw [Topo.append_iff] at h
  intro a ha
  have := h.2.1 a ha
  simpa using this

theorem Topo.closed {g : Nat → List Nat} : ∀ (L : List Nat) (vis : Nat → Bool),
    Closed g vis → Topo g vis L → Closed g (fun m => vis m || decide (m ∈ L)) := by
  intro L
  induction L with
  | nil =>
    intro vis hc _ n hn a ha
    have : vis n = true := by simpa using hn
    simpa using hc n this a ha
  | cons x L ih =>
    intro vis hc ht
    have hc1 : Closed g (fun m => vis m || decide (m = x)) := by
      intro n hn a ha
      have hn' : vis n = true ∨ n = x := by simpa using hn
      rcases hn' with hn' | rfl
      · simp [hc n hn' a ha]
      · simp [ht.1 a ha]
    have := ih _ hc1 ht.2
    intro n hn a ha
    have hn' : (fun m => (vis m || decide (m = x)) || decide (m ∈ L)) n = true := by
      have : vis n = true ∨ n = x ∨ n ∈ L := by simpa using hn
      rcases this with h | h | h <;> simp [h]
    have r := this n hn' a ha
    have : (vis a = true ∨ a = x) ∨ a ∈ L := by simpa using r
    rcases this with (h | h) | h <;> simp [h]

/-- A guarded post-order walk from `i`, started with a closed set of marked nodes, visits
unmarked nodes reachable from `i`, none twice, operands before users, and ends with `i`
marked. -/
theorem postSeq_spec {g : Nat → List Nat} (hg : WFg g) :
    ∀ (fuel : Nat) (vis : Nat → Bool) (i : Nat), i < fuel → Closed g vis →
      (∀ n ∈ postSeq g fuel vis i, vis n = false ∧ Reach g i n) ∧
        (postSeq g fuel vis i).Nodup ∧ Topo g vis (postSeq g fuel vis i) ∧
        (vis i = true ∨ i ∈ postSeq g fuel vis i) := by
  intro fuel
  induction fuel with
  | zero => intro _ i hi; exact absurd hi (Nat.not_lt_zero _)
  | succ fuel ih =>
    intro vis i hi hc
    simp only [postSeq]
    by_cases hv : vis i = true
    · simp [hv, Topo]
    · have hv' : vis i = false := by simpa using hv
      simp only [hv', Bool.false_eq_true, if_false]
      -- the walks over the operands
      have key : ∀ (as : List Nat), (∀ a ∈ as, a < fuel) → ∀ (vis : Nat → Bool), Closed g vis →
          (∀ n ∈ seqOver (postSeq g fuel) vis as, vis n = false ∧ ∃ a ∈ as, Reach g a n) ∧
          (seqOver (postSeq g fuel) vis as).Nodup ∧ Topo g vis (seqOver (postSeq g fuel) vis as) ∧
          (∀ a ∈ as, vis a = true ∨ a ∈ seqOver (postSeq g fuel) vis as) := by
        intro as
        induction as with
        | nil => intro _ vis _; simp [seqOver, Topo]
        | cons a as ih2 =>
          intro has vis hc
          obtain ⟨h1, h2, h3, h4⟩ := ih vis a (has a (List.mem_cons_self _ _)) hc
          have hc1 := Topo.closed _ _ hc h3
          obtain ⟨k1, k2, k3, k4⟩ :=
            ih2 (fun b hb => has b (List.mem_cons_of_mem _ hb)) _ hc1
          simp only [seqOver]
          refine ⟨?_, ?_, ?_, ?_⟩
          · intro n hn
            rcases List.mem_append.1 hn with hn | hn
            · exact ⟨(h1 n hn).1, a, List.mem_cons_self _ _, (h1 n hn).2⟩
            · obtain ⟨e1, b, hb, hr⟩ := k1 n hn
              have e2 : vis n = false ∧ n ∉ postSeq g fuel vis a := by simpa using e1
              exact ⟨e2.1, b, List.mem_cons_of_mem _ hb, hr⟩
          · refine List.Nodup.append h2 k2 ?_
            intro n hn1 hn2
            have e1 := (k1 n hn2).1
            have e2 : vis n = false ∧ n ∉ postSeq g fuel vis a := by simpa using e1
            exact e2.2 hn1
          · exact (Topo.append_iff _ _ _).2 ⟨h3, k3⟩
          · intro b hb
            rcases List.mem_cons.1 hb with rfl | hb
            · rcases h4 with h4 | h4
              · exact Or.inl h4
              · exact Or.inr (List.mem_append_left _ h4)
            · rcases k4 b hb with h | h
              · have : vis b = true ∨ b ∈ postSeq g fuel vis a := by simpa using h
                rcases this with h | h
                · exact Or.inl h
                · exact Or.inr (List.mem_append_left _ h)
              · exact Or.inr (List.mem_append_right _ h)
      have hlt : ∀ a ∈ g i, a < fuel := fun a ha =>
        Nat.lt_of_lt_of_le (hg i a ha) (Nat.le_of_lt_succ hi)
      obtain ⟨k1, k2, k3, k4⟩ := key (g i) hlt vis hc
      refine ⟨?_, ?_, ?_, ?_⟩
      · intro n hn
        rcases List.mem_append.1 hn with hn | hn
        · obtain ⟨e1, b, hb, hr⟩ := k1 n hn
          exact ⟨e1, Reach.step hb hr⟩
        · have : n = i := by simpa using hn
          subst this
          exact ⟨hv', Reach.refl _⟩
      · refine List.Nodup.append k2 (List.nodup_singleton _) ?_
        intro n hn1 hn2
        have : n = i := by simpa using hn2
        subst this
        obtain ⟨_, b, hb, hr⟩ := k1 n hn1
        have := Reach.le hg hr
        have := hg n b hb
        omega
      · refine (Topo.append_iff _ _ _).2 ⟨k3, ?_⟩
        refine ⟨?_, trivial⟩
        intro a ha
        rcases k4 a ha with h | h <;> simp [h]
      · exact Or.inr (List.mem_append_right _ (List.mem_singleton_self _))

theorem postSeq_congr {g : Nat → List Nat} :
    ∀ (fuel : Nat) (vis vis' : Nat → Bool) (i : Nat),
      (∀ n, Reach g i n → vis n = vis' n) →
      postSeq g fuel vis i = postSeq g fuel vis' i := by
  intro fuel
  induction fuel with
  | zero => intro _ _ _ _; rfl
  | succ fuel ih =>
    intro vis vis' i hag
    simp only [postSeq]
    rw [← hag i (Reach.refl i)]
    have key : ∀ (as : List Nat) (vis vis' : Nat → Bool),
        (∀ a ∈ as, ∀ n, Reach g a n → vis n = vis' n) →
        seqOver (postSeq g fuel) vis as = seqOver (postSeq g fuel) vis' as := by
      intro as
      induction as with
      | nil => intro _ _ _; rfl
      | cons a as ih2 =>
        intro vis vis' h
        simp only [seqOver]
        have e := ih vis vis' a (h a (List.mem_cons_self _ _))
        rw [e]
        congr 1
        apply ih2
        intro b hb n hr
        rw [h b (List.mem_cons_of_mem _ hb) n hr]
    rw [key (g i) vis vis' (fun a ha n hr => hag n (Reach.step ha hr))]

/-- The visiting sequence of a guarded post-order walk from `i` when nothing reachable from
`i` is marked: exactly the nodes reachable from `i`, each once, operands before users,
`i` last. -/
theorem postSeq_fresh {g : Nat → List Nat} (hg : WFg g) (fuel : Nat) (vis : Nat → Bool) (i : Nat)
    (hi : i < fuel) (hv : ∀ n, Reach g i n → vis n = false) :
    postSeq g fuel vis i = postSeq g fuel (fun _ => false) i ∧
      (∀ n, n ∈ postSeq g fuel vis i ↔ Reach g i n) ∧
      (postSeq g fuel vis i).Nodup ∧ Topo g (fun _ => false) (postSeq g fuel vis i) ∧
      ∃ L0, postSeq g fuel vis i = L0 ++ [i] := by
  have e := postSeq_congr fuel vis (fun _ => false) i hv
  have hc : Closed g (fun _ => false) := by intro n hn; simp at hn
  obtain ⟨h1, h2, h3, h4⟩ := postSeq_spec hg fuel (fun _ => false) i hi hc
  rw [e]
  refine ⟨rfl, ?_, h2, h3, ?_⟩
  · intro n
    constructor
    · intro hn; exact (h1 n hn).2
    · intro hr
      have hc' := Topo.closed _ _ hc h3
      have hi' : (fun m => false || decide (m ∈ postSeq g fuel (fun _ => false) i)) i = true := by
        rcases h4 with h4 | h4
        · simp at h4
        · simp [h4]
      have := hc'.reach hr hi'
      simpa using this
  · cases fuel with
    | zero => exact absurd hi (Nat.not_lt_zero _)
    | succ fuel => exact ⟨seqOver (postSeq g fuel) (fun _ => false) (g i), by simp [postSeq]⟩

/-! ## The store -/

theorem update_eq_some {h h' : Heap α} {i : Nat} {f : Node α → Node α}
    (e : update h i f = some h') :
    i < h.length ∧ h'.length = h.length ∧
      ∀ j, h'[j]? = if j = i then (h[j]?).map f else h[j]? := by
  unfold update at e
  cases hn : h[i]? with
  | none => simp [hn] at e
  | some n =>
    simp only [hn, Option.some.injEq] at e
    subst e
    have hi : i < h.length := by
      rcases List.getElem?_eq_some_iff.1 hn with ⟨hi, _⟩
      exact hi
    refine ⟨hi, by simp, ?_⟩
    intro j
    by_cases hj : j = i
    · subst hj
      simp [hn, hi]
    · have : i ≠ j := fun e => hj e.symm
      simp [hj, this]

theorem update_of_lt {h : Heap α} {i : Nat} (f : Node α → Node α) (hi : i < h.length) :
    ∃ h', update h i f = some h' := by
  unfold update
  rw [List.getElem?_eq_getElem hi]
  exact ⟨_, rfl⟩

theorem args_congr {h h' : Heap α} (e : ∀ j, kindAt h' j = kindAt h j) : args h' = args h := by
  funext j
  simp only [args, e j]

theorem isLeaf_congr {h h' : Heap α} (e : ∀ j, kindAt h' j = kindAt h j) :
    isLeaf h' = isLeaf h := by
  funext j
  simp only [isLeaf, e j]

theorem args_of_ge {h : Heap α} {i : Nat} (hi : h.length ≤ i) : args h i = [] := by
  simp [args, kindAt, List.getElem?_eq_none hi]

theorem WF.wfg {h : Heap α} (hw : WF h) : WFg (args h) := by
  intro i a ha
  by_cases hi : i < h.length
  · exact hw i hi a ha
  · rw [args_of_ge (Nat.le_of_not_lt hi)] at ha
    simp at ha

theorem WF.transport {h h' : Heap α} (hw : WF h) (hl : h'.length = h.length)
    (e : ∀ j, kindAt h' j = kindAt h j) : WF h' := by
  intro i hi a ha
  rw [args_congr e] at ha
  exact hw i (hl ▸ hi) a ha

theorem WF.arg_lt {h : Heap α} (hw : WF h) {i a : Nat} (ha : a ∈ args h i) :
    a < i ∧ a < h.length := by
  by_cases hi : i < h.length
  · have := hw i hi a ha
    omega
  · rw [args_of_ge (Nat.le_of_not_lt hi)] at ha
    simp at ha

theorem Reach.lt_length {h : Heap α} (hw : WF h) {i n : Nat} (hr : Reach (args h) i n)
    (hi : i < h.length) : n < h.length :=
  Nat.lt_of_le_of_lt (hr.le hw.wfg) hi

/-! ## A guarded post-order walk is a fold over its visiting sequence -/

theorem markStep_frame {σ : Type} {visitFunc : σ × Heap α → Nat → Option (σ × Heap α)}
    (hv : Pres visitFunc) {st st' : σ × Heap α} {n : Nat}
    (e : markStep visitFunc st n = some st') :
    st'.2.length = st.2.length ∧ (∀ j, kindAt st'.2 j = kindAt st.2 j) ∧
      (∀ j, proc st'.2 j = (proc st.2 j || decide (j = n))) := by
  unfold markStep at e
  cases e1 : visitFunc st n with
  | none => simp [e1] at e
  | some st2 =>
    obtain ⟨p1, p2, p3⟩ := hv st n st2 e1
    simp only [e1, Option.some_bind] at e
    cases e2 : update st2.2 n (fun m => { m with myProcessed := true }) with
    | none => simp [e2] at e
    | some h3 =>
      simp only [e2, Option.map_some', Option.some.injEq] at e
      subst e
      obtain ⟨q1, q2, q3⟩ := update_eq_some e2
      refine ⟨by simp [q2, p1], ?_, ?_⟩
      · intro j
        rw [← p2 j]
        simp only [kindAt, q3 j]
        by_cases hj : j = n
        · simp only [hj, if_true]
          cases st2.2[n]? <;> rfl
        · simp [hj]
      · intro j
        rw [← p3 j]
        simp only [proc, q3 j]
        by_cases hj : j = n
        · subst hj
          simp [List.getElem?_eq_getElem q1]
        · simp [hj]

theorem foldlM_markStep_frame {σ : Type} {visitFunc : σ × Heap α → Nat → Option (σ × Heap α)}
    (hv : Pres visitFunc) :
    ∀ (L : List Nat) (st st' : σ × Heap α), L.foldlM (markStep visitFunc) st = some st' →
      st'.2.length = st.2.length ∧ (∀ j, kindAt st'.2 j = kindAt st.2 j) ∧
        (∀ j, proc st'.2 j = (proc st.2 j || decide (j ∈ L))) := by
  intro L
  induction L with
  | nil =>
    intro st st' e
    simp only [List.foldlM_nil, pure, Option.some.injEq] at e
    subst e
    simp
  | cons n L ih =>
    intro st st' e
    simp only [List.foldlM_cons, bind, Option.bind] at e
    cases e1 : markStep visitFunc st n with
    | none => simp [e1] at e
    | some st1 =>
      simp only [e1] at e
      obtain ⟨p1, p2, p3⟩ := markStep_frame hv e1
      obtain ⟨q1, q2, q3⟩ := ih st1 st' e
      refine ⟨by rw [q1, p1], fun j => by rw [q2, p2], ?_⟩
      intro j
      rw [q3, p3]
      by_cases hj : j = n <;> simp [hj, Bool.or_assoc]

theorem postOrder_eq_fold {σ : Type} {visitFunc : σ × Heap α → Nat → Option (σ × Heap α)}
    (hv : Pres visitFunc) :
    ∀ (fuel : Nat) (st : σ × Heap α) (i : Nat), WF st.2 → i < st.2.length → i < fuel →
      postOrder visitFunc fuel st i =
        (postSeq (args st.2) fuel (proc st.2) i).foldlM (markStep visitFunc) st := by
  intro fuel
  induction fuel with
  | zero => intro _ i _ _ hi; exact absurd hi (Nat.not_lt_zero _)
  | succ fuel ih =>
    intro st i hw hil hif
    have key : ∀ (as : List Nat) (st : σ × Heap α), WF st.2 →
        (∀ a ∈ as, a < st.2.length ∧ a < fuel) →
        as.foldlM (postOrder visitFunc fuel) st =
          (seqOver (postSeq (args st.2) fuel) (proc st.2) as).foldlM (markStep visitFunc) st := by
      intro as
      induction as with
      | nil => intro st _ _; simp [seqOver]
      | cons a as ih2 =>
        intro st hw has
        obtain ⟨ha1, ha2⟩ := has a (List.mem_cons_self _ _)
        simp only [List.foldlM_cons, seqOver, List.foldlM_append]
        rw [ih st a hw ha1 ha2]
        cases e1 : (postSeq (args st.2) fuel (proc st.2) a).foldlM (markStep visitFunc) st with
        | none => rfl
        | some st1 =>
          obtain ⟨p1, p2, p3⟩ := foldlM_markStep_frame hv _ _ _ e1
          have hw1 : WF st1.2 := hw.transport p1 p2
          have := ih2 st1 hw1 (fun b hb => by
            have := has b (List.mem_cons_of_mem _ hb)
            rw [p1]; exact this)
          simp only [bind, Option.bind]
          rw [this, args_congr p2]
          have e : proc st1.2 = fun n =>
              proc st.2 n || decide (n ∈ postSeq (args st.2) fuel (proc st.2) a) := funext p3
          rw [e]
    unfold postOrder
    have hn : st.2[i]? = some st.2[i] := List.getElem?_eq_getElem hil
    simp only [hn]
    have hp : proc st.2 i = st.2[i].myProcessed := by simp [proc, hn]
    have ha : args st.2 i = st.2[i].kind.myArguments := by simp [args, kindAt, hn]
    simp only [postSeq, hp]
    by_cases hproc : st.2[i].myProcessed = true
    · simp [hproc]
    · have hproc' : st.2[i].myProcessed = false := by simpa using hproc
      simp only [hproc', if_true, Bool.false_eq_true, if_false, List.foldlM_append]
      rw [← ha, key (args st.2 i) st hw (fun a ha => by
        have := hw.arg_lt ha
        omega)]
      cases (seqOver (postSeq (args st.2) fuel) (proc st.2) (args st.2 i)).foldlM
          (markStep visitFunc) st with
      | none => rfl
      | some st1 =>
        simp only [Option.some_bind, bind, Option.bind, List.foldlM_cons, List.foldlM_nil,
          markStep, pure]
        cases visitFunc st1 i with
        | none => rfl
        | some st2 =>
          simp only
          cases update st2.2 i (fun m => { m with myProcessed := true }) <;> rfl

/-! ## The two reset walks -/

theorem resetProcessed_eq (fuel : Nat) :
    ∀ (h : Heap α) (i : Nat),
      resetProcessed fuel h i = resetWith (fun m => { m with myProcessed := false }) fuel h i := by
  induction fuel with
  | zero => intro _ _; rfl
  | succ fuel ih =>
    intro h i
    have e : resetProcessed (α := α) fuel =
        resetWith (fun m => { m with myProcessed := false }) fuel := by
      funext h i; exact ih h i
    simp only [resetProcessed, resetWith, e]

theorem resetAdjoints_eq [Zero α] (fuel : Nat) :
    ∀ (h : Heap α) (i : Nat),
      resetAdjoints fuel h i = resetWith (fun m : Node α => { m with myAdjoint := 0 }) fuel h i := by
  induction fuel with
  | zero => intro _ _; rfl
  | succ fuel ih =>
    intro h i
    have e : resetAdjoints (α := α) fuel =
        resetWith (fun m : Node α => { m with myAdjoint := 0 }) fuel := by
      funext h i; exact ih h i
    simp only [resetAdjoints, resetWith, e]

theorem kindAt_of_map {h h' : Heap α} {F : Node α → Node α} (hk : ∀ n, (F n).kind = n.kind)
    {j : Nat} (e : h'[j]? = (h[j]?).map F ∨ h'[j]? = h[j]?) : kindAt h' j = kindAt h j := by
  unfold kindAt
  rcases e with e | e
  · rw [e]
    cases h[j]? with
    | none => rfl
    | some n => simp [hk]
  · rw [e]

/-- A reset walk from `i` applies `F` to every node reachable from `i` and to no other. -/
theorem resetWith_spec {F : Node α → Node α} (hF : ∀ n, F (F n) = F n)
    (hk : ∀ n, (F n).kind = n.kind) :
    ∀ (fuel : Nat) (h : Heap α) (i : Nat), WF h → i < h.length → i < fuel →
      ∃ h', resetWith F fuel h i = some h' ∧ h'.length = h.length ∧
        (∀ j, Reach (args h) i j → h'[j]? = (h[j]?).map F) ∧
        (∀ j, ¬ Reach (args h) i j → h'[j]? = h[j]?) := by
  intro fuel
  induction fuel with
  | zero => intro _ i _ _ hi; exact absurd hi (Nat.not_lt_zero _)
  | succ fuel ih =>
    intro h i hw hil hif
    have key : ∀ (as : List Nat) (h : Heap α), WF h → (∀ a ∈ as, a < h.length ∧ a < fuel) →
        ∃ h', as.foldlM (resetWith F fuel) h = some h' ∧ h'.length = h.length ∧
          (∀ j, (∃ a ∈ as, Reach (args h) a j) → h'[j]? = (h[j]?).map F) ∧
          (∀ j, ¬ (∃ a ∈ as, Reach (args h) a j) → h'[j]? = h[j]?) := by
      intro as
      induction as with
      | nil =>
        intro h _ _
        exact ⟨h, rfl, rfl, by simp, by simp⟩
      | cons a as ih2 =>
        intro h hw has
        obtain ⟨ha1, ha2⟩ := has a (List.mem_cons_self _ _)
        obtain ⟨h1, e1, l1, r1, n1⟩ := ih h a hw ha1 ha2
        have k1 : ∀ j, kindAt h1 j = kindAt h j := by
          intro j
          by_cases hr : Reach (args h) a j
          · exact kindAt_of_map hk (Or.inl (r1 j hr))
          · exact kindAt_of_map hk (Or.inr (n1 j hr))
        have hw1 : WF h1 := hw.transport l1 k1
        obtain ⟨h2, e2, l2, r2, n2⟩ := ih2 h1 hw1 (fun b hb => by
          have := has b (List.mem_cons_of_mem _ hb)
          rw [l1]; exact this)
        rw [args_congr k1] at r2 n2
        refine ⟨h2, ?_, by rw [l2, l1], ?_, ?_⟩
        · simp only [List.foldlM_cons, e1, bind, Option.bind]
          exact e2
        · rintro j ⟨b, hb, hr⟩
          by_cases hra : Reach (args h) a j
          · by_cases hrs : ∃ b ∈ as, Reach (args h) b j
            · rw [r2 j hrs, r1 j hra]
              cases h[j]? with
              | none => rfl
              | some n => simp [hF]
            · rw [n2 j hrs, r1 j hra]
          · rcases List.mem_cons.1 hb with rfl | hb
            · exact absurd hr hra
            · rw [r2 j ⟨b, hb, hr⟩, n1 j hra]
        · intro j hj
          have hra : ¬ Reach (args h) a j := fun hr => hj ⟨a, List.mem_cons_self _ _, hr⟩
          have hrs : ¬ ∃ b ∈ as, Reach (args h) b j := by
            rintro ⟨b, hb, hr⟩
            exact hj ⟨b, List.mem_cons_of_mem _ hb, hr⟩
          rw [n2 j hrs, n1 j hra]
    have hn : h[i]? = some h[i] := List.getElem?_eq_getElem hil
    have ha : args h i = h[i].kind.myArguments := by simp [args, kindAt, hn]
    obtain ⟨h1, e1, l1, r1, n1⟩ := key (args h i) h hw (fun a ha => by
      have := hw.arg_lt ha
      omega)
    obtain ⟨h2, e2⟩ := update_of_lt F (l1 ▸ hil : i < h1.length)
    obtain ⟨_, l2, q2⟩ := update_eq_some e2
    have hni : ¬ ∃ a ∈ args h i, Reach (args h) a i := by
      rintro ⟨a, ha, hr⟩
      have := hr.le hw.wfg
      have := (hw.arg_lt ha).1
      omega
    refine ⟨h2, ?_, by rw [l2, l1], ?_, ?_⟩
    · simp only [resetWith, hn, ← ha, e1, Option.some_bind]
      exact e2
    · intro j hr
      rw [q2 j]
      by_cases hj : j = i
      · subst hj
        simp only [if_true]
        rw [n1 j hni]
      · simp only [hj, if_false]
        rcases hr.eq_or_step with e | ⟨a, ha', hr'⟩
        · exact absurd e hj
        · exact r1 j ⟨a, ha', hr'⟩
    · intro j hr
      rw [q2 j]
      have hj : j ≠ i := by
        rintro rfl
        exact hr (Reach.refl _)
      simp only [hj, if_false]
      apply n1
      rintro ⟨a, ha', hr'⟩
      exact hr (Reach.step ha' hr')

/-! ## The pre-order walk is a fold over its visiting sequence -/

theorem foldlM_frame {σ : Type} {visitFunc : σ × Heap α → Nat → Option (σ × Heap α)}
    (hv : Pres visitFunc) :
    ∀ (L : List Nat) (st st' : σ × Heap α), L.foldlM visitFunc st = some st' →
      st'.2.length = st.2.length ∧ (∀ j, kindAt st'.2 j = kindAt st.2 j) ∧
        (∀ j, proc st'.2 j = proc st.2 j) := by
  intro L
  induction L with
  | nil =>
    intro st st' e
    simp only [List.foldlM_nil, pure, Option.some.injEq] at e
    subst e
    simp
  | cons n L ih =>
    intro st st' e
    simp only [List.foldlM_cons, bind, Option.bind] at e
    cases e1 : visitFunc st n with
    | none => simp [e1] at e
    | some st1 =>
      simp only [e1] at e
      obtain ⟨p1, p2, p3⟩ := hv _ _ _ e1
      obtain ⟨q1, q2, q3⟩ := ih st1 st' e
      exact ⟨by rw [q1, p1], fun j => by rw [q2, p2], fun j => by rw [q3, p3]⟩

theorem preOrder_eq_fold {σ : Type} {visitFunc : σ × Heap α → Nat → Option (σ × Heap α)}
    (hv : Pres visitFunc) :
    ∀ (fuel : Nat) (st : σ × Heap α) (i : Nat), WF st.2 → i < st.2.length → i < fuel →
      preOrder visitFunc fuel st i = (preSeq (args st.2) fuel i).foldlM visitFunc st := by
  intro fuel
  induction fuel with
  | zero => intro _ i _ _ hi; exact absurd hi (Nat.not_lt_zero _)
  | succ fuel ih =>
    intro st i hw hil hif
    have key : ∀ (as : List Nat) (st : σ × Heap α), WF st.2 →
        (∀ a ∈ as, a < st.2.length ∧ a < fuel) →
        as.foldlM (preOrder visitFunc fuel) st =
          (as.flatMap (preSeq (args st.2) fuel)).foldlM visitFunc st := by
      intro as
      induction as with
      | nil => intro st _ _; simp
      | cons a as ih2 =>
        intro st hw has
        obtain ⟨ha1, ha2⟩ := has a (List.mem_cons_self _ _)
        simp only [List.foldlM_cons, List.flatMap_cons, List.foldlM_append]
        rw [ih st a hw ha1 ha2]
        cases e1 : (preSeq (args st.2) fuel a).foldlM visitFunc st with
        | none => rfl
        | some st1 =>
          obtain ⟨p1, p2, _⟩ := foldlM_frame hv _ _ _ e1
          have hw1 : WF st1.2 := hw.transport p1 p2
          have := ih2 st1 hw1 (fun b hb => by
            have := has b (List.mem_cons_of_mem _ hb)
            rw [p1]; exact this)
          simp only [bind, Option.bind]
          rw [this, args_congr p2]
    simp only [preOrder, preSeq, List.foldlM_cons, bind, Option.bind]
    cases e1 : visitFunc st i with
    | none => rfl
    | some st1 =>
      obtain ⟨p1, p2, _⟩ := hv _ _ _ e1
      have hil1 : i < st1.2.length := by rw [p1]; exact hil
      have hn : st1.2[i]? = some st1.2[i] := List.getElem?_eq_getElem hil1
      have ha : args st.2 i = st1.2[i].kind.myArguments := by
        rw [← args_congr p2]
        simp [args, kindAt, hn]
      simp only [hn, ← ha]
      rw [key (args st.2 i) st1 (hw.transport p1 p2) (fun a ha => by
        have := hw.arg_lt ha
        omega), args_congr p2]

/-! ## Ordering -/

theorem length_le_of_nodup_lt {L : List Nat} {N : Nat} (hd : L.Nodup) (hl : ∀ n ∈ L, n < N) :
    L.length ≤ N := by
  have hs : L ⊆ List.range N := fun n hn => List.mem_range.2 (hl n hn)
  have := (List.subperm_of_subset hd hs).length_le
  simpa using this

theorem markStep_setOrderLam {h : Heap α} {c n : Nat} (hn : n < h.length) (hc : c + 1 < 2 ^ 31) :
    ∃ h', markStep setOrderLam (c, h) n = some (c + 1, h') ∧ h'.length = h.length ∧
      ∀ j, h'[j]? = if j = n then
        (h[j]?).map (fun m => { m with myOrder := c + 1, myProcessed := true }) else h[j]? := by
  obtain ⟨h1, e1⟩ := update_of_lt (fun m => { m with myOrder := c + 1 }) hn
  obtain ⟨_, l1, q1⟩ := update_eq_some e1
  obtain ⟨h2, e2⟩ := update_of_lt (fun m => { m with myProcessed := true })
    (l1 ▸ hn : n < h1.length)
  obtain ⟨_, l2, q2⟩ := update_eq_some e2
  refine ⟨h2, ?_, by rw [l2, l1], ?_⟩
  · simp only [markStep, setOrderLam, Node.setOrder]
    rw [if_pos hc]
    simp [e1, e2]
  · intro j
    rw [q2 j]
    by_cases hj : j = n
    · simp only [hj, if_true]
      rw [q1 n]
      simp only [if_true]
      cases h[n]? <;> rfl
    · simp only [hj, if_false]
      rw [q1 j]
      simp [hj]

/-- Running the ordering visitor over a duplicate-free list numbers its entries
`c + 1, c + 2, ...` and marks them. -/
theorem foldlM_setOrderLam :
    ∀ (L : List Nat) (c : Nat) (h : Heap α), L.Nodup → (∀ n ∈ L, n < h.length) →
      c + L.length < 2 ^ 31 →
      ∃ h', L.foldlM (markStep setOrderLam) (c, h) = some (c + L.length, h') ∧
        h'.length = h.length ∧
        (∀ L1 n L2, L = L1 ++ n :: L2 → h'[n]? =
          (h[n]?).map (fun m => { m with myOrder := c + L1.length + 1, myProcessed := true })) ∧
        (∀ j, j ∉ L → h'[j]? = h[j]?) := by
  intro L
  induction L with
  | nil =>
    intro c h _ _ _
    refine ⟨h, rfl, rfl, ?_, fun _ _ => rfl⟩
    intro L1 n L2 e
    simp at e
  | cons x L ih =>
    intro c h hd hl hc
    have hx : x < h.length := hl x (List.mem_cons_self _ _)
    simp only [List.length_cons] at hc
    obtain ⟨h1, e1, l1, q1⟩ := markStep_setOrderLam (c := c) hx (by omega)
    have hd' := List.nodup_cons.1 hd
    obtain ⟨h2, e2, l2, q2, r2⟩ := ih (c + 1) h1 hd'.2
      (fun n hn => by rw [l1]; exact hl n (List.mem_cons_of_mem _ hn)) (by omega)
    refine ⟨h2, ?_, by rw [l2, l1], ?_, ?_⟩
    · simp only [List.foldlM_cons, e1, bind, Option.bind, List.length_cons]
      rw [e2]
      congr 2
      omega
    · intro L1 n L2 e
      rcases List.cons_eq_append_iff.1 e with ⟨rfl, e'⟩ | ⟨L1', rfl, e'⟩
      · have hxn : n = x := (List.cons.inj e').1
        rw [hxn, r2 x hd'.1, q1 x]
        simp
      · have hne : n ≠ x := by
          rintro rfl
          apply hd'.1
          rw [e']
          simp
        rw [q2 L1' n L2 e', q1 n]
        simp only [hne, if_false, List.length_cons]
        have : c + 1 + L1'.length + 1 = c + (L1'.length + 1) + 1 := by omega
        rw [this]
    · intro j hj
      have hj' : j ≠ x ∧ j ∉ L := by simpa [List.mem_cons, not_or] using hj
      rw [r2 j hj'.2, q1 j]
      simp [hj'.1]

theorem setOrderLam_pres : Pres (setOrderLam (α := α)) := by
  intro st n st' e
  unfold setOrderLam at e
  split at e
  · cases e1 : Node.setOrder st.2 n (st.1 + 1) with
    | none => simp [e1] at e
    | some h1 =>
      simp only [e1, Option.map_some', Option.some.injEq] at e
      subst e
      obtain ⟨_, l1, q1⟩ := update_eq_some e1
      refine ⟨l1, ?_, ?_⟩
      · intro j
        simp only [kindAt, q1 j]
        by_cases hj : j = n
        · simp only [hj, if_true]
          cases st.2[n]? <;> rfl
        · simp [hj]
      · intro j
        simp only [proc, q1 j]
        by_cases hj : j = n
        · simp only [hj, if_true]
          cases st.2[n]? <;> rfl
        · simp [hj]
  · simp at e

/-- What `Number::setOrder` does to a well-formed store: the nodes reachable from the root
are numbered 1, 2, ... along the post-order visiting sequence and marked processed; every
other node is untouched. -/
theorem setOrder_spec (h : Heap α) (root : Nat) (hw : WF h) (hr : root < h.length)
    (hsz : h.length < 2 ^ 31) :
    ∃ h', Number.setOrder h root = some h' ∧ h'.length = h.length ∧
      (∀ j, kindAt h' j = kindAt h j) ∧
      (∀ L1 n L2, postSeq (args h) h.length (fun _ => false) root = L1 ++ n :: L2 →
        h'[n]? = (h[n]?).map (fun m => { m with myOrder := L1.length + 1, myProcessed := true })) ∧
      (∀ j, ¬ Reach (args h) root j → h'[j]? = h[j]?) := by
  obtain ⟨h1, e1, l1, r1, n1⟩ := resetWith_spec (F := fun m => { m with myProcessed := false })
    (fun _ => rfl) (fun _ => rfl) h.length h root hw hr hr
  have k1 : ∀ j, kindAt h1 j = kindAt h j := by
    intro j
    by_cases hj : Reach (args h) root j
    · exact kindAt_of_map (F := fun m => { m with myProcessed := false }) (fun _ => rfl)
        (Or.inl (r1 j hj))
    · exact kindAt_of_map (F := id) (fun _ => rfl) (Or.inr (n1 j hj))
  have hw1 : WF h1 := hw.transport l1 k1
  have hfold := postOrder_eq_fold (setOrderLam_pres (α := α)) h.length (0, h1) root hw1
    (by rw [l1]; exact hr) hr
  have hfresh := postSeq_fresh hw.wfg h.length (proc h1) root hr (by
    intro n hn
    simp only [proc, r1 n hn]
    cases h[n]? <;> rfl)
  obtain ⟨f1, f2, f3, _, _⟩ := hfresh
  simp only [args_congr k1] at hfold
  rw [f1] at hfold f2 f3
  have hlt : ∀ n ∈ postSeq (args h) h.length (fun _ => false) root, n < h1.length := by
    intro n hn
    rw [l1]
    exact ((f2 n).1 hn).lt_length hw hr
  have hlen := length_le_of_nodup_lt f3 hlt
  rw [l1] at hlen
  obtain ⟨h2, e2, l2, q2, r2⟩ := foldlM_setOrderLam _ 0 h1 f3 hlt (by omega)
  refine ⟨h2, ?_, by rw [l2, l1], ?_, ?_, ?_⟩
  · simp only [Number.setOrder, ← resetProcessed_eq] at e1 ⊢
    simp only [e1, Option.some_bind, hfold, e2, Option.map_some']
  · intro j
    rw [← k1 j]
    by_cases hj : j ∈ postSeq (args h) h.length (fun _ => false) root
    · obtain ⟨L1, L2, e⟩ := List.append_of_mem hj
      exact kindAt_of_map
        (F := fun m => { m with myOrder := 0 + L1.length + 1, myProcessed := true })
        (fun _ => rfl) (Or.inl (q2 L1 j L2 e))
    · exact kindAt_of_map (F := id) (fun _ => rfl) (Or.inr (r2 j hj))
  · intro L1 n L2 e
    have hn : n ∈ postSeq (args h) h.length (fun _ => false) root := by rw [e]; simp
    rw [q2 L1 n L2 e, r1 n ((f2 n).1 hn)]
    cases h[n]? with
    | none => rfl
    | some m => simp
  · intro j hj
    have : j ∉ postSeq (args h) h.length (fun _ => false) root := fun hm => hj ((f2 j).1 hm)
    rw [r2 j this, n1 j hj]

/-! ## Evaluation -/

theorem value_fuel [Zero α] [Add α] [Mul α] (log : α → α) {h : Heap α} (hw : WF h) :
    ∀ (fuel fuel' i : Nat), i < fuel → i < fuel' → value log h fuel i = value log h fuel' i := by
  intro fuel
  induction fuel with
  | zero => intro _ i hi; exact absurd hi (Nat.not_lt_zero _)
  | succ fuel ih =>
    intro fuel' i hi hi'
    cases fuel' with
    | zero => exact absurd hi' (Nat.not_lt_zero _)
    | succ fuel' =>
      simp only [value]
      cases hk : kindAt h i with
      | none => rfl
      | some k =>
        have ha : args h i = k.myArguments := by simp [args, hk]
        have hlt : ∀ a ∈ k.myArguments, a < fuel ∧ a < fuel' := by
          intro a hm
          have := (hw.arg_lt (ha ▸ hm)).1
          omega
        cases k with
        | Leaf v => rfl
        | PlusNode l r =>
          simp only [Kind.myArguments, List.mem_cons, List.mem_singleton] at hlt
          simp only [ih fuel' l (hlt l (by simp)).1 (hlt l (by simp)).2,
            ih fuel' r (hlt r (by simp)).1 (hlt r (by simp)).2]
        | TimesNode l r =>
          simp only [Kind.myArguments, List.mem_cons, List.mem_singleton] at hlt
          simp only [ih fuel' l (hlt l (by simp)).1 (hlt l (by simp)).2,
            ih fuel' r (hlt r (by simp)).1 (hlt r (by simp)).2]
        | LogNode a =>
          simp only [Kind.myArguments, List.mem_singleton] at hlt
          simp only [ih fuel' a (hlt a (by simp)).1 (hlt a (by simp)).2]

theorem value_congr [Zero α] [Add α] [Mul α] (log : α → α) {h h' : Heap α}
    (e : ∀ j, kindAt h' j = kindAt h j) :
    ∀ (fuel i : Nat), value log h' fuel i = value log h fuel i := by
  intro fuel
  induction fuel with
  | zero => intro _; rfl
  | succ fuel ih =>
    intro i
    simp only [value, e i, ih]

theorem denote_congr [Zero α] [Add α] [Mul α] (log : α → α) {h h' : Heap α}
    (e : ∀ j, kindAt h' j = kindAt h j) (i : Nat) : denote log h' i = denote log h i :=
  value_congr log e _ _

/-- The denoted values satisfy the defining equation of every node. -/
theorem denote_consistent [Zero α] [Add α] [Mul α] (log : α → α) {h : Heap α} (hw : WF h)
    (j : Nat) : Consistent log h (denote log h) j := by
  unfold Consistent
  cases hk : kindAt h j with
  | none => trivial
  | some k =>
    have ha : args h j = k.myArguments := by simp [args, hk]
    have hlt : ∀ a ∈ k.myArguments, a < j := fun a hm => (hw.arg_lt (ha ▸ hm)).1
    cases k with
    | Leaf v => simp [denote, value, hk]
    | PlusNode l r =>
      simp only [Kind.myArguments, List.mem_cons, List.mem_singleton] at hlt
      show value log h (j + 1) j = value log h (l + 1) l + value log h (r + 1) r
      rw [value]
      simp only [hk]
      rw [value_fuel log hw j (l + 1) l (hlt l (by simp)) (by omega),
        value_fuel log hw j (r + 1) r (hlt r (by simp)) (by omega)]
    | TimesNode l r =>
      simp only [Kind.myArguments, List.mem_cons, List.mem_singleton] at hlt
      show value log h (j + 1) j = value log h (l + 1) l * value log h (r + 1) r
      rw [value]
      simp only [hk]
      rw [value_fuel log hw j (l + 1) l (hlt l (by simp)) (by omega),
        value_fuel log hw j (r + 1) r (hlt r (by simp)) (by omega)]
    | LogNode a =>
      simp only [Kind.myArguments, List.mem_singleton] at hlt
      show value log h (j + 1) j = log (value log h (a + 1) a)
      rw [value]
      simp only [hk]
      rw [value_fuel log hw j (a + 1) a (hlt a (by simp)) (by omega)]

theorem res_of_lt [Zero α] {h : Heap α} {i : Nat} (hi : i < h.length) :
    result h i = some (res h i) := by
  simp [res, result, List.getElem?_eq_getElem hi]

theorem Node.evaluate_eq [Zero α] [Add α] [Mul α] (log : α → α) {h : Heap α} (hw : WF h)
    {n : Nat} (hn : n < h.length) :
    Node.evaluate log h n = update h n (fun m => { m with myResult := opResult log h n }) := by
  have hg : h[n]? = some h[n] := List.getElem?_eq_getElem hn
  have hk : kindAt h n = some h[n].kind := by simp [kindAt, hg]
  have ha : args h n = h[n].kind.myArguments := by simp [args, hk]
  have hlt : ∀ a ∈ h[n].kind.myArguments, a < h.length := fun a hm => (hw.arg_lt (ha ▸ hm)).2
  simp only [Node.evaluate, hg, opResult, hk]
  cases hkk : h[n].kind with
  | Leaf v => rfl
  | PlusNode l r =>
    rw [hkk] at hlt
    simp only [Kind.myArguments, List.mem_cons, List.mem_singleton] at hlt
    simp only [res_of_lt (hlt l (by simp)), res_of_lt (hlt r (by simp)), Option.some_bind]
  | TimesNode l r =>
    rw [hkk] at hlt
    simp only [Kind.myArguments, List.mem_cons, List.mem_singleton] at hlt
    simp only [res_of_lt (hlt l (by simp)), res_of_lt (hlt r (by simp)), Option.some_bind]
  | LogNode a =>
    rw [hkk] at hlt
    simp only [Kind.myArguments, List.mem_singleton] at hlt
    simp only [res_of_lt (hlt a (by simp)), Option.some_bind]

theorem evaluateLam_pres [Add α] [Mul α] (log : α → α) : Pres (evaluateLam log) := by
  intro st n st' e
  unfold evaluateLam at e
  cases e1 : Node.evaluate log st.2 n with
  | none => simp [e1] at e
  | some h1 =>
    simp only [e1, Option.map_some', Option.some.injEq] at e
    subst e
    have key : ∀ (x : α), update st.2 n (fun m => { m with myResult := x }) = some h1 →
        h1.length = st.2.length ∧ (∀ j, kindAt h1 j = kindAt st.2 j) ∧
          (∀ j, proc h1 j = proc st.2 j) := by
      intro x e2
      obtain ⟨_, l1, q1⟩ := update_eq_some e2
      refine ⟨l1, ?_, ?_⟩
      · intro j
        simp only [kindAt, q1 j]
        by_cases hj : j = n
        · simp only [hj, if_true]
          cases st.2[n]? <;> rfl
        · simp [hj]
      · intro j
        simp only [proc, q1 j]
        by_cases hj : j = n
        · simp only [hj, if_true]
          cases st.2[n]? <;> rfl
        · simp [hj]
    unfold Node.evaluate at e1
    cases hg : st.2[n]? with
    | none => simp [hg] at e1
    | some m =>
      simp only [hg] at e1
      cases hk : m.kind with
      | Leaf v =>
        simp only [hk] at e1
        exact key _ e1
      | PlusNode l r =>
        simp only [hk] at e1
        cases ha : result st.2 l with
        | none => simp [ha] at e1
        | some a =>
          cases hb : result st.2 r with
          | none => simp [ha, hb] at e1
          | some b =>
            simp only [ha, hb, Option.some_bind] at e1
            exact key _ e1
      | TimesNode l r =>
        simp only [hk] at e1
        cases ha : result st.2 l with
        | none => simp [ha] at e1
        | some a =>
          cases hb : result st.2 r with
          | none => simp [ha, hb] at e1
          | some b =>
            simp only [ha, hb, Option.some_bind] at e1
            exact key _ e1
      | LogNode a =>
        simp only [hk] at e1
        cases ha : result st.2 a with
        | none => simp [ha] at e1
        | some a =>
          simp only [ha, Option.some_bind] at e1
          exact key _ e1

theorem markStep_evaluateLam [Zero α] [Add α] [Mul α] (log : α → α) {h : Heap α} (hw : WF h)
    {n : Nat} (hn : n < h.length) :
    ∃ h', markStep (evaluateLam log) ((), h) n = some ((), h') ∧ h'.length = h.length ∧
      ∀ j, h'[j]? = if j = n then
        (h[j]?).map (fun m => { m with myResult := opResult log h n, myProcessed := true })
        else h[j]? := by
  obtain ⟨h1, e1⟩ := update_of_lt (fun m => { m with myResult := opResult log h n }) hn
  obtain ⟨_, l1, q1⟩ := update_eq_some e1
  obtain ⟨h2, e2⟩ := update_of_lt (fun m => { m with myProcessed := true })
    (l1 ▸ hn : n < h1.length)
  obtain ⟨_, l2, q2⟩ := update_eq_some e2
  refine ⟨h2, ?_, by rw [l2, l1], ?_⟩
  · simp [markStep, evaluateLam, Node.evaluate_eq log hw hn, e1, e2]
  · intro j
    rw [q2 j]
    by_cases hj : j = n
    · simp only [hj, if_true]
      rw [q1 n]
      simp only [if_true]
      cases h[n]? <;> rfl
    · simp only [hj, if_false]
      rw [q1 j]
      simp [hj]

theorem opResult_eq [Zero α] [Add α] [Mul α] (log : α → α) {h : Heap α} {d : Nat → α} {n : Nat}
    (hc : Consistent log h d n) (hn : n < h.length) (hd : ∀ a ∈ args h n, res h a = d a) :
    opResult log h n = d n := by
  unfold Consistent at hc
  unfold opResult
  have hg : h[n]? = some h[n] := List.getElem?_eq_getElem hn
  have hk : kindAt h n = some h[n].kind := by simp [kindAt, hg]
  have ha : args h n = h[n].kind.myArguments := by simp [args, hk]
  rw [ha] at hd
  rw [hk] at hc ⊢
  cases hkk : h[n].kind with
  | Leaf v => simp only [hkk] at hc ⊢; exact hc.symm
  | PlusNode l r =>
    simp only [hkk, Kind.myArguments, List.mem_cons, List.mem_singleton] at hc hd ⊢
    rw [hc, hd l (by simp), hd r (by simp)]
  | TimesNode l r =>
    simp only [hkk, Kind.myArguments, List.mem_cons, List.mem_singleton] at hc hd ⊢
    rw [hc, hd l (by simp), hd r (by simp)]
  | LogNode a =>
    simp only [hkk, Kind.myArguments, List.mem_singleton] at hc hd ⊢
    rw [hc, hd a (by simp)]

/-- Running the evaluating visitor over a list in which operands come first stores in every
entry the number that the defining equations assign to it. -/
theorem foldlM_evaluateLam [Zero α] [Add α] [Mul α] (log : α → α) (d : Nat → α) :
    ∀ (L : List Nat) (vis : Nat → Bool) (h : Heap α), WF h → Topo (args h) vis L →
      (∀ n ∈ L, n < h.length) → (∀ j, Consistent log h d j) →
      (∀ j, vis j = true → res h j = d j) →
      ∃ h', L.foldlM (markStep (evaluateLam log)) ((), h) = some ((), h') ∧
        h'.length = h.length ∧
        ∀ j, h'[j]? = if j ∈ L then
          (h[j]?).map (fun m => { m with myResult := d j, myProcessed := true }) else h[j]? := by
  intro L
  induction L with
  | nil =>
    intro vis h _ _ _ _ _
    exact ⟨h, rfl, rfl, by simp⟩
  | cons x L ih =>
    intro vis h hw ht hl hc hd
    have hx : x < h.length := hl x (List.mem_cons_self _ _)
    obtain ⟨h1, e1, l1, q1⟩ := markStep_evaluateLam log hw hx
    have hop : opResult log h x = d x :=
      opResult_eq log (hc x) hx (fun a ha => hd a (ht.1 a ha))
    rw [hop] at q1
    have k1 : ∀ j, kindAt h1 j = kindAt h j := by
      intro j
      simp only [kindAt, q1 j]
      by_cases hj : j = x
      · simp only [hj, if_true]
        cases h[x]? <;> rfl
      · simp [hj]
    have hw1 : WF h1 := hw.transport l1 k1
    have hc1 : ∀ j, Consistent log h1 d j := by
      intro j
      have := hc j
      unfold Consistent at this ⊢
      rw [k1 j]
      exact this
    have hd1 : ∀ j, (fun m => vis m || decide (m = x)) j = true → res h1 j = d j := by
      intro j hj
      have hj' : vis j = true ∨ j = x := by simpa using hj
      by_cases hjx : j = x
      · subst hjx
        simp [res, result, q1 j, List.getElem?_eq_getElem hx]
      · rcases hj' with hj' | hj'
        · have := hd j hj'
          simp only [res, result, q1 j, hjx, if_false] at this ⊢
          exact this
        · exact absurd hj' hjx
    obtain ⟨h2, e2, l2, q2⟩ := ih _ h1 hw1 (by rw [args_congr k1]; exact ht.2)
      (fun n hn => by rw [l1]; exact hl n (List.mem_cons_of_mem _ hn)) hc1 hd1
    refine ⟨h2, ?_, by rw [l2, l1], ?_⟩
    · simp only [List.foldlM_cons, e1, bind, Option.bind]
      exact e2
    · intro j
      rw [q2 j, q1 j]
      by_cases hjx : j = x
      · subst hjx
        by_cases hjL : j ∈ L
        · simp only [hjL, if_true, List.mem_cons, true_or]
          cases h[j]? <;> rfl
        · simp [hjL]
      · simp [hjx]

/-- What `Number::evaluate` does to a well-formed store: it returns the value the root
denotes, caches in every node reachable from the root the value that node denotes, marks
those nodes processed, and leaves every other node untouched. -/
theorem evaluate_spec [Zero α] [Add α] [Mul α] (log : α → α) (h : Heap α) (root : Nat)
    (hw : WF h) (hr : root < h.length) :
    ∃ h', Number.evaluate log h root = some (denote log h root, h') ∧ h'.length = h.length ∧
      (∀ j, Reach (args h) root j →
        h'[j]? = (h[j]?).map
          (fun m => { m with myResult := denote log h j, myProcessed := true })) ∧
      (∀ j, ¬ Reach (args h) root j → h'[j]? = h[j]?) := by
  obtain ⟨h1, e1, l1, r1, n1⟩ := resetWith_spec (F := fun m => { m with myProcessed := false })
    (fun _ => rfl) (fun _ => rfl) h.length h root hw hr hr
  have k1 : ∀ j, kindAt h1 j = kindAt h j := by
    intro j
    by_cases hj : Reach (args h) root j
    · exact kindAt_of_map (F := fun m => { m with myProcessed := false }) (fun _ => rfl)
        (Or.inl (r1 j hj))
    · exact kindAt_of_map (F := id) (fun _ => rfl) (Or.inr (n1 j hj))
  have hw1 : WF h1 := hw.transport l1 k1
  have hfold := postOrder_eq_fold (evaluateLam_pres log) h.length ((), h1) root hw1
    (by rw [l1]; exact hr) hr
  have hfresh := postSeq_fresh hw.wfg h.length (proc h1) root hr (by
    intro n hn
    simp only [proc, r1 n hn]
    cases h[n]? <;> rfl)
  obtain ⟨f1, f2, f3, f4, _⟩ := hfresh
  simp only [args_congr k1] at hfold
  rw [f1] at hfold f2 f3 f4
  have hlt : ∀ n ∈ postSeq (args h) h.length (fun _ => false) root, n < h1.length := by
    intro n hn
    rw [l1]
    exact ((f2 n).1 hn).lt_length hw hr
  have hc1 : ∀ j, Consistent log h1 (denote log h) j := by
    intro j
    have := denote_consistent log hw j
    unfold Consistent at this ⊢
    rw [k1 j]
    exact this
  obtain ⟨h2, e2, l2, q2⟩ := foldlM_evaluateLam log (denote log h) _ (fun _ => false) h1 hw1
    (by rw [args_congr k1]; exact f4) hlt hc1 (by intro j hj; simp at hj)
  have hroot : result h2 root = some (denote log h root) := by
    have hm : root ∈ postSeq (args h) h.length (fun _ => false) root :=
      (f2 root).2 (Reach.refl _)
    have hr1 : root < h1.length := by rw [l1]; exact hr
    simp [result, q2 root, hm, List.getElem?_eq_getElem hr1]
  refine ⟨h2, ?_, by rw [l2, l1], ?_, ?_⟩
  · simp only [Number.evaluate, ← resetProcessed_eq] at e1 ⊢
    simp only [e1, Option.some_bind, hfold, e2, hroot, Option.map_some']
  · intro j hj
    rw [q2 j, if_pos ((f2 j).2 hj), r1 j hj]
    cases h[j]? <;> rfl
  · intro j hj
    have : j ∉ postSeq (args h) h.length (fun _ => false) root := fun hm => hj ((f2 j).1 hm)
    rw [q2 j, if_neg this, n1 j hj]

/-! ## Adjoint propagation: one call -/

theorem getElem?_withAdj (h : Heap α) (a : Nat → α) (j : Nat) :
    (withAdj h a)[j]? = (h[j]?).map (fun m => { m with myAdjoint := a j }) := by
  simp [withAdj]

theorem length_withAdj (h : Heap α) (a : Nat → α) : (withAdj h a).length = h.length := by
  simp [withAdj]

theorem kindAt_withAdj (h : Heap α) (a : Nat → α) (j : Nat) :
    kindAt (withAdj h a) j = kindAt h j := by
  simp only [kindAt, getElem?_withAdj]
  cases h[j]? <;> rfl

theorem result_withAdj (h : Heap α) (a : Nat → α) (j : Nat) :
    result (withAdj h a) j = result h j := by
  simp only [result, getElem?_withAdj]
  cases h[j]? <;> rfl

theorem adjoint_withAdj (h : Heap α) (a : Nat → α) {j : Nat} (hj : j < h.length) :
    adjoint (withAdj h a) j = some (a j) := by
  simp [adjoint, getElem?_withAdj, List.getElem?_eq_getElem hj]

theorem withAdj_self [Zero α] (h : Heap α) : withAdj h (adj h) = h := by
  apply List.ext_getElem?
  intro j
  rw [getElem?_withAdj]
  cases hg : h[j]? with
  | none => rfl
  | some m => simp [adj, adjoint, hg]

theorem withAdj_withAdj (h : Heap α) (a b : Nat → α) : withAdj (withAdj h a) b = withAdj h b := by
  apply List.ext_getElem?
  intro j
  simp only [getElem?_withAdj]
  cases h[j]? <;> rfl

theorem update_withAdj (h : Heap α) (a : Nat → α) {i : Nat} (hi : i < h.length)
    (f : Node α → Node α) (F : α → α) (hf : ∀ m, f m = { m with myAdjoint := F m.myAdjoint }) :
    update (withAdj h a) i f = some (withAdj h (Function.update a i (F (a i)))) := by
  unfold update
  have hg : (withAdj h a)[i]? = some { h[i] with myAdjoint := a i } := by
    rw [getElem?_withAdj, List.getElem?_eq_getElem hi]
    rfl
  simp only [hg, Option.some.injEq]
  apply List.ext_getElem?
  intro j
  rw [List.getElem?_set, getElem?_withAdj, length_withAdj]
  by_cases hj : i = j
  · subst hj
    simp [hi, hf, getElem?_withAdj, List.getElem?_eq_getElem hi]
  · have : j ≠ i := fun e => hj e.symm
    simp [hj, getElem?_withAdj, Function.update_noteq this]

theorem isLeaf_args {h : Heap α} {n : Nat} (hl : isLeaf h n = true) : args h n = [] := by
  unfold isLeaf at hl
  unfold args
  cases hk : kindAt h n with
  | none => rfl
  | some k =>
    cases k with
    | Leaf v => rfl
    | PlusNode l r => simp [hk] at hl
    | TimesNode l r => simp [hk] at hl
    | LogNode a => simp [hk] at hl

/-- One call of `propagateAdjoint`, as a function on the adjoints. -/
theorem propagateAdjoint_withAdj [Field α] {h : Heap α} (hw : WF h) {n : Nat}
    (hn : n < h.length) (a : Nat → α) (out : List (LogLine α)) :
    Node.propagateAdjoint (out, withAdj h a) n =
      some (out ++ [⟨isLeaf h n, ordAt h n, a n⟩], withAdj h (stepAdj h a n)) := by
  have hg0 : h[n]? = some h[n] := List.getElem?_eq_getElem hn
  have hg : (withAdj h a)[n]? = some { h[n] with myAdjoint := a n } := by
    rw [getElem?_withAdj, hg0]
    rfl
  have hk : kindAt h n = some h[n].kind := by simp [kindAt, hg0]
  have ha : args h n = h[n].kind.myArguments := by simp [args, hk]
  have hlt : ∀ x ∈ h[n].kind.myArguments, x < n ∧ x < h.length := fun x hm =>
    hw.arg_lt (ha ▸ hm)
  have hord : ordAt h n = h[n].myOrder := by simp [ordAt, order, hg0]
  simp only [Node.propagateAdjoint, hg]
  cases hkk : h[n].kind with
  | Leaf v =>
    have hl : isLeaf h n = true := by simp [isLeaf, hk, hkk]
    have e : stepAdj h a n = a := by
      funext j
      simp [stepAdj, hl]
    simp only [hl, hord, e]
  | PlusNode l r =>
    have hl : isLeaf h n = false := by simp [isLeaf, hk, hkk]
    rw [hkk] at hlt
    simp only [Kind.myArguments, List.mem_cons, List.mem_singleton] at hlt
    obtain ⟨l1, l2⟩ := hlt l (by simp)
    obtain ⟨r1, r2⟩ := hlt r (by simp)
    simp only [addAdjoint]
    rw [update_withAdj h a l2 _ (fun x => x + a n) (fun _ => rfl)]
    simp only [Option.some_bind]
    rw [adjoint_withAdj h _ hn]
    simp only [Option.some_bind]
    rw [update_withAdj h _ r2 _ (fun x => x + Function.update a l (a l + a n) n) (fun _ => rfl)]
    simp only [Option.some_bind]
    rw [update_withAdj h _ hn _ (fun _ => 0) (fun _ => rfl)]
    simp only [Option.map_some', hl, hord, Option.some.injEq, Prod.mk.injEq, true_and]
    congr 1
    funext j
    have hnl : n ≠ l := by omega
    have hnr : n ≠ r := by omega
    simp only [stepAdj, hl, pushed, hk, hkk, Bool.false_eq_true, if_false]
    by_cases hjn : j = n
    · subst hjn
      simp
    · by_cases hjr : j = r
      · subst hjr
        by_cases hjl : j = l
        · subst hjl
          simp [Function.update_noteq hjn, Function.update_noteq hnl, add_assoc, hjn]
        · simp [Function.update_noteq hjn, Function.update_noteq hjl,
            Function.update_noteq hnl, hjn, hjl]
      · by_cases hjl : j = l
        · subst hjl
          simp [Function.update_noteq hjn, Function.update_noteq hjr, hjn, hjr]
        · simp [Function.update_noteq hjn, Function.update_noteq hjr,
            Function.update_noteq hjl, hjn, hjr, hjl]
  | TimesNode l r =>
    have hl : isLeaf h n = false := by simp [isLeaf, hk, hkk]
    rw [hkk] at hlt
    simp only [Kind.myArguments, List.mem_cons, List.mem_singleton] at hlt
    obtain ⟨l1, l2⟩ := hlt l (by simp)
    obtain ⟨r1, r2⟩ := hlt r (by simp)
    simp only [addAdjoint, result_withAdj, res_of_lt l2, res_of_lt r2, Option.some_bind]
    rw [update_withAdj h a l2 _ (fun x => x + a n * res h r) (fun _ => rfl)]
    simp only [Option.some_bind]
    rw [adjoint_withAdj h _ hn]
    simp only [Option.some_bind, result_withAdj, res_of_lt l2]
    rw [update_withAdj h _ r2 _
      (fun x => x + Function.update a l (a l + a n * res h r) n * res h l) (fun _ => rfl)]
    simp only [Option.some_bind]
    rw [update_withAdj h _ hn _ (fun _ => 0) (fun _ => rfl)]
    simp only [Option.map_some', hl, hord, Option.some.injEq, Prod.mk.injEq, true_and]
    congr 1
    funext j
    have hnl : n ≠ l := by omega
    have hnr : n ≠ r := by omega
    simp only [stepAdj, hl, pushed, hk, hkk, Bool.false_eq_true, if_false]
    by_cases hjn : j = n
    · subst hjn
      simp
    · by_cases hjr : j = r
      · subst hjr
        by_cases hjl : j = l
        · subst hjl
          simp [Function.update_noteq hjn, Function.update_noteq hnl, add_assoc, hjn]
        · simp [Function.update_noteq hjn, Function.update_noteq hjl,
            Function.update_noteq hnl, hjn, hjl]
      · by_cases hjl : j = l
        · subst hjl
          simp [Function.update_noteq hjn, Function.update_noteq hjr, hjn, hjr]
        · simp [Function.update_noteq hjn, Function.update_noteq hjr,
            Function.update_noteq hjl, hjn, hjr, hjl]
  | LogNode x =>
    have hl : isLeaf h n = false := by simp [isLeaf, hk, hkk]
    rw [hkk] at hlt
    simp only [Kind.myArguments, List.mem_singleton] at hlt
    obtain ⟨x1, x2⟩ := hlt x (by simp)
    simp only [addAdjoint, result_withAdj, res_of_lt x2, Option.some_bind]
    rw [update_withAdj h a x2 _ (fun y => y + a n / res h x) (fun _ => rfl)]
    simp only [Option.some_bind]
    rw [update_withAdj h _ hn _ (fun _ => 0) (fun _ => rfl)]
    simp only [Option.map_some', hl, hord, Option.some.injEq, Prod.mk.injEq, true_and]
    congr 1
    funext j
    have hnx : n ≠ x := by omega
    simp only [stepAdj, hl, pushed, hk, hkk, Bool.false_eq_true, if_false]
    by_cases hjn : j = n
    · subst hjn
      simp
    · by_cases hjx : j = x
      · subst hjx
        simp [Function.update_noteq hjn, hjn]
      · simp [Function.update_noteq hjn, Function.update_noteq hjx, hjn, hjx]

/-! ## Adjoint propagation: the walk -/

theorem update_same {h h' : Heap α} {i : Nat} {f : Node α → Node α}
    (e : update h i f = some h')
    (hf : ∀ m, (f m).kind = m.kind ∧ (f m).myProcessed = m.myProcessed) :
    h'.length = h.length ∧ (∀ j, kindAt h' j = kindAt h j) ∧ (∀ j, proc h' j = proc h j) := by
  obtain ⟨_, l1, q1⟩ := update_eq_some e
  refine ⟨l1, ?_, ?_⟩
  · intro j
    simp only [kindAt, q1 j]
    by_cases hj : j = i
    · simp only [hj, if_true]
      cases h[i]? with
      | none => rfl
      | some m => simp [(hf m).1]
    · simp [hj]
  · intro j
    simp only [proc, q1 j]
    by_cases hj : j = i
    · simp only [hj, if_true]
      cases h[i]? with
      | none => rfl
      | some m => simp [(hf m).2]
    · simp [hj]

theorem propagateAdjoint_pres [Zero α] [Add α] [Mul α] [Div α] :
    Pres (Node.propagateAdjoint (α := α)) := by
  intro st n st' e
  unfold Node.propagateAdjoint at e
  cases hg : st.2[n]? with
  | none => simp [hg] at e
  | some m =>
    simp only [hg] at e
    cases hk : m.kind with
    | Leaf v =>
      simp only [hk, Option.some.injEq] at e
      subst e
      exact ⟨rfl, fun _ => rfl, fun _ => rfl⟩
    | PlusNode l r =>
      simp only [hk, Option.bind_eq_some, Option.map_eq_some', addAdjoint] at e
      obtain ⟨h1, e1, a1, _, h2, e2, h3, e3, rfl⟩ := e
      obtain ⟨p1, p2, p3⟩ := update_same e1 (fun _ => ⟨rfl, rfl⟩)
      obtain ⟨q1, q2, q3⟩ := update_same e2 (fun _ => ⟨rfl, rfl⟩)
      obtain ⟨s1, s2, s3⟩ := update_same e3 (fun _ => ⟨rfl, rfl⟩)
      exact ⟨by rw [s1, q1, p1], fun j => by rw [s2, q2, p2], fun j => by rw [s3, q3, p3]⟩
    | TimesNode l r =>
      simp only [hk, Option.bind_eq_some, Option.map_eq_some', addAdjoint] at e
      obtain ⟨_, _, h1, e1, a1, _, _, _, h2, e2, h3, e3, rfl⟩ := e
      obtain ⟨p1, p2, p3⟩ := update_same e1 (fun _ => ⟨rfl, rfl⟩)
      obtain ⟨q1, q2, q3⟩ := update_same e2 (fun _ => ⟨rfl, rfl⟩)
      obtain ⟨s1, s2, s3⟩ := update_same e3 (fun _ => ⟨rfl, rfl⟩)
      exact ⟨by rw [s1, q1, p1], fun j => by rw [s2, q2, p2], fun j => by rw [s3, q3, p3]⟩
    | LogNode x =>
      simp only [hk, Option.bind_eq_some, Option.map_eq_some', addAdjoint] at e
      obtain ⟨_, _, h1, e1, h2, e2, rfl⟩ := e
      obtain ⟨p1, p2, p3⟩ := update_same e1 (fun _ => ⟨rfl, rfl⟩)
      obtain ⟨q1, q2, q3⟩ := update_same e2 (fun _ => ⟨rfl, rfl⟩)
      exact ⟨by rw [q1, p1], fun j => by rw [q2, p2], fun j => by rw [q3, p3]⟩

/-- Calling `propagateAdjoint` on the nodes of a list in turn, as a fold on the adjoints. -/
theorem foldlM_propagateAdjoint [Field α] {h : Heap α} (hw : WF h) :
    ∀ (L : List Nat) (a : Nat → α) (out : List (LogLine α)), (∀ n ∈ L, n < h.length) →
      L.foldlM Node.propagateAdjoint (out, withAdj h a) =
        some (out ++ propLog h a L, withAdj h (L.foldl (stepAdj h) a)) := by
  intro L
  induction L with
  | nil => intro a out _; simp [propLog]
  | cons n L ih =>
    intro a out hl
    simp only [List.foldlM_cons, propagateAdjoint_withAdj hw (hl n (List.mem_cons_self _ _)),
      bind, Option.bind, List.foldl_cons, propLog]
    rw [ih _ _ (fun m hm => hl m (List.mem_cons_of_mem _ hm))]
    simp

theorem stepAdj_of_not_mem [Field α] (h : Heap α) (a : Nat → α) {n j : Nat} (hj : j ≠ n)
    (hm : j ∉ args h n) : stepAdj h a n j = a j := by
  unfold stepAdj
  by_cases hl : isLeaf h n = true
  · simp [hl]
  · simp only [hl, if_false, hj, Bool.false_eq_true]
    unfold pushed
    unfold args at hm
    cases hk : kindAt h n with
    | none => simp
    | some k =>
      rw [hk] at hm
      cases k with
      | Leaf v => simp
      | PlusNode l r =>
        simp only [Kind.myArguments, List.mem_cons, List.mem_singleton, not_or] at hm
        simp [hm.1, hm.2.1]
      | TimesNode l r =>
        simp only [Kind.myArguments, List.mem_cons, List.mem_singleton, not_or] at hm
        simp [hm.1, hm.2.1]
      | LogNode x =>
        simp only [Kind.myArguments, List.mem_singleton] at hm
        simp [hm]

theorem stepAdj_self [Field α] (h : Heap α) (a : Nat → α) {n : Nat} (hl : isLeaf h n = false) :
    stepAdj h a n n = 0 := by
  simp [stepAdj, hl]

/-- After the pre-order walk from `i`, every operation node reachable from `i` holds adjoint
0 and no node outside the sub-graph of `i` has changed. -/
theorem preSeq_zero [Field α] {h : Heap α} (hw : WF h) :
    ∀ (fuel i : Nat) (a : Nat → α), i < fuel →
      (∀ m, Reach (args h) i m → isLeaf h m = true ∨
        (preSeq (args h) fuel i).foldl (stepAdj h) a m = 0) ∧
      (∀ m, ¬ Reach (args h) i m → (preSeq (args h) fuel i).foldl (stepAdj h) a m = a m) := by
  intro fuel
  induction fuel with
  | zero => intro i _ hi; exact absurd hi (Nat.not_lt_zero _)
  | succ fuel ih =>
    intro i a hi
    have key : ∀ (as : List Nat) (a : Nat → α), (∀ b ∈ as, b < fuel) →
        (∀ m, (∃ b ∈ as, Reach (args h) b m) → isLeaf h m = true ∨
          (as.flatMap (preSeq (args h) fuel)).foldl (stepAdj h) a m = 0) ∧
        (∀ m, ¬ (∃ b ∈ as, Reach (args h) b m) →
          (as.flatMap (preSeq (args h) fuel)).foldl (stepAdj h) a m = a m) := by
      intro as
      induction as with
      | nil =>
        intro a _
        exact ⟨by simp, by simp⟩
      | cons b as ih2 =>
        intro a hb
        obtain ⟨z1, u1⟩ := ih b a (hb b (List.mem_cons_self _ _))
        obtain ⟨z2, u2⟩ := ih2 ((preSeq (args h) fuel b).foldl (stepAdj h) a)
          (fun c hc => hb c (List.mem_cons_of_mem _ hc))
        simp only [List.flatMap_cons, List.foldl_append]
        constructor
        · rintro m ⟨c, hc, hr⟩
          by_cases hrs : ∃ c ∈ as, Reach (args h) c m
          · exact z2 m hrs
          · rw [u2 m hrs]
            rcases List.mem_cons.1 hc with rfl | hc
            · exact z1 m hr
            · exact absurd ⟨c, hc, hr⟩ hrs
        · intro m hm
          have h1 : ¬ Reach (args h) b m := fun hr => hm ⟨b, List.mem_cons_self _ _, hr⟩
          have h2 : ¬ ∃ c ∈ as, Reach (args h) c m := by
            rintro ⟨c, hc, hr⟩
            exact hm ⟨c, List.mem_cons_of_mem _ hc, hr⟩
          rw [u2 m h2, u1 m h1]
    have hlt : ∀ b ∈ args h i, b < fuel := fun b hb => by
      have := (hw.arg_lt hb).1
      omega
    obtain ⟨z, u⟩ := key (args h i) (stepAdj h a i) hlt
    have hni : ¬ ∃ b ∈ args h i, Reach (args h) b i := by
      rintro ⟨b, hb, hr⟩
      have := hr.le hw.wfg
      have := (hw.arg_lt hb).1
      omega
    simp only [preSeq, List.foldl_cons]
    constructor
    · intro m hr
      rcases hr.eq_or_step with e | hs
      · subst e
        by_cases hl : isLeaf h m = true
        · exact Or.inl hl
        · right
          rw [u m hni]
          exact stepAdj_self h a (by simpa using hl)
      · exact z m hs
    · intro m hm
      have hmi : m ≠ i := by
        rintro rfl
        exact hm (Reach.refl _)
      have hma : m ∉ args h i := fun hb => hm (Reach.step hb (Reach.refl _))
      have hms : ¬ ∃ b ∈ args h i, Reach (args h) b m := by
        rintro ⟨b, hb, hr⟩
        exact hm (Reach.step hb hr)
      rw [u m hms, stepAdj_of_not_mem h a hmi hma]

/-! ## The chain-rule sum -/

theorem paths_fuel {g : Nat → List Nat} (hg : WFg g) (t : Nat) :
    ∀ (fuel fuel' i : Nat), i < fuel → i < fuel' → paths g t fuel i = paths g t fuel' i := by
  intro fuel
  induction fuel with
  | zero => intro _ i hi; exact absurd hi (Nat.not_lt_zero _)
  | succ fuel ih =>
    intro fuel' i hi hi'
    cases fuel' with
    | zero => exact absurd hi' (Nat.not_lt_zero _)
    | succ fuel' =>
      simp only [paths]
      by_cases hit : i = t
      · simp [hit]
      · simp only [hit, if_false]
        apply List.flatMap_congr
        intro ka hka
        have hm : ka.2 ∈ g i := List.snd_mem_of_mem_enumFrom hka
        have := hg i ka.2 hm
        rw [ih fuel' ka.2 (by omega) (by omega)]

theorem pathSum_self [Field α] (h : Heap α) (t : Nat) : pathSum h t t = 1 := by
  simp [pathSum, paths]

theorem pathSum_leaf [Field α] (h : Heap α) {j t : Nat} (hl : isLeaf h j = true) (hjt : j ≠ t) :
    pathSum h j t = 0 := by
  simp [pathSum, paths, hjt, isLeaf_args hl]

theorem sum_map_cons_prod [Field α] (h : Heap α) (e : Nat × Nat) (P : List (List (Nat × Nat))) :
    ((P.map fun p => e :: p).map fun p => (p.map fun e => localPartial h e.1 e.2).prod).sum =
      localPartial h e.1 e.2 *
        (P.map fun p => (p.map fun e => localPartial h e.1 e.2).prod).sum := by
  induction P with
  | nil => simp
  | cons p P ih =>
    simp only [List.map_cons, List.sum_cons, List.prod_cons, ih]
    ring

/-- The chain-rule sum of a node other than the target unfolds along its operands. -/
theorem pathSum_rec [Field α] {h : Heap α} (hw : WF h) {i t : Nat} (hit : i ≠ t) :
    pathSum h i t =
      match kindAt h i with
      | some (.PlusNode lhs rhs) => pathSum h lhs t + pathSum h rhs t
      | some (.TimesNode lhs rhs) => res h rhs * pathSum h lhs t + res h lhs * pathSum h rhs t
      | some (.LogNode arg) => 1 / res h arg * pathSum h arg t
      | _ => 0 := by
  cases hk : kindAt h i with
  | none => simp [pathSum, paths, hit, args, hk]
  | some k =>
    have ha : args h i = k.myArguments := by simp [args, hk]
    have hlt : ∀ a ∈ k.myArguments, a < i := fun a hm => (hw.arg_lt (ha ▸ hm)).1
    have hf : ∀ a ∈ k.myArguments, paths (args h) t i a = paths (args h) t (a + 1) a :=
      fun a hm => paths_fuel hw.wfg t i (a + 1) a (hlt a hm) (by omega)
    cases k with
    | Leaf v => simp [pathSum, paths, hit, ha, Kind.myArguments]
    | PlusNode l r =>
      simp only [Kind.myArguments, List.mem_cons, List.mem_singleton] at hf
      have e : paths (args h) t (i + 1) i =
          ((paths (args h) t (l + 1) l).map fun p => (i, 0) :: p) ++
            ((paths (args h) t (r + 1) r).map fun p => (i, 1) :: p) := by
        simp [paths, hit, ha, Kind.myArguments, List.enum_cons, hf l (by simp), hf r (by simp)]
      simp only [pathSum, e, List.map_append, List.sum_append, sum_map_cons_prod]
      simp [localPartial, hk]
    | TimesNode l r =>
      simp only [Kind.myArguments, List.mem_cons, List.mem_singleton] at hf
      have e : paths (args h) t (i + 1) i =
          ((paths (args h) t (l + 1) l).map fun p => (i, 0) :: p) ++
            ((paths (args h) t (r + 1) r).map fun p => (i, 1) :: p) := by
        simp [paths, hit, ha, Kind.myArguments, List.enum_cons, hf l (by simp), hf r (by simp)]
      simp only [pathSum, e, List.map_append, List.sum_append, sum_map_cons_prod]
      simp [localPartial, hk]
    | LogNode x =>
      simp only [Kind.myArguments, List.mem_singleton] at hf
      have e : paths (args h) t (i + 1) i =
          ((paths (args h) t (x + 1) x).map fun p => (i, 0) :: p) := by
        simp [paths, hit, ha, Kind.myArguments, List.enum_cons, hf x (by simp)]
      simp only [pathSum, e, sum_map_cons_prod]
      simp [localPartial, hk]

/-- What one call on an operation node hands down carries the same chain-rule weight as the
adjoint it held. -/
theorem sum_pushed [Field α] {h : Heap α} (hw : WF h) {n t : Nat} (hn : n < h.length)
    (hl : isLeaf h n = false) (hnt : n ≠ t) (A : α) :
    (∑ j in Finset.range h.length, pushed h A n j * pathSum h j t) = A * pathSum h n t := by
  have hg0 : h[n]? = some h[n] := List.getElem?_eq_getElem hn
  have hk : kindAt h n = some h[n].kind := by simp [kindAt, hg0]
  have ha : args h n = h[n].kind.myArguments := by simp [args, hk]
  have hlt : ∀ x ∈ h[n].kind.myArguments, x ∈ Finset.range h.length := fun x hm =>
    Finset.mem_range.2 (hw.arg_lt (ha ▸ hm)).2
  rw [pathSum_rec hw hnt]
  simp only [pushed, hk]
  cases hkk : h[n].kind with
  | Leaf v => simp [isLeaf, hk, hkk] at hl
  | PlusNode l r =>
    rw [hkk] at hlt
    simp only [Kind.myArguments, List.mem_cons, List.mem_singleton] at hlt
    simp only [add_mul, ite_mul, zero_mul, Finset.sum_add_distrib, Finset.sum_ite_eq',
      hlt l (by simp), hlt r (by simp), if_true]
    ring
  | TimesNode l r =>
    rw [hkk] at hlt
    simp only [Kind.myArguments, List.mem_cons, List.mem_singleton] at hlt
    simp only [add_mul, ite_mul, zero_mul, Finset.sum_add_distrib, Finset.sum_ite_eq',
      hlt l (by simp), hlt r (by simp), if_true]
    ring
  | LogNode x =>
    rw [hkk] at hlt
    simp only [Kind.myArguments, List.mem_singleton] at hlt
    simp only [ite_mul, zero_mul, Finset.sum_ite_eq', hlt x (by simp), if_true]
    ring

theorem pushed_self [Field α] {h : Heap α} (hw : WF h) (n : Nat) (A : α) :
    pushed h A n n = 0 := by
  unfold pushed
  cases hk : kindAt h n with
  | none => rfl
  | some k =>
    have ha : args h n = k.myArguments := by simp [args, hk]
    have hlt : ∀ a ∈ k.myArguments, a < n := fun a hm => (hw.arg_lt (ha ▸ hm)).1
    cases k with
    | Leaf v => rfl
    | PlusNode l r =>
      simp only [Kind.myArguments, List.mem_cons, List.mem_singleton] at hlt
      have h1 := hlt l (by simp)
      have h2 := hlt r (by simp)
      have e1 : n ≠ l := by omega
      have e2 : n ≠ r := by omega
      simp [e1, e2]
    | TimesNode l r =>
      simp only [Kind.myArguments, List.mem_cons, List.mem_singleton] at hlt
      have h1 := hlt l (by simp)
      have h2 := hlt r (by simp)
      have e1 : n ≠ l := by omega
      have e2 : n ≠ r := by omega
      simp [e1, e2]
    | LogNode x =>
      simp only [Kind.myArguments, List.mem_singleton] at hlt
      have h1 := hlt x (by simp)
      have e1 : n ≠ x := by omega
      simp [e1]

/-- One call of `propagateAdjoint` keeps the weighted sum of all adjoints, each weighted by
the chain-rule sum from its node to a fixed leaf. -/
theorem potential_step [Field α] {h : Heap α} (hw : WF h) {n t : Nat} (hn : n < h.length)
    (ht : isLeaf h t = true) (a : Nat → α) :
    (∑ j in Finset.range h.length, stepAdj h a n j * pathSum h j t) =
      ∑ j in Finset.range h.length, a j * pathSum h j t := by
  by_cases hl : isLeaf h n = true
  · simp [stepAdj, hl]
  · have hl' : isLeaf h n = false := by simpa using hl
    have hnt : n ≠ t := by
      rintro rfl
      exact hl ht
    have e : ∀ j, stepAdj h a n j * pathSum h j t =
        a j * pathSum h j t + pushed h (a n) n j * pathSum h j t -
          (if j = n then a n * pathSum h n t else 0) := by
      intro j
      by_cases hj : j = n
      · subst hj
        simp [stepAdj, hl', pushed_self hw]
      · simp [stepAdj, hl', hj, add_mul]
    simp only [e, Finset.sum_sub_distrib, Finset.sum_add_distrib, sum_pushed hw hn hl' hnt,
      Finset.sum_ite_eq', Finset.mem_range.2 hn, if_true]
    ring

theorem potential_foldl [Field α] {h : Heap α} (hw : WF h) {t : Nat}
    (ht : isLeaf h t = true) :
    ∀ (L : List Nat) (a : Nat → α), (∀ n ∈ L, n < h.length) →
      (∑ j in Finset.range h.length, L.foldl (stepAdj h) a j * pathSum h j t) =
        ∑ j in Finset.range h.length, a j * pathSum h j t := by
  intro L
  induction L with
  | nil => intro a _; rfl
  | cons n L ih =>
    intro a hl
    simp only [List.foldl_cons]
    rw [ih _ (fun m hm => hl m (List.mem_cons_of_mem _ hm)),
      potential_step hw (hl n (List.mem_cons_self _ _)) ht]

/-! ## Adjoint propagation: `Number::propagateAdjoints` -/

theorem mem_preSeq {g : Nat → List Nat} (hg : WFg g) :
    ∀ (fuel i n : Nat), i < fuel → (n ∈ preSeq g fuel i ↔ Reach g i n) := by
  intro fuel
  induction fuel with
  | zero => intro i _ hi; exact absurd hi (Nat.not_lt_zero _)
  | succ fuel ih =>
    intro i n hi
    simp only [preSeq, List.mem_cons, List.mem_flatMap]
    constructor
    · rintro (rfl | ⟨a, ha, hn⟩)
      · exact Reach.refl _
      · have := hg i a ha
        exact Reach.step ha ((ih a n (by omega)).1 hn)
    · intro hr
      rcases hr.eq_or_step with e | ⟨a, ha, hr'⟩
      · exact Or.inl e
      · have := hg i a ha
        exact Or.inr ⟨a, ha, (ih a n (by omega)).2 hr'⟩

theorem eq_withAdj [Zero α] {h h2 : Heap α}
    (e : ∀ j : Nat, ∃ x : α,
      h2[j]? = (h[j]?).map (fun m : Node α => { m with myAdjoint := x })) :
    h2 = withAdj h (adj h2) := by
  apply List.ext_getElem?
  intro j
  obtain ⟨x, hx⟩ := e j
  rw [getElem?_withAdj, hx]
  cases hg : h[j]? with
  | none => rfl
  | some m => simp [adj, adjoint, hx, hg]

theorem adj_withAdj [Zero α] (h : Heap α) (a : Nat → α) {j : Nat} (hj : j < h.length) :
    adj (withAdj h a) j = a j := by
  simp [adj, adjoint_withAdj h a hj]

theorem propLog_order [Field α] (h : Heap α) :
    ∀ (L : List Nat) (a : Nat → α), (propLog h a L).map (fun l => l.order) = L.map (ordAt h) := by
  intro L
  induction L with
  | nil => intro _; rfl
  | cons n L ih => intro a; simp [propLog, ih]

theorem propLog_isLeaf [Field α] (h : Heap α) :
    ∀ (L : List Nat) (a : Nat → α),
      (propLog h a L).map (fun l => l.isLeaf) = L.map (isLeaf h) := by
  intro L
  induction L with
  | nil => intro _; rfl
  | cons n L ih => intro a; simp [propLog, ih]

/-- What `Number::propagateAdjoints` does to a well-formed store.  It writes one line per
entry of the pre-order visiting sequence; only adjoints change, and only those of nodes
reachable from the root; afterwards an operation node reachable from the root holds 0 and a
leaf reachable from the root holds the chain-rule sum from the root to it. -/
theorem propagateAdjoints_spec [Field α] (h : Heap α) (root : Nat) (hw : WF h)
    (hr : root < h.length) :
    ∃ out h', Number.propagateAdjoints h root = some (out, h') ∧
      out.map (fun l => l.order) = (preSeq (args h) h.length root).map (ordAt h) ∧
      out.map (fun l => l.isLeaf) = (preSeq (args h) h.length root).map (isLeaf h) ∧
      h' = withAdj h (adj h') ∧
      (∀ m, ¬ Reach (args h) root m → adj h' m = adj h m) ∧
      (∀ m, Reach (args h) root m → isLeaf h m = false → adj h' m = 0) ∧
      (∀ t, Reach (args h) root t → isLeaf h t = true → adj h' t = pathSum h root t) := by
  -- reset and seed
  obtain ⟨h1, e1, l1, r1, n1⟩ := resetWith_spec (F := fun m : Node α => { m with myAdjoint := 0 })
    (fun _ => rfl) (fun _ => rfl) h.length h root hw hr hr
  obtain ⟨h2, e2⟩ := update_of_lt (fun m : Node α => { m with myAdjoint := 1 })
    (l1 ▸ hr : root < h1.length)
  obtain ⟨_, l2, q2⟩ := update_eq_some e2
  have hform : ∀ j : Nat, ∃ x : α, h2[j]? =
      (h[j]?).map (fun m : Node α => { m with myAdjoint := x }) := by
    intro j
    rw [q2 j]
    by_cases hj : j = root
    · refine ⟨1, ?_⟩
      simp only [hj, if_true]
      rw [r1 root (Reach.refl _)]
      cases h[root]? <;> rfl
    · simp only [hj, if_false]
      by_cases hrj : Reach (args h) root j
      · exact ⟨0, r1 j hrj⟩
      · refine ⟨adj h j, ?_⟩
        rw [n1 j hrj]
        cases hg : h[j]? with
        | none => rfl
        | some m => simp [adj, adjoint, hg]
  have hh2 := eq_withAdj hform
  have a0root : adj h2 root = 1 := by
    simp [adj, adjoint, q2 root, r1 root (Reach.refl _), List.getElem?_eq_getElem hr]
  have a0reach : ∀ j, Reach (args h) root j → j ≠ root → adj h2 j = 0 := by
    intro j hrj hj
    have hjl := hrj.lt_length hw hr
    simp [adj, adjoint, q2 j, hj, r1 j hrj, List.getElem?_eq_getElem hjl]
  have a0out : ∀ j, ¬ Reach (args h) root j → adj h2 j = adj h j := by
    intro j hrj
    have hj : j ≠ root := by
      rintro rfl
      exact hrj (Reach.refl _)
    simp [adj, adjoint, q2 j, hj, n1 j hrj]
  -- the walk
  have hwA : WF (withAdj h (adj h2)) := hw.transport (length_withAdj _ _) (kindAt_withAdj _ _)
  have hfold := preOrder_eq_fold (propagateAdjoint_pres (α := α)) h.length
    (([] : List (LogLine α)), withAdj h (adj h2)) root hwA
    (by rw [length_withAdj]; exact hr) hr
  simp only [args_congr (kindAt_withAdj h (adj h2))] at hfold
  have hvalid : ∀ n ∈ preSeq (args h) h.length root, n < h.length := fun n hn =>
    ((mem_preSeq hw.wfg _ _ _ hr).1 hn).lt_length hw hr
  rw [foldlM_propagateAdjoint hw _ _ _ hvalid] at hfold
  obtain ⟨z, u⟩ := preSeq_zero hw h.length root (adj h2) hr
  have hadj : ∀ m, adj (withAdj h ((preSeq (args h) h.length root).foldl (stepAdj h) (adj h2))) m =
      if m < h.length then (preSeq (args h) h.length root).foldl (stepAdj h) (adj h2) m
      else 0 := by
    intro m
    by_cases hm : m < h.length
    · simp [hm, adj_withAdj h _ hm]
    · have : h.length ≤ m := Nat.le_of_not_lt hm
      simp [hm, adj, adjoint, getElem?_withAdj, List.getElem?_eq_none this]
  refine ⟨propLog h (adj h2) (preSeq (args h) h.length root),
    withAdj h ((preSeq (args h) h.length root).foldl (stepAdj h) (adj h2)),
    ?_, ?_, ?_, ?_, ?_, ?_, ?_⟩
  · simp only [Number.propagateAdjoints, ← resetAdjoints_eq] at e1 ⊢
    simp only [e1, Option.some_bind, e2]
    conv_lhs => rw [hh2]
    rw [hfold]
    simp
  · simp [propLog_order]
  · simp [propLog_isLeaf]
  · apply eq_withAdj
    intro j
    exact ⟨_, getElem?_withAdj _ _ _⟩
  · intro m hm
    rw [hadj m, u m hm, a0out m hm]
    by_cases hml : m < h.length
    · simp [hml]
    · have : h.length ≤ m := Nat.le_of_not_lt hml
      simp [hml, adj, adjoint, List.getElem?_eq_none this]
  · intro m hm hl
    rw [hadj m, if_pos (hm.lt_length hw hr)]
    rcases z m hm with hl' | hz
    · rw [hl] at hl'
      exact absurd hl' (by simp)
    · exact hz
  · intro t ht hl
    rw [hadj t, if_pos (ht.lt_length hw hr)]
    by_cases hrl : isLeaf h root = true
    · -- the root is a leaf: it is the only node of its sub-graph
      have ht' : t = root := by
        rcases ht.eq_or_step with e | ⟨a, ha, _⟩
        · exact e
        · rw [isLeaf_args hrl] at ha
          simp at ha
      subst ht'
      have hni : ¬ ∃ b ∈ args h t, Reach (args h) b t := by
        rw [isLeaf_args hrl]
        simp
      have hL : preSeq (args h) h.length t = [t] := by
        cases hlen : h.length with
        | zero => omega
        | succ k => simp [preSeq, isLeaf_args hrl]
      rw [hL]
      simp [stepAdj, hrl, a0root, pathSum_self]
    · have htr : t ≠ root := by
        rintro rfl
        exact hrl hl
      have hpot := potential_foldl hw hl (preSeq (args h) h.length root) (adj h2) hvalid
      have point : ∀ j,
          (preSeq (args h) h.length root).foldl (stepAdj h) (adj h2) j * pathSum h j t -
            (if j = t then
              (preSeq (args h) h.length root).foldl (stepAdj h) (adj h2) t else 0) =
          adj h2 j * pathSum h j t - (if j = root then pathSum h root t else 0) := by
        intro j
        by_cases hrj : Reach (args h) root j
        · by_cases hjt : j = t
          · subst hjt
            simp [htr, pathSum_self, a0reach j hrj htr]
          · by_cases hjr : j = root
            · subst hjr
              rcases z j hrj with hl' | hz
              · exact absurd hl' hrl
              · simp [hjt, hz, a0root]
            · rcases z j hrj with hl' | hz
              · simp [hjt, hjr, pathSum_leaf h hl' hjt]
              · simp [hjt, hjr, hz, a0reach j hrj hjr]
        · have hjt : j ≠ t := by
            rintro rfl
            exact hrj ht
          have hjr : j ≠ root := by
            rintro rfl
            exact hrj (Reach.refl _)
          simp [hjt, hjr, u j hrj]
      have hsum := Finset.sum_congr (rfl : Finset.range h.length = Finset.range h.length)
        (fun j _ => point j)
      simp only [Finset.sum_sub_distrib, Finset.sum_ite_eq',
        Finset.mem_range.2 (ht.lt_length hw hr), Finset.mem_range.2 hr, if_true, hpot] at hsum
      have := sub_right_injective hsum
      exact this

/-! ## Consequences used by the main statements -/

/-- The order indices after `Number::setOrder`: the entry at position `k` of the post-order
visiting sequence holds `k + 1`, nodes outside the sub-graph keep their index. -/
theorem setOrder_ordAt (h : Heap α) (root : Nat) (hw : WF h) (hr : root < h.length)
    (hsz : h.length < 2 ^ 31) :
    ∃ h', Number.setOrder h root = some h' ∧ h'.length = h.length ∧
      (∀ j, kindAt h' j = kindAt h j) ∧
      (∀ L1 n L2, postSeq (args h) h.length (fun _ => false) root = L1 ++ n :: L2 →
        ordAt h' n = L1.length + 1) ∧
      (∀ j, ¬ Reach (args h) root j → order h' j = order h j) := by
  obtain ⟨h', e, l, k, q, r⟩ := setOrder_spec h root hw hr hsz
  obtain ⟨_, f2, _, _, _⟩ := postSeq_fresh hw.wfg h.length (fun _ => false) root hr
    (fun _ _ => rfl)
  refine ⟨h', e, l, k, ?_, ?_⟩
  · intro L1 n L2 hL
    have hn : n ∈ postSeq (args h) h.length (fun _ => false) root := by rw [hL]; simp
    have hnl : n < h.length := ((f2 n).1 hn).lt_length hw hr
    simp [ordAt, order, q L1 n L2 hL, List.getElem?_eq_getElem hnl]
  · intro j hj
    simp [order, r j hj]

/-- After `Number::setOrder`, an operand has a smaller index than its user. -/
theorem setOrder_arg_lt (h : Heap α) (root : Nat) (hw : WF h) (hr : root < h.length)
    {h' : Heap α}
    (q : ∀ L1 n L2, postSeq (args h) h.length (fun _ => false) root = L1 ++ n :: L2 →
      ordAt h' n = L1.length + 1)
    {n o : Nat} (hn : Reach (args h) root n) (ho : o ∈ args h n) : ordAt h' o < ordAt h' n := by
  obtain ⟨_, f2, _, f4, _⟩ := postSeq_fresh hw.wfg h.length (fun _ => false) root hr
    (fun _ _ => rfl)
  obtain ⟨L1, L2, hL⟩ := List.append_of_mem ((f2 n).2 hn)
  rw [hL] at f4
  have hm : o ∈ L1 := by
    rcases f4.split o ho with hv | hm
    · simp at hv
    · exact hm
  obtain ⟨A, B, hA⟩ := List.append_of_mem hm
  have hL' : postSeq (args h) h.length (fun _ => false) root = A ++ o :: (B ++ n :: L2) := by
    rw [hL, hA]
    simp
  rw [q L1 n L2 hL, q A o _ hL', hA]
  simp only [List.length_append, List.length_cons]
  omega

/-- After `Number::setOrder`, a proper descendant has a smaller index than its ancestor. -/
theorem setOrder_reach_lt (h : Heap α) (root : Nat) (hw : WF h) (hr : root < h.length)
    {h' : Heap α}
    (q : ∀ L1 n L2, postSeq (args h) h.length (fun _ => false) root = L1 ++ n :: L2 →
      ordAt h' n = L1.length + 1)
    {b a : Nat} (hba : Reach (args h) b a) :
    Reach (args h) root b → a ≠ b → ordAt h' a < ordAt h' b := by
  induction hba with
  | refl _ => intro _ hne; exact absurd rfl hne
  | @step i c n hc _ ih =>
    intro hb hne
    have h1 := setOrder_arg_lt h root hw hr q hb hc
    by_cases hcn : n = c
    · rw [hcn]; exact h1
    · exact Nat.lt_trans (ih (hb.tail hc) hcn) h1

/-- The number of times the pre-order walk from `i` visits `n` is the number of operand
paths from `i` to `n`. -/
theorem count_preSeq {g : Nat → List Nat} (hg : WFg g) (n : Nat) :
    ∀ (fuel i : Nat), i < fuel →
      (preSeq g fuel i).count n = (paths g n fuel i).length := by
  intro fuel
  induction fuel with
  | zero => intro i hi; exact absurd hi (Nat.not_lt_zero _)
  | succ fuel ih =>
    intro i hi
    have hlt : ∀ a ∈ g i, a < fuel := fun a ha => by
      have := hg i a ha
      omega
    by_cases hin : i = n
    · subst hin
      have hz : ((g i).flatMap (preSeq g fuel)).count i = 0 := by
        apply List.count_eq_zero.2
        intro hm
        obtain ⟨a, ha, hm'⟩ := List.mem_flatMap.1 hm
        have h1 := ((mem_preSeq hg fuel a i (hlt a ha)).1 hm').le hg
        have h2 := hg i a ha
        omega
      simp [preSeq, paths, hz]
    · have key : ∀ (as : List Nat) (k : Nat), (∀ a ∈ as, a < fuel) →
          (as.flatMap (preSeq g fuel)).count n =
            ((as.enumFrom k).flatMap fun ka =>
              (paths g n fuel ka.2).map fun p => (i, ka.1) :: p).length := by
        intro as
        induction as with
        | nil => intro _ _; simp
        | cons a as ih2 =>
          intro k has
          simp only [List.flatMap_cons, List.count_append, List.enumFrom_cons,
            List.length_append, List.length_map]
          rw [ih a (has a (List.mem_cons_self _ _)),
            ih2 (k + 1) (fun b hb => has b (List.mem_cons_of_mem _ hb))]
      have hne : ¬ (i == n) = true := by simpa using hin
      simp only [preSeq, paths, hin, if_false, List.count_cons, hne, Nat.add_zero]
      exact key (g i) 0 hlt

theorem adjoint_of_lt [Zero α] {h : Heap α} {i : Nat} (hi : i < h.length) :
    adjoint h i = some (adj h i) := by
  simp [adj, adjoint, List.getElem?_eq_getElem hi]

/-- Evaluation followed by propagation on a well-formed store: both succeed, the cached
results are the denoted values, operation nodes end with adjoint 0 and leaves with the
chain-rule sum taken at the cached results. -/
theorem evaluate_propagate [Field α] (log : α → α) (h : Heap α) (root : Nat)
    (hw : WF h) (hr : root < h.length) :
    ∃ h1 out h2, Number.evaluate log h root = some (denote log h root, h1) ∧
      Number.propagateAdjoints h1 root = some (out, h2) ∧
      h1.length = h.length ∧ (∀ j, kindAt h1 j = kindAt h j) ∧
      (∀ n, Reach (args h) root n → result h1 n = some (denote log h n)) ∧
      (∀ n, Reach (args h) root n → isLeaf h n = false → adjoint h2 n = some 0) ∧
      (∀ t, Reach (args h) root t → isLeaf h t = true →
        adjoint h2 t = some (pathSum h1 root t)) := by
  obtain ⟨h1, e1, l1, r1, n1⟩ := evaluate_spec log h root hw hr
  have k1 : ∀ j, kindAt h1 j = kindAt h j := by
    intro j
    by_cases hj : Reach (args h) root j
    · exact kindAt_of_map
        (F := fun m => { m with myResult := denote log h j, myProcessed := true })
        (fun _ => rfl) (Or.inl (r1 j hj))
    · exact kindAt_of_map (F := id) (fun _ => rfl) (Or.inr (n1 j hj))
  have hw1 : WF h1 := hw.transport l1 k1
  have hr1 : root < h1.length := by rw [l1]; exact hr
  obtain ⟨out, h2, e2, _, _, hform, _, z, p⟩ := propagateAdjoints_spec h1 root hw1 hr1
  rw [args_congr k1] at z p
  rw [isLeaf_congr k1] at z p
  have l2 : h2.length = h.length := by
    rw [hform, length_withAdj, l1]
  refine ⟨h1, out, h2, e1, e2, l1, k1, ?_, ?_, ?_⟩
  · intro n hn
    have hnl := hn.lt_length hw hr
    simp [result, r1 n hn, List.getElem?_eq_getElem hnl]
  · intro n hn hl
    rw [adjoint_of_lt (by rw [l2]; exact hn.lt_length hw hr), z n hn hl]
  · intro t ht hl
    rw [adjoint_of_lt (by rw [l2]; exact ht.lt_length hw hr), p t ht hl]

theorem setVal_spec {h : Heap α} {x : Nat} (val : α) (hl : isLeaf h x = true) :
    ∃ h', Number.setVal h x val = some h' ∧ h'.length = h.length ∧
      kindAt h' x = some (.Leaf val) ∧ (∀ j, j ≠ x → kindAt h' j = kindAt h j) ∧
      (WF h → WF h') := by
  unfold isLeaf kindAt at hl
  cases hg : h[x]? with
  | none => simp [hg] at hl
  | some n =>
    have hx : x < h.length := (List.getElem?_eq_some_iff.1 hg).1
    cases hk : n.kind with
    | PlusNode l r => simp [hg, hk] at hl
    | TimesNode l r => simp [hg, hk] at hl
    | LogNode a => simp [hg, hk] at hl
    | Leaf v =>
      have kx : kindAt (h.set x { n with kind := .Leaf val }) x = some (.Leaf val) := by
        simp [kindAt, hx]
      have kj : ∀ j, j ≠ x → kindAt (h.set x { n with kind := .Leaf val }) j = kindAt h j := by
        intro j hj
        have : x ≠ j := fun e => hj e.symm
        simp [kindAt, List.getElem?_set_ne this]
      refine ⟨h.set x { n with kind := .Leaf val }, by simp [Number.setVal, hg, hk],
        by simp, kx, kj, ?_⟩
      intro hw i hi a ha
      have hi' : i < h.length := by simpa using hi
      apply hw i hi' a
      by_cases hix : i = x
      · subst hix
        simp [args, kx, Kind.myArguments] at ha
      · simpa [args, kj i hix] using ha

/-! ## Numerical bounds for the example -/

theorem log_21_bounds : (3.04452 : ℝ) < Real.log 21 ∧ Real.log 21 < 3.0445235 := by
  have e : Real.log 21 = 4 * Real.log 2 + Real.log (1 - (-5 / 16)) := by
    have h21 : (21 : ℝ) = 2 ^ 4 * (1 - (-5 / 16)) := by norm_num
    rw [h21, Real.log_mul (by norm_num) (by norm_num), Real.log_pow]
    norm_num
  have hs := Real.abs_log_sub_add_sum_range_le (x := (-5 / 16 : ℝ))
    (by rw [abs_lt]; constructor <;> norm_num) 12
  have habs : |(-5 / 16 : ℝ)| = 5 / 16 := by
    rw [abs_of_neg (by norm_num)]; norm_num
  rw [habs] at hs
  simp only [Finset.sum_range_succ, Finset.sum_range_zero] at hs
  rw [abs_le] at hs
  obtain ⟨h1, h2⟩ := hs
  have l1 := Real.log_two_gt_d9
  have l2 := Real.log_two_lt_d9
  rw [e]
  norm_num at h1 h2 l1 l2 ⊢
  constructor <;> linarith

theorem log_87_2_bounds : (3.77275 : ℝ) < Real.log (87 / 2) ∧ Real.log (87 / 2) < 3.77277 := by
  have e : Real.log (87 / 2) = 5 * Real.log 2 + Real.log (1 - (-23 / 64)) := by
    have h21 : (87 / 2 : ℝ) = 2 ^ 5 * (1 - (-23 / 64)) := by norm_num
    rw [h21, Real.log_mul (by norm_num) (by norm_num), Real.log_pow]
    norm_num
  have hs := Real.abs_log_sub_add_sum_range_le (x := (-23 / 64 : ℝ))
    (by rw [abs_lt]; constructor <;> norm_num) 12
  have habs : |(-23 / 64 : ℝ)| = 23 / 64 := by
    rw [abs_of_neg (by norm_num)]; norm_num
  rw [habs] at hs
  simp only [Finset.sum_range_succ, Finset.sum_range_zero] at hs
  rw [abs_le] at hs
  obtain ⟨h1, h2⟩ := hs
  have l1 := Real.log_two_gt_d9
  have l2 := Real.log_two_lt_d9
  rw [e]
  norm_num at h1 h2 l1 l2 ⊢
  constructor <;> linarith

theorem f_value_near : |(21 + 4 * Real.log 21) * (21 + Real.log 21) - 797.751| < 0.0005 := by
  obtain ⟨h1, h2⟩ := log_21_bounds
  rw [abs_lt]
  constructor <;> nlinarith [h1, h2]

theorem f_value_near_after_setVal :
    |(87 / 2 + 4 * Real.log (87 / 2)) * (87 / 2 + Real.log (87 / 2)) - 2769.76| < 0.005 := by
  obtain ⟨h1, h2⟩ := log_87_2_bounds
  rw [abs_lt]
  constructor <;> nlinarith [h1, h2]

theorem denote_fHeap (log : ℝ → ℝ) (uninit x0 : ℝ) :
    denote log (fHeap uninit x0 2 3 4 5) 13 =
      (3 * (5 * x0 + 2) + 4 * log (3 * (5 * x0 + 2))) *
        (3 * (5 * x0 + 2) + log (3 * (5 * x0 + 2))) := by
  simp [denote, value, kindAt, fHeap, newNode]

theorem wf_fHeap [Field α] (uninit x0 x1 x2 x3 x4 : α) : WF (fHeap uninit x0 x1 x2 x3 x4) := by
  intro i hi a ha
  simp only [fHeap, List.length_cons, List.length_nil] at hi
  interval_cases i <;> simp [args, kindAt, fHeap, newNode, Kind.myArguments] at ha <;> omega

/-- `Number::evaluate` on a well-formed store, in the form the later statements use. -/
theorem evaluate_results [Field α] (log : α → α) (h : Heap α) (root : Nat)
    (hw : WF h) (hr : root < h.length) :
    ∃ h1, Number.evaluate log h root = some (denote log h root, h1) ∧
      h1.length = h.length ∧ (∀ j, kindAt h1 j = kindAt h j) ∧
      ∀ n, Reach (args h) root n → result h1 n = some (denote log h n) := by
  obtain ⟨h1, e1, l1, r1, n1⟩ := evaluate_spec log h root hw hr
  refine ⟨h1, e1, l1, ?_, ?_⟩
  · intro j
    by_cases hj : Reach (args h) root j
    · exact kindAt_of_map
        (F := fun m => { m with myResult := denote log h j, myProcessed := true })
        (fun _ => rfl) (Or.inl (r1 j hj))
    · exact kindAt_of_map (F := id) (fun _ => rfl) (Or.inr (n1 j hj))
  · intro n hn
    have hnl := hn.lt_length hw hr
    simp [result, r1 n hn, List.getElem?_eq_getElem hnl]

theorem kindAt_fHeap_succ [Field α] (u x0 x0' x1 x2 x3 x4 : α) (j : Nat) :
    kindAt (fHeap u x0 x1 x2 x3 x4) (j + 1) = kindAt (fHeap u x0' x1 x2 x3 x4) (j + 1) := rfl

/-! ## The chain-rule sum is the derivative -/

/-- C2. Diamond sharing: in every well-formed store, if `q` is a `TimesNode` whose two
operands are the same `Leaf` node `p` holding `x`, then after `evaluate` and
`propagateAdjoints` on `q` the adjoint of `p` is `2 * x`; for `x = 3` it is 6. -/
theorem C2_diamond_adjoint_is_twice_x [Field α] (log : α → α) (h : Heap α) (p q : Nat) (x : α)
    (hw : WF h) (hq : kindAt h q = some (.TimesNode p p)) (hp : kindAt h p = some (.Leaf x)) :
    ∃ v h1 out h2, Number.evaluate log h q = some (v, h1) ∧
      Number.propagateAdjoints h1 q = some (out, h2) ∧
      adjoint h2 p = some (2 * x) ∧ (x = 3 → adjoint h2 p = some 6) := by
  have hql : q < h.length := by
    by_contra hc
    simp [kindAt, List.getElem?_eq_none (Nat.le_of_not_lt hc)] at hq
  have hargs : args h q = [p, p] := by simp [args, hq, Kind.myArguments]
  have hpq : p < q := (hw.arg_lt (by rw [hargs]; simp : p ∈ args h q)).1
  have hreach : Reach (args h) q p := Reach.step (by rw [hargs]; simp) (Reach.refl p)
  have hleaf : isLeaf h p = true := by simp [isLeaf, hp]
  obtain ⟨h1, out, h2, e1, e2, l1, k1, r, _, a⟩ := evaluate_propagate log h q hw hql
  have hw1 : WF h1 := hw.transport l1 k1
  have hres : res h1 p = x := by
    simp [res, r p hreach, denote, value, hp]
  have hsum : pathSum h1 q p = 2 * x := by
    rw [pathSum_rec hw1 (by omega : q ≠ p), k1 q, hq]
    simp only [pathSum_self, hres]
    ring
  have hadj : adjoint h2 p = some (2 * x) := by rw [a p hreach hleaf, hsum]
  refine ⟨_, h1, out, h2, e1, e2, hadj, ?_⟩
  intro hx
  rw [hadj, hx]
  norm_num

/-- C2 at `x = 3` over the rationals: the adjoint is 6. -/
theorem C2_witness :
    WF (diamondHeap (0 : ℚ) 3) ∧
    kindAt (diamondHeap (0 : ℚ) 3) 1 = some (.TimesNode 0 0) ∧
    kindAt (diamondHeap (0 : ℚ) 3) 0 = some (.Leaf 3) ∧
    ∃ v h1 out h2, Number.evaluate (fun x => x) (diamondHeap (0 : ℚ) 3) 1 = some (v, h1) ∧
      Number.propagateAdjoints h1 1 = some (out, h2) ∧
      adjoint h2 0 = some (2 * 3) ∧ ((3 : ℚ) = 3 → adjoint h2 0 = some 6) :=
  ⟨by decide, rfl, rfl,
    C2_diamond_adjoint_is_twice_x (fun x => x) (diamondHeap (0 : ℚ) 3) 0 1 3 (by decide) rfl rfl⟩

/-- C3. On every well-formed store `Number::evaluate` returns the value of the expression
the root denotes, and afterwards every node reachable from the root caches its operation
applied to the cached results of its operands, which is the value the node denotes.  For
the example `f` with inputs 1, 2, 3, 4, 5 the returned value is
`(21 + 4 * log 21) * (21 + log 21)`, within 0.0005 of 797.751. -/
theorem C3_evaluate_computes_the_expression [Field α] (log : α → α) (h : Heap α) (root : Nat)
    (hw : WF h) (hr : root < h.length) :
    (∃ h1, Number.evaluate log h root = some (denote log h root, h1) ∧
      ∀ n, Reach (args h) root n →
        result h1 n = some (opResult log h1 n) ∧ result h1 n = some (denote log h n)) ∧
    (∀ uninit : ℝ, ∃ h1, Number.evaluate Real.log (fHeap uninit 1 2 3 4 5) 13 =
        some ((21 + 4 * Real.log 21) * (21 + Real.log 21), h1)) ∧
    |(21 + 4 * Real.log 21) * (21 + Real.log 21) - 797.751| < 0.0005 := by
  refine ⟨?_, ?_, f_value_near⟩
  · obtain ⟨h1, e1, l1, r1, n1⟩ := evaluate_spec log h root hw hr
    have k1 : ∀ j, kindAt h1 j = kindAt h j := by
      intro j
      by_cases hj : Reach (args h) root j
      · exact kindAt_of_map
          (F := fun m => { m with myResult := denote log h j, myProcessed := true })
          (fun _ => rfl) (Or.inl (r1 j hj))
      · exact kindAt_of_map (F := id) (fun _ => rfl) (Or.inr (n1 j hj))
    have hres : ∀ n, Reach (args h) root n → result h1 n = some (denote log h n) := by
      intro n hn
      have hnl := hn.lt_length hw hr
      simp [result, r1 n hn, List.getElem?_eq_getElem hnl]
    refine ⟨h1, e1, fun n hn => ⟨?_, hres n hn⟩⟩
    have hc : Consistent log h1 (denote log h) n := by
      have := denote_consistent log hw n
      unfold Consistent at this ⊢
      rw [k1 n]
      exact this
    have hnl : n < h1.length := by rw [l1]; exact hn.lt_length hw hr
    rw [hres n hn, opResult_eq log hc hnl]
    intro a ha
    rw [args_congr k1] at ha
    simp [res, hres a (hn.tail ha)]
  · intro uninit
    obtain ⟨h1, e1, _⟩ := evaluate_spec Real.log (fHeap uninit 1 2 3 4 5) 13
      (wf_fHeap _ _ _ _ _ _) (by simp [fHeap])
    refine ⟨h1, ?_⟩
    rw [e1, denote_fHeap]
    norm_num

/-- C3 at the diamond graph `x * x` with `x = 3` over the rationals. -/
theorem C3_witness :
    WF (diamondHeap (0 : ℚ) 3) ∧ 1 < (diamondHeap (0 : ℚ) 3).length ∧
    ((∃ h1, Number.evaluate (fun x => x) (diamondHeap (0 : ℚ) 3) 1 =
        some (denote (fun x => x) (diamondHeap (0 : ℚ) 3) 1, h1) ∧
      ∀ n, Reach (args (diamondHeap (0 : ℚ) 3)) 1 n →
        result h1 n = some (opResult (fun x => x) h1 n) ∧
          result h1 n = some (denote (fun x => x) (diamondHeap (0 : ℚ) 3) n)) ∧
    (∀ uninit : ℝ, ∃ h1, Number.evaluate Real.log (fHeap uninit 1 2 3 4 5) 13 =
        some ((21 + 4 * Real.log 21) * (21 + Real.log 21), h1)) ∧
    |(21 + 4 * Real.log 21) * (21 + Real.log 21) - 797.751| < 0.0005) :=
  ⟨by decide, by decide,
    C3_evaluate_computes_the_expression (fun x => x) (diamondHeap (0 : ℚ) 3) 1
      (by decide) (by decide)⟩

/-- C4. `Number::evaluate` always fully recomputes: on two well-formed stores with the same
nodes (same structure and leaf values) but arbitrary processed flags, cached results,
order indices and adjoints it returns the same value, the denoted one, and caches the same
results below the root.  Hence a second call in a row returns the same value, and after
`setVal` on a leaf a further call returns the value denoted with the new leaf value.  In
the example `f`, changing `x0` from 1 to 2.5 changes the returned value from
`(21 + 4 * log 21) * (21 + log 21)`, about 797.751, to
`(43.5 + 4 * log 43.5) * (43.5 + log 43.5)`, about 2769.76. -/
theorem C4_evaluate_always_recomputes [Field α] (log : α → α) (h h' : Heap α) (root : Nat)
    (hw : WF h) (hr : root < h.length) (hl : h'.length = h.length)
    (hk : ∀ j, kindAt h' j = kindAt h j) :
    (∃ s s', Number.evaluate log h root = some (denote log h root, s) ∧
      Number.evaluate log h' root = some (denote log h root, s') ∧
      ∀ n, Reach (args h) root n → result s' n = result s n) ∧
    (∃ s s2, Number.evaluate log h root = some (denote log h root, s) ∧
      Number.evaluate log s root = some (denote log h root, s2)) ∧
    (∀ x val, isLeaf h x = true → ∃ s s3 s4,
      Number.evaluate log h root = some (denote log h root, s) ∧
      Number.setVal s x val = some s3 ∧
      kindAt s3 x = some (.Leaf val) ∧ (∀ j, j ≠ x → kindAt s3 j = kindAt h j) ∧
      Number.evaluate log s3 root = some (denote log s3 root, s4)) ∧
    (∀ uninit : ℝ,
      ((Number.evaluate Real.log (fHeap uninit 1 2 3 4 5) 13).bind fun r =>
        (Number.setVal r.2 0 (5 / 2)).bind fun s =>
          (Number.evaluate Real.log s 13).map Prod.fst) =
        some ((87 / 2 + 4 * Real.log (87 / 2)) * (87 / 2 + Real.log (87 / 2)))) ∧
    |(21 + 4 * Real.log 21) * (21 + Real.log 21) - 797.751| < 0.0005 ∧
    |(87 / 2 + 4 * Real.log (87 / 2)) * (87 / 2 + Real.log (87 / 2)) - 2769.76| < 0.005 := by
  obtain ⟨s, e, l, k, r⟩ := evaluate_results log h root hw hr
  have hws : WF s := hw.transport l k
  refine ⟨?_, ?_, ?_, ?_, f_value_near, f_value_near_after_setVal⟩
  · obtain ⟨s', e', _, _, r'⟩ := evaluate_results log h' root (hw.transport hl hk)
      (by rw [hl]; exact hr)
    rw [denote_congr log hk] at e'
    refine ⟨s, s', e, e', ?_⟩
    intro n hn
    rw [r n hn, r' n (by rw [args_congr hk]; exact hn), denote_congr log hk]
  · obtain ⟨s2, e2, _⟩ := evaluate_results log s root hws (by rw [l]; exact hr)
    rw [denote_congr log k] at e2
    exact ⟨s, s2, e, e2⟩
  · intro x val hx
    have hx' : isLeaf s x = true := by rw [isLeaf_congr k]; exact hx
    obtain ⟨s3, e3, l3, kx, kj, hw3⟩ := setVal_spec val hx'
    obtain ⟨s4, e4, _⟩ := evaluate_results log s3 root (hw3 hws) (by rw [l3, l]; exact hr)
    exact ⟨s, s3, s4, e, e3, kx, fun j hj => by rw [kj j hj, k j], e4⟩
  · intro uninit
    obtain ⟨s, e, l, k, _⟩ := evaluate_results Real.log (fHeap uninit 1 2 3 4 5) 13
      (wf_fHeap _ _ _ _ _ _) (by simp [fHeap])
    have hws : WF s := (wf_fHeap _ _ _ _ _ _).transport l k
    have hx : isLeaf s 0 = true := by
      rw [isLeaf_congr k]
      rfl
    obtain ⟨s3, e3, l3, kx, kj, hw3⟩ := setVal_spec (5 / 2 : ℝ) hx
    obtain ⟨s4, e4, _⟩ := evaluate_results Real.log s3 13 (hw3 hws)
      (by rw [l3, l]; simp [fHeap])
    have hk3 : ∀ j, kindAt s3 j = kindAt (fHeap uninit (5 / 2) 2 3 4 5) j := by
      intro j
      cases j with
      | zero => rw [kx]; rfl
      | succ j => rw [kj (j + 1) (by omega), k (j + 1)]; rfl
    rw [e]
    simp only [Option.some_bind, e3, e4, Option.map_some']
    rw [denote_congr Real.log hk3, denote_fHeap]
    norm_num

/-- C4 at the diamond graph over the rationals, the second store differing from the first
in its processed flags, cached results, order indices and adjoints. -/
theorem C4_witness :
    WF (diamondHeap (0 : ℚ) 3) ∧ 1 < (diamondHeap (0 : ℚ) 3).length ∧
    ([⟨.Leaf 3, true, 7, 11, 13⟩, ⟨.TimesNode 0 0, true, 5, 17, 19⟩] : Heap ℚ).length =
      (diamondHeap (0 : ℚ) 3).length ∧
    (∀ j, kindAt ([⟨.Leaf 3, true, 7, 11, 13⟩, ⟨.TimesNode 0 0, true, 5, 17, 19⟩] : Heap ℚ) j =
      kindAt (diamondHeap (0 : ℚ) 3) j) ∧
    ∃ s s', Number.evaluate (fun x => x) (diamondHeap (0 : ℚ) 3) 1 =
        some (denote (fun x => x) (diamondHeap (0 : ℚ) 3) 1, s) ∧
      Number.evaluate (fun x => x)
          ([⟨.Leaf 3, true, 7, 11, 13⟩, ⟨.TimesNode 0 0, true, 5, 17, 19⟩] : Heap ℚ) 1 =
        some (denote (fun x => x) (diamondHeap (0 : ℚ) 3) 1, s') ∧
      ∀ n, Reach (args (diamondHeap (0 : ℚ) 3)) 1 n → result s' n = result s n := by
  have hk : ∀ j,
      kindAt ([⟨.Leaf 3, true, 7, 11, 13⟩, ⟨.TimesNode 0 0, true, 5, 17, 19⟩] : Heap ℚ) j =
        kindAt (diamondHeap (0 : ℚ) 3) j := by
    intro j
    rcases j with _ | _ | j <;> rfl
  exact ⟨by decide, by decide, rfl, hk,
    (C4_evaluate_always_recomputes (fun x => x) (diamondHeap (0 : ℚ) 3)
      [⟨.Leaf 3, true, 7, 11, 13⟩, ⟨.TimesNode 0 0, true, 5, 17, 19⟩] 1
      (by decide) (by decide) rfl hk).1⟩

/-- C5. Topological invariant: on every well-formed store of fewer than `2 ^ 31` nodes,
`Number::setOrder` returns, and afterwards every operand of every node reachable from the
root has a smaller order index than that node, shared operands included. -/
theorem C5_operand_order_is_smaller (h : Heap α) (root : Nat) (hw : WF h)
    (hr : root < h.length) (hsz : h.length < 2 ^ 31) :
    ∃ h1, Number.setOrder h root = some h1 ∧
      ∀ n o, Reach (args h) root n → o ∈ args h n →
        ∃ a b, order h1 o = some a ∧ order h1 n = some b ∧ a < b := by
  obtain ⟨h1, e, l, _, q, _⟩ := setOrder_ordAt h root hw hr hsz
  refine ⟨h1, e, ?_⟩
  intro n o hn ho
  have hnl : n < h1.length := by rw [l]; exact hn.lt_length hw hr
  have hol : o < h1.length := by rw [l]; exact (hn.tail ho).lt_length hw hr
  refine ⟨ordAt h1 o, ordAt h1 n, ?_, ?_, setOrder_arg_lt h root hw hr q hn ho⟩
  · simp [ordAt, order, List.getElem?_eq_getElem hol]
  · simp [ordAt, order, List.getElem?_eq_getElem hnl]

/-- C5 at the graph of `f`, which shares `y1` and `y2` between several parents. -/
theorem C5_witness :
    WF (fHeap (0 : ℚ) 1 2 3 4 5) ∧ 13 < (fHeap (0 : ℚ) 1 2 3 4 5).length ∧
    (fHeap (0 : ℚ) 1 2 3 4 5).length < 2 ^ 31 ∧
    ∃ h1, Number.setOrder (fHeap (0 : ℚ) 1 2 3 4 5) 13 = some h1 ∧
      ∀ n o, Reach (args (fHeap (0 : ℚ) 1 2 3 4 5)) 13 n →
        o ∈ args (fHeap (0 : ℚ) 1 2 3 4 5) n →
        ∃ a b, order h1 o = some a ∧ order h1 n = some b ∧ a < b :=
  ⟨wf_fHeap _ _ _ _ _ _, by decide, by decide,
    C5_operand_order_is_smaller (fHeap (0 : ℚ) 1 2 3 4 5) 13 (wf_fHeap _ _ _ _ _ _)
      (by decide) (by decide)⟩

theorem order_of_lt {h : Heap α} {i : Nat} (hi : i < h.length) :
    order h i = some (ordAt h i) := by
  simp [ordAt, order, List.getElem?_eq_getElem hi]

/-- C6, as the program has it: on every well-formed store of fewer than `2 ^ 31` nodes
`Number::setOrder` numbers the nodes reachable from the root along the post-order visiting
sequence starting at 1 (the lambda increments before it assigns): with `N` reachable nodes
they receive the pairwise distinct indices 1, 2, ..., N, the first visited node receiving 1
and the root receiving N. -/
theorem C6_indices_run_from_one_to_N (h : Heap α) (root : Nat) (hw : WF h)
    (hr : root < h.length) (hsz : h.length < 2 ^ 31) :
    ∃ h1 L, Number.setOrder h root = some h1 ∧
      L = postSeq (args h) h.length (fun _ => false) root ∧
      L.Nodup ∧ (∀ n, n ∈ L ↔ Reach (args h) root n) ∧
      (∀ k (hk : k < L.length), order h1 L[k] = some (k + 1)) ∧
      order h1 root = some L.length := by
  obtain ⟨h1, e, l, _, q, _⟩ := setOrder_ordAt h root hw hr hsz
  obtain ⟨_, f2, f3, _, L0, f5⟩ := postSeq_fresh hw.wfg h.length (fun _ => false) root hr
    (fun _ _ => rfl)
  refine ⟨h1, _, e, rfl, f3, f2, ?_, ?_⟩
  · intro k hk
    have hmem : (postSeq (args h) h.length (fun _ => false) root)[k] ∈
        postSeq (args h) h.length (fun _ => false) root := List.getElem_mem _
    have hlt : (postSeq (args h) h.length (fun _ => false) root)[k] < h1.length := by
      rw [l]
      exact ((f2 _).1 hmem).lt_length hw hr
    have hsplit : postSeq (args h) h.length (fun _ => false) root =
        (postSeq (args h) h.length (fun _ => false) root).take k ++
          (postSeq (args h) h.length (fun _ => false) root)[k] ::
            (postSeq (args h) h.length (fun _ => false) root).drop (k + 1) := by
      rw [← List.drop_eq_getElem_cons hk, List.take_append_drop]
    rw [order_of_lt hlt, q _ _ _ hsplit, List.length_take, Nat.min_eq_left (Nat.le_of_lt hk)]
  · rw [order_of_lt (by rw [l]; exact hr), q L0 root [] f5, f5]
    simp

/-- C6 at the graph of `f`. -/
theorem C6_witness :
    WF (fHeap (0 : ℚ) 1 2 3 4 5) ∧ 13 < (fHeap (0 : ℚ) 1 2 3 4 5).length ∧
    (fHeap (0 : ℚ) 1 2 3 4 5).length < 2 ^ 31 ∧
    ∃ h1 L, Number.setOrder (fHeap (0 : ℚ) 1 2 3 4 5) 13 = some h1 ∧
      L = postSeq (args (fHeap (0 : ℚ) 1 2 3 4 5)) (fHeap (0 : ℚ) 1 2 3 4 5).length
        (fun _ => false) 13 ∧
      L.Nodup ∧ (∀ n, n ∈ L ↔ Reach (args (fHeap (0 : ℚ) 1 2 3 4 5)) 13 n) ∧
      (∀ k (hk : k < L.length), order h1 L[k] = some (k + 1)) ∧
      order h1 13 = some L.length :=
  ⟨wf_fHeap _ _ _ _ _ _, by decide, by decide,
    C6_indices_run_from_one_to_N (fHeap (0 : ℚ) 1 2 3 4 5) 13 (wf_fHeap _ _ _ _ _ _)
      (by decide) (by decide)⟩

/-- C6 as stated fails on `y = x * x`: of the two reachable nodes the leaf, visited first,
receives 1 and not 0, and the root receives 2 and not 1. -/
theorem C6_counterexample :
    (Number.setOrder (diamondHeap (0 : ℚ) 3) 1).bind (fun h1 => order h1 0) = some 1 ∧
    (Number.setOrder (diamondHeap (0 : ℚ) 3) 1).bind (fun h1 => order h1 1) = some 2 ∧
    (Number.setOrder (diamondHeap (0 : ℚ) 3) 1).bind (fun h1 => order h1 0) ≠ some 0 ∧
    (Number.setOrder (diamondHeap (0 : ℚ) 3) 1).bind (fun h1 => order h1 1) ≠ some (2 - 1) := by
  have e0 : (Number.setOrder (diamondHeap (0 : ℚ) 3) 1).bind (fun h1 => order h1 0) = some 1 :=
    rfl
  have e1 : (Number.setOrder (diamondHeap (0 : ℚ) 3) 1).bind (fun h1 => order h1 1) = some 2 :=
    rfl
  refine ⟨e0, e1, ?_, ?_⟩
  · rw [e0]; decide
  · rw [e1]; decide

/-- C7, as the program has it: on every well-formed store `Number::propagateAdjoints`
returns and is the reset, the seeding of the root and then one call of `propagateAdjoint`
per entry of the pre-order visiting sequence (a node, then the sub-graphs of its operands
from left to right, shared nodes again on every path).  The lines it writes carry the order
indices of that sequence; the sequence starts with the root, contains exactly the nodes
reachable from the root, and contains each node once per operand path from the root to
it. -/
theorem C7_visits_follow_the_pre_order_sequence [Field α] (h : Heap α) (root : Nat)
    (hw : WF h) (hr : root < h.length) :
    ∃ out h2, Number.propagateAdjoints h root = some (out, h2) ∧
      Number.propagateAdjoints h root =
        ((resetAdjoints h.length h root).bind fun h0 =>
          (update h0 root (fun m => { m with myAdjoint := 1 })).bind fun h1 =>
            (preSeq (args h) h.length root).foldlM Node.propagateAdjoint ([], h1)) ∧
      out.map (fun l => l.order) = (preSeq (args h) h.length root).map (ordAt h) ∧
      (preSeq (args h) h.length root).head? = some root ∧
      (∀ n, n ∈ preSeq (args h) h.length root ↔ Reach (args h) root n) ∧
      (∀ n, (preSeq (args h) h.length root).count n =
        (paths (args h) n h.length root).length) := by
  obtain ⟨out, h2, e, o, _⟩ := propagateAdjoints_spec h root hw hr
  refine ⟨out, h2, e, ?_, o, ?_, fun n => mem_preSeq hw.wfg _ _ n hr,
    fun n => count_preSeq hw.wfg n _ _ hr⟩
  · obtain ⟨h0, e0, l0, r0, n0⟩ := resetWith_spec
      (F := fun m : Node α => { m with myAdjoint := 0 })
      (fun _ => rfl) (fun _ => rfl) h.length h root hw hr hr
    have k0 : ∀ j, kindAt h0 j = kindAt h j := by
      intro j
      by_cases hj : Reach (args h) root j
      · exact kindAt_of_map (F := fun m : Node α => { m with myAdjoint := 0 }) (fun _ => rfl)
          (Or.inl (r0 j hj))
      · exact kindAt_of_map (F := id) (fun _ => rfl) (Or.inr (n0 j hj))
    simp only [Number.propagateAdjoints, resetAdjoints_eq, e0, Option.some_bind]
    cases e1 : update h0 root (fun m => { m with myAdjoint := 1 }) with
    | none => rfl
    | some h1 =>
      obtain ⟨l1, k1, _⟩ := update_same e1 (fun _ => ⟨rfl, rfl⟩)
      have hw1 : WF h1 := hw.transport (by rw [l1, l0]) (fun j => by rw [k1, k0])
      simp only [Option.some_bind]
      rw [preOrder_eq_fold (propagateAdjoint_pres (α := α)) h.length ([], h1) root hw1
        (by rw [l1, l0]; exact hr) hr]
      have : args h1 = args h := args_congr (fun j => by rw [k1, k0])
      simp only [this]
  · cases hlen : h.length with
    | zero => omega
    | succ k => simp [preSeq]

/-- C7 at the diamond graph over the rationals. -/
theorem C7_witness :
    WF (diamondHeap (0 : ℚ) 3) ∧ 1 < (diamondHeap (0 : ℚ) 3).length ∧
    ∃ out h2, Number.propagateAdjoints (diamondHeap (0 : ℚ) 3) 1 = some (out, h2) ∧
      Number.propagateAdjoints (diamondHeap (0 : ℚ) 3) 1 =
        ((resetAdjoints (diamondHeap (0 : ℚ) 3).length (diamondHeap (0 : ℚ) 3) 1).bind fun h0 =>
          (update h0 1 (fun m => { m with myAdjoint := 1 })).bind fun h1 =>
            (preSeq (args (diamondHeap (0 : ℚ) 3)) (diamondHeap (0 : ℚ) 3).length 1).foldlM
              Node.propagateAdjoint ([], h1)) ∧
      out.map (fun l => l.order) =
        (preSeq (args (diamondHeap (0 : ℚ) 3)) (diamondHeap (0 : ℚ) 3).length 1).map
          (ordAt (diamondHeap (0 : ℚ) 3)) ∧
      (preSeq (args (diamondHeap (0 : ℚ) 3)) (diamondHeap (0 : ℚ) 3).length 1).head? = some 1 ∧
      (∀ n, n ∈ preSeq (args (diamondHeap (0 : ℚ) 3)) (diamondHeap (0 : ℚ) 3).length 1 ↔
        Reach (args (diamondHeap (0 : ℚ) 3)) 1 n) ∧
      (∀ n, (preSeq (args (diamondHeap (0 : ℚ) 3)) (diamondHeap (0 : ℚ) 3).length 1).count n =
        (paths (args (diamondHeap (0 : ℚ) 3)) n (diamondHeap (0 : ℚ) 3).length 1).length) :=
  ⟨by decide, by decide,
    C7_visits_follow_the_pre_order_sequence (diamondHeap (0 : ℚ) 3) 1 (by decide) (by decide)⟩

/-- C7 as stated fails on `y = x * x`: after `setOrder` and `evaluate`, `propagateAdjoints`
writes three lines, with order indices 2, 1, 1.  The shared leaf is visited twice and the
indices are not strictly decreasing. -/
theorem C7_counterexample :
    (runMain (fun x => x) (diamondHeap (0 : ℚ) 3) 1).map
        (fun r => r.2.1.map (fun l => (l.isLeaf, l.order))) =
      some [(false, 2), (true, 1), (true, 1)] ∧
    ¬ List.Pairwise (fun a b : Nat => b < a) [2, 1, 1] ∧
    List.count 1 [2, 1, 1] ≠ 1 :=
  ⟨rfl, by decide, by decide⟩

/-- C9. On every well-formed store of fewer than `2 ^ 31` nodes, calling
`Number::setOrder` a second time on the same root leaves the order index of every node as
the first call set it. -/
theorem C9_setOrder_twice_same_indices (h : Heap α) (root : Nat) (hw : WF h)
    (hr : root < h.length) (hsz : h.length < 2 ^ 31) :
    ∃ h1 h2, Number.setOrder h root = some h1 ∧ Number.setOrder h1 root = some h2 ∧
      ∀ n, order h2 n = order h1 n := by
  obtain ⟨h1, e1, l1, k1, q1, r1⟩ := setOrder_ordAt h root hw hr hsz
  have hw1 : WF h1 := hw.transport l1 k1
  obtain ⟨h2, e2, l2, _, q2, r2⟩ := setOrder_ordAt h1 root hw1 (by rw [l1]; exact hr)
    (by rw [l1]; exact hsz)
  rw [args_congr k1, l1] at q2
  rw [args_congr k1] at r2
  obtain ⟨_, f2, _, _, _⟩ := postSeq_fresh hw.wfg h.length (fun _ => false) root hr
    (fun _ _ => rfl)
  refine ⟨h1, h2, e1, e2, ?_⟩
  intro n
  by_cases hn : Reach (args h) root n
  · obtain ⟨L1, L2, hL⟩ := List.append_of_mem ((f2 n).2 hn)
    have hnl := hn.lt_length hw hr
    rw [order_of_lt (by rw [l2, l1]; exact hnl), order_of_lt (by rw [l1]; exact hnl),
      q2 L1 n L2 hL, q1 L1 n L2 hL]
  · exact r2 n hn

/-- C9 at the graph of `f`. -/
theorem C9_witness :
    WF (fHeap (0 : ℚ) 1 2 3 4 5) ∧ 13 < (fHeap (0 : ℚ) 1 2 3 4 5).length ∧
    (fHeap (0 : ℚ) 1 2 3 4 5).length < 2 ^ 31 ∧
    ∃ h1 h2, Number.setOrder (fHeap (0 : ℚ) 1 2 3 4 5) 13 = some h1 ∧
      Number.setOrder h1 13 = some h2 ∧ ∀ n, order h2 n = order h1 n :=
  ⟨wf_fHeap _ _ _ _ _ _, by decide, by decide,
    C9_setOrder_twice_same_indices (fHeap (0 : ℚ) 1 2 3 4 5) 13 (wf_fHeap _ _ _ _ _ _)
      (by decide) (by decide)⟩

/-! ## A reused graph inside a larger one -/

theorem seqOver_not_vis {f : (Nat → Bool) → Nat → List Nat}
    (hf : ∀ vis a n, n ∈ f vis a → vis n = false) :
    ∀ (as : List Nat) (vis : Nat → Bool) (n : Nat), n ∈ seqOver f vis as → vis n = false := by
  intro as
  induction as with
  | nil => intro vis n hn; simp [seqOver] at hn
  | cons a as ih =>
    intro vis n hn
    simp only [seqOver, List.mem_append] at hn
    rcases hn with hn | hn
    · exact hf vis a n hn
    · have := ih _ n hn
      simp only [Bool.or_eq_false_iff] at this
      exact this.1

/-- The nodes a guarded post-order walk visits are unmarked when it starts. -/
theorem postSeq_not_vis {g : Nat → List Nat} :
    ∀ (fuel : Nat) (vis : Nat → Bool) (i n : Nat),
      n ∈ postSeq g fuel vis i → vis n = false := by
  intro fuel
  induction fuel with
  | zero => intro vis i n hn; simp [postSeq] at hn
  | succ fuel ih =>
    intro vis i n hn
    simp only [postSeq] at hn
    by_cases hv : vis i = true
    · simp [hv] at hn
    · have hv' : vis i = false := by simpa using hv
      simp only [hv', Bool.false_eq_true, if_false, List.mem_append,
        List.mem_singleton] at hn
      rcases hn with hn | rfl
      · exact seqOver_not_vis ih _ _ _ hn
      · exact hv'

theorem seqOver_congr_fun {f f' : (Nat → Bool) → Nat → List Nat} :
    ∀ (as : List Nat), (∀ a ∈ as, ∀ vis, f vis a = f' vis a) →
      ∀ vis, seqOver f vis as = seqOver f' vis as := by
  intro as
  induction as with
  | nil => intro _ _; rfl
  | cons a as ih =>
    intro h vis
    simp only [seqOver]
    rw [h a (List.mem_cons_self _ _) vis,
      ih (fun b hb => h b (List.mem_cons_of_mem _ hb))]

/-- The visiting sequence does not depend on the recursion budget, once it is enough. -/
theorem postSeq_fuel {g : Nat → List Nat} (hg : WFg g) :
    ∀ (fuel fuel' : Nat) (vis : Nat → Bool) (i : Nat), i < fuel → i < fuel' →
      postSeq g fuel vis i = postSeq g fuel' vis i := by
  intro fuel
  induction fuel with
  | zero => intro _ _ i hi; exact absurd hi (Nat.not_lt_zero _)
  | succ fuel ih =>
    intro fuel' vis i hi hi'
    cases fuel' with
    | zero => exact absurd hi' (Nat.not_lt_zero _)
    | succ fuel' =>
      simp only [postSeq]
      rw [seqOver_congr_fun (g i) (fun a ha v => ih fuel' v a
        (by have := hg i a ha; omega) (by have := hg i a ha; omega)) vis]

/-- A walk that can enter the set `C` of the nodes below `r` only at `r`, started with no
node of `C` marked, either visits no node of `C` or visits them as the walk from `r` does. -/
theorem postSeq_filter_reused {g : Nat → List Nat} (hg : WFg g) (r : Nat) (C : List Nat)
    (hC : ∀ fuel vis, r < fuel → (∀ n ∈ C, vis n = false) → postSeq g fuel vis r = C) :
    ∀ (fuel : Nat) (vis : Nat → Bool) (i : Nat), i < fuel → (i ∈ C → i = r) →
      (∀ p, Reach g i p → ∀ c ∈ g p, c ∈ C → c ≠ r → p ∈ C) →
      (∀ n ∈ C, vis n = false) →
      (postSeq g fuel vis i).filter (fun n => decide (n ∈ C)) = [] ∨
        (postSeq g fuel vis i).filter (fun n => decide (n ∈ C)) = C := by
  intro fuel
  induction fuel with
  | zero => intro _ i hi; exact absurd hi (Nat.not_lt_zero _)
  | succ fuel ih =>
    intro vis i hi hiC hE hfree
    by_cases hir : i = r
    · subst hir
      right
      rw [hC _ vis hi hfree]
      simp
    · have hinC : i ∉ C := fun h => hir (hiC h)
      simp only [postSeq]
      by_cases hv : vis i = true
      · left; simp [hv]
      · have hv' : vis i = false := by simpa using hv
        simp only [hv', Bool.false_eq_true, if_false, List.filter_append]
        have hlast : [i].filter (fun n => decide (n ∈ C)) = [] := by simp [hinC]
        rw [hlast, List.append_nil]
        have key : ∀ (as : List Nat), (∀ a ∈ as, a ∈ g i) → ∀ vis : Nat → Bool,
            (∀ n ∈ C, vis n = false) →
            (seqOver (postSeq g fuel) vis as).filter (fun n => decide (n ∈ C)) = [] ∨
              (seqOver (postSeq g fuel) vis as).filter (fun n => decide (n ∈ C)) = C := by
          intro as
          induction as with
          | nil => intro _ vis _; left; simp [seqOver]
          | cons a as ih2 =>
            intro has vis hfree
            have hai : a ∈ g i := has a (List.mem_cons_self _ _)
            have halt : a < fuel := by have := hg i a hai; omega
            have haC : a ∈ C → a = r := by
              intro hc
              by_contra hne
              exact hinC (hE i (Reach.refl i) a hai hc hne)
            have hEa : ∀ p, Reach g a p → ∀ c ∈ g p, c ∈ C → c ≠ r → p ∈ C :=
              fun p hp => hE p (Reach.step hai hp)
            simp only [seqOver, List.filter_append]
            rcases ih vis a halt haC hEa hfree with h0 | hfull
            · rw [h0, List.nil_append]
              apply ih2 (fun b hb => has b (List.mem_cons_of_mem _ hb))
              intro n hn
              have hnot : n ∉ postSeq g fuel vis a := by
                intro hm
                have hmem : n ∈ (postSeq g fuel vis a).filter (fun n => decide (n ∈ C)) := by
                  simp [List.mem_filter, hm, hn]
                rw [h0] at hmem
                simp at hmem
              simp [hfree n hn, hnot]
            · right
              rw [hfull]
              have hrest : (seqOver (postSeq g fuel)
                  (fun n => vis n || decide (n ∈ postSeq g fuel vis a)) as).filter
                    (fun n => decide (n ∈ C)) = [] := by
                rw [List.filter_eq_nil_iff]
                intro n hn hc
                have hvis := seqOver_not_vis (postSeq_not_vis fuel) as _ n hn
                simp only [Bool.or_eq_false_iff, decide_eq_false_iff_not] at hvis
                have hnC : n ∈ C := by simpa using hc
                have hmem : n ∈ (postSeq g fuel vis a).filter (fun n => decide (n ∈ C)) := by
                  rw [hfull]; exact hnC
                exact hvis.2 (List.mem_filter.1 hmem).1
              rw [hrest, List.append_nil]
        exact key (g i) (fun a ha => ha) vis hfree

/-- Filtering a list keeps the relative position of the entries that stay. -/
theorem indexOf_filter_lt (p : Nat → Bool) :
    ∀ (L : List Nat) (a b : Nat), a ∈ L.filter p → b ∈ L.filter p →
      ((L.filter p).indexOf a < (L.filter p).indexOf b ↔ L.indexOf a < L.indexOf b) := by
  intro L
  induction L with
  | nil => intro a b ha; simp at ha
  | cons x L ih =>
    intro a b ha hb
    have hpa : p a = true := (List.mem_filter.1 ha).2
    have hpb : p b = true := (List.mem_filter.1 hb).2
    by_cases hpx : p x = true
    · simp only [List.filter_cons, hpx, if_true] at ha hb ⊢
      by_cases hax : x = a
      · subst hax
        by_cases hbx : x = b
        · subst hbx
          simp [List.indexOf_cons]
        · have hbeq : (x == b) = false := by simpa using hbx
          simp [List.indexOf_cons, hbeq]
      · by_cases hbx : x = b
        · simp [List.indexOf_cons, hax, hbx]
        · have ha' : a ∈ L.filter p := by
            rcases List.mem_cons.1 ha with h | h
            · exact absurd h.symm hax
            · exact h
          have hb' : b ∈ L.filter p := by
            rcases List.mem_cons.1 hb with h | h
            · exact absurd h.symm hbx
            · exact h
          simp [List.indexOf_cons, hax, hbx, ih a b ha' hb']
    · have hpx' : p x = false := by simpa using hpx
      have hax : x ≠ a := by rintro rfl; rw [hpa] at hpx'; exact Bool.noConfusion hpx'
      have hbx : x ≠ b := by rintro rfl; rw [hpb] at hpx'; exact Bool.noConfusion hpx'
      simp only [List.filter_cons, hpx', Bool.false_eq_true, if_false] at ha hb ⊢
      simp [List.indexOf_cons, hax, hbx, ih a b ha hb]

/-- The order index written by `setOrder` is the position in the visiting sequence. -/
theorem ordAt_indexOf {h' : Heap α} {L : List Nat}
    (q : ∀ L1 n L2, L = L1 ++ n :: L2 → ordAt h' n = L1.length + 1) (hnd : L.Nodup)
    {n : Nat} (hn : n ∈ L) : ordAt h' n = L.indexOf n + 1 := by
  obtain ⟨L1, L2, e⟩ := List.append_of_mem hn
  rw [q L1 n L2 e]
  subst e
  have hnot : n ∉ L1 := by
    intro hm
    have := (List.nodup_append.1 hnd).2.2 hm (List.mem_cons_self _ _)
    exact this
  rw [List.indexOf_append_of_not_mem hnot, List.indexOf_cons_self]

/-- C10, as the program has it: let a well-formed store of fewer than `2 ^ 31` nodes hold a
graph with root `r` and a larger graph whose root `big` has `r` among its descendants.
If the larger graph uses the nodes of the reused graph other than `r` only from within the
reused graph (every operand edge of the larger graph into a node reachable from `r` other
than `r` itself starts at a node reachable from `r`), then ordering the larger graph
preserves the relative order of the reused portion: for all `a`, `b` reachable from `r`,
`order a < order b` after `setOrder` on `r` if and only if `order a < order b` after
`setOrder` on `big`.  Without that condition the relative order is still preserved for
every two nodes of the reused graph of which one is a descendant of the other: for `b`
reachable from `r` and `a` a proper descendant of `b`, `order a < order b` after `setOrder`
on `r` and also after `setOrder` on `big`. -/
theorem C10_reuse_preserves_order (h : Heap α) (r big : Nat) (hw : WF h)
    (hb : big < h.length) (hreach : Reach (args h) big r) (hsz : h.length < 2 ^ 31) :
    ∃ hG hH, Number.setOrder h r = some hG ∧ Number.setOrder h big = some hH ∧
      ((∀ p, Reach (args h) big p → ∀ c ∈ args h p, Reach (args h) r c → c ≠ r →
          Reach (args h) r p) →
        ∀ a b, Reach (args h) r a → Reach (args h) r b →
          (ordAt hG a < ordAt hG b ↔ ordAt hH a < ordAt hH b)) ∧
      ∀ a b, Reach (args h) r b → Reach (args h) b a → a ≠ b →
        ordAt hG a < ordAt hG b ∧ ordAt hH a < ordAt hH b := by
  have hrl : r < h.length := hreach.lt_length hw hb
  obtain ⟨hG, eG, _, _, qG, _⟩ := setOrder_ordAt h r hw hrl hsz
  obtain ⟨hH, eH, _, _, qH, _⟩ := setOrder_ordAt h big hw hb hsz
  refine ⟨hG, hH, eG, eH, ?_, ?_⟩
  · intro hE a b ha hb'
    obtain ⟨_, mG, ndG, _, _⟩ := postSeq_fresh hw.wfg h.length (fun _ => false) r hrl
      (fun _ _ => rfl)
    obtain ⟨_, mH, ndH, _, _⟩ := postSeq_fresh hw.wfg h.length (fun _ => false) big hb
      (fun _ _ => rfl)
    have hC : ∀ fuel (vis : Nat → Bool), r < fuel →
        (∀ n ∈ postSeq (args h) h.length (fun _ => false) r, vis n = false) →
        postSeq (args h) fuel vis r = postSeq (args h) h.length (fun _ => false) r := by
      intro fuel vis hf hfree
      rw [postSeq_congr fuel vis (fun _ => false) r (fun n hn => hfree n ((mG n).2 hn))]
      exact postSeq_fuel hw.wfg fuel h.length _ r hf hrl
    have hbig : big ∈ postSeq (args h) h.length (fun _ => false) r → big = r := by
      intro hm
      have h1 := ((mG big).1 hm).le hw.wfg
      have h2 := hreach.le hw.wfg
      omega
    have hfil := postSeq_filter_reused hw.wfg r _ hC h.length (fun _ => false) big hb hbig
      (fun p hp c hc hcC hne => (mG p).2 (hE p hp c hc ((mG c).1 hcC) hne))
      (fun _ _ => rfl)
    have hrmem : r ∈ (postSeq (args h) h.length (fun _ => false) big).filter
        (fun n => decide (n ∈ postSeq (args h) h.length (fun _ => false) r)) := by
      rw [List.mem_filter]
      exact ⟨(mH r).2 hreach, by simpa using (mG r).2 (Reach.refl r)⟩
    have hfil' : (postSeq (args h) h.length (fun _ => false) big).filter
        (fun n => decide (n ∈ postSeq (args h) h.length (fun _ => false) r)) =
          postSeq (args h) h.length (fun _ => false) r := by
      rcases hfil with h0 | h1
      · rw [h0] at hrmem
        simp at hrmem
      · exact h1
    have haG := (mG a).2 ha
    have hbG := (mG b).2 hb'
    rw [ordAt_indexOf qG ndG haG, ordAt_indexOf qG ndG hbG,
      ordAt_indexOf qH ndH ((mH a).2 (hreach.trans ha)),
      ordAt_indexOf qH ndH ((mH b).2 (hreach.trans hb'))]
    have key := indexOf_filter_lt
      (fun n => decide (n ∈ postSeq (args h) h.length (fun _ => false) r))
      (postSeq (args h) h.length (fun _ => false) big) a b
      (by rw [hfil']; exact haG) (by rw [hfil']; exact hbG)
    rw [hfil'] at key
    omega
  · intro a b hrb hba hne
    exact ⟨setOrder_reach_lt h r hw hrl qG hba hrb hne,
      setOrder_reach_lt h big hw hb qH hba (hreach.trans hrb) hne⟩

/-- C10 at the store holding `r = x + y` and `big = z * r`: the larger graph uses `x` and
`y` only through `r`, and all pairs keep their relative order. -/
theorem C10_witness :
    WF (reuseThroughHeap (0 : ℚ) 7 1 2) ∧ 4 < (reuseThroughHeap (0 : ℚ) 7 1 2).length ∧
    Reach (args (reuseThroughHeap (0 : ℚ) 7 1 2)) 4 3 ∧
    (reuseThroughHeap (0 : ℚ) 7 1 2).length < 2 ^ 31 ∧
    (∀ p, Reach (args (reuseThroughHeap (0 : ℚ) 7 1 2)) 4 p →
      ∀ c ∈ args (reuseThroughHeap (0 : ℚ) 7 1 2) p,
        Reach (args (reuseThroughHeap (0 : ℚ) 7 1 2)) 3 c → c ≠ 3 →
        Reach (args (reuseThroughHeap (0 : ℚ) 7 1 2)) 3 p) ∧
    ∃ hG hH, Number.setOrder (reuseThroughHeap (0 : ℚ) 7 1 2) 3 = some hG ∧
      Number.setOrder (reuseThroughHeap (0 : ℚ) 7 1 2) 4 = some hH ∧
      (∀ a b, Reach (args (reuseThroughHeap (0 : ℚ) 7 1 2)) 3 a →
        Reach (args (reuseThroughHeap (0 : ℚ) 7 1 2)) 3 b →
        (ordAt hG a < ordAt hG b ↔ ordAt hH a < ordAt hH b)) ∧
      ∀ a b, Reach (args (reuseThroughHeap (0 : ℚ) 7 1 2)) 3 b →
        Reach (args (reuseThroughHeap (0 : ℚ) 7 1 2)) b a → a ≠ b →
        ordAt hG a < ordAt hG b ∧ ordAt hH a < ordAt hH b := by
  have hw : WF (reuseThroughHeap (0 : ℚ) 7 1 2) := by decide
  have hr : Reach (args (reuseThroughHeap (0 : ℚ) 7 1 2)) 4 3 :=
    Reach.step (a := 3) (by decide) (Reach.refl 3)
  have hE : ∀ p, Reach (args (reuseThroughHeap (0 : ℚ) 7 1 2)) 4 p →
      ∀ c ∈ args (reuseThroughHeap (0 : ℚ) 7 1 2) p,
        Reach (args (reuseThroughHeap (0 : ℚ) 7 1 2)) 3 c → c ≠ 3 →
        Reach (args (reuseThroughHeap (0 : ℚ) 7 1 2)) 3 p := by
    intro p hp c hc hrc hne
    have hle := hp.le hw.wfg
    have hcm := (mem_preSeq hw.wfg 5 3 c (by decide)).2 hrc
    have hcm' : c ∈ [3, 1, 2] := hcm
    rw [(mem_preSeq hw.wfg 5 3 p (by decide)).symm]
    show p ∈ [3, 1, 2]
    interval_cases p
    · simp [args, kindAt, reuseThroughHeap, newNode, Kind.myArguments] at hc
    · simp [args, kindAt, reuseThroughHeap, newNode, Kind.myArguments] at hc
    · simp [args, kindAt, reuseThroughHeap, newNode, Kind.myArguments] at hc
    · simp
    · simp [args, kindAt, reuseThroughHeap, newNode, Kind.myArguments] at hc
      rcases hc with rfl | rfl
      · simp at hcm'
      · exact absurd rfl hne
  obtain ⟨hG, hH, eG, eH, p1, p2⟩ := C10_reuse_preserves_order
    (reuseThroughHeap (0 : ℚ) 7 1 2) 3 4 hw (by decide) hr (by decide)
  exact ⟨hw, by decide, hr, by decide, hE, hG, hH, eG, eH, p1 hE, p2⟩

/-- C10 as stated fails on `r = x + y` reused in `big = y * r`: the leaves `x` and `y` are
both reachable from `r`; `setOrder` on `r` gives `x` index 1 and `y` index 2, `setOrder` on
`big` gives `y` index 1 and `x` index 2. -/
theorem C10_counterexample :
    Reach (args (reuseHeap (0 : ℚ) 1 2)) 3 2 ∧
    Reach (args (reuseHeap (0 : ℚ) 1 2)) 2 0 ∧ Reach (args (reuseHeap (0 : ℚ) 1 2)) 2 1 ∧
    (Number.setOrder (reuseHeap (0 : ℚ) 1 2) 2).map (fun s => (order s 0, order s 1)) =
      some (some 1, some 2) ∧
    (Number.setOrder (reuseHeap (0 : ℚ) 1 2) 3).map (fun s => (order s 0, order s 1)) =
      some (some 2, some 1) ∧
    ¬ ((1 : Nat) < 2 ↔ (2 : Nat) < 1) :=
  ⟨Reach.step (a := 2) (by decide) (Reach.refl 2),
    Reach.step (a := 0) (by decide) (Reach.refl 0),
    Reach.step (a := 1) (by decide) (Reach.refl 1), rfl, rfl, by decide⟩

/-! ## Construction, leaf access and single calls -/

theorem kindAt_alloc (h : Heap α) (n : Node α) :
    kindAt (alloc h n).1 h.length = some n.kind ∧
      ∀ j, j < h.length → kindAt (alloc h n).1 j = kindAt h j := by
  constructor
  · simp [alloc, kindAt]
  · intro j hj
    simp [alloc, kindAt, List.getElem?_append_left hj]

/-- Allocating a node whose operands are already in the store keeps the store well formed. -/
theorem wf_alloc {h : Heap α} (hw : WF h) (n : Node α)
    (hn : ∀ a ∈ n.kind.myArguments, a < h.length) : WF (alloc h n).1 := by
  intro i hi a ha
  have hlen : (alloc h n).1.length = h.length + 1 := by simp [alloc]
  rw [hlen] at hi
  by_cases hi' : i < h.length
  · have e : args (alloc h n).1 i = args h i := by
      simp only [args, (kindAt_alloc h n).2 i hi']
    rw [e] at ha
    exact hw i hi' a ha
  · have hi'' : i = h.length := by omega
    subst hi''
    have e : args (alloc h n).1 h.length = n.kind.myArguments := by
      simp only [args, (kindAt_alloc h n).1]
    rw [e] at ha
    exact hn a ha

theorem isLeaf_of_lt {h : Heap α} {n : Nat} (hn : n < h.length) :
    isLeaf h n = true ↔ ∃ v, h[n].kind = .Leaf v := by
  have hg : h[n]? = some h[n] := List.getElem?_eq_getElem hn
  simp only [isLeaf, kindAt, hg, Option.map_some']
  cases h[n].kind <;> simp

theorem setVal_frame {h h' : Heap α} {x : Nat} {val : α} (e : Number.setVal h x val = some h') :
    h'.length = h.length ∧ (∀ j, j ≠ x → h'[j]? = h[j]?) ∧
      (∀ j, result h' j = result h j) ∧ (∀ j, adjoint h' j = adjoint h j) ∧
      (∀ j, order h' j = order h j) ∧ (∀ j, proc h' j = proc h j) := by
  unfold Number.setVal at e
  cases hg : h[x]? with
  | none => simp [hg] at e
  | some n =>
    simp only [hg] at e
    have hx : x < h.length := (List.getElem?_eq_some_iff.1 hg).1
    cases hk : n.kind with
    | PlusNode l r => simp [hk] at e
    | TimesNode l r => simp [hk] at e
    | LogNode a => simp [hk] at e
    | Leaf v =>
      simp only [hk, Option.some.injEq] at e
      subst e
      have key : ∀ j, (h.set x { n with kind := Kind.Leaf val })[j]? =
          if j = x then some { n with kind := Kind.Leaf val } else h[j]? := by
        intro j
        by_cases hj : j = x
        · subst hj
          simp [hx]
        · have : x ≠ j := fun e => hj e.symm
          simp [hj, List.getElem?_set_ne this]
      refine ⟨by simp, ?_, ?_, ?_, ?_, ?_⟩
      · intro j hj
        rw [key j, if_neg hj]
      all_goals
        intro j
        by_cases hj : j = x
        · subst hj
          simp [result, adjoint, order, proc, key, hg]
        · simp [result, adjoint, order, proc, key, hj]

theorem proc_of_postOrder {σ : Type} {visitFunc : σ × Heap α → Nat → Option (σ × Heap α)}
    {fuel : Nat} {st st1 : σ × Heap α} {root : Nat}
    (e : postOrder visitFunc fuel st root = some st1) : proc st1.2 root = true := by
  cases fuel with
  | zero => simp [postOrder] at e
  | succ fuel =>
    unfold postOrder at e
    cases hg : st.2[root]? with
    | none => simp [hg] at e
    | some n =>
      simp only [hg] at e
      by_cases hp : n.myProcessed = false
      · simp only [hp, if_true, Option.bind_eq_some, Option.map_eq_some'] at e
        obtain ⟨_, _, st2, _, h3, e3, rfl⟩ := e
        obtain ⟨hlt, _, q⟩ := update_eq_some e3
        simp [proc, q root, List.getElem?_eq_getElem hlt]
      · have hp' : n.myProcessed = true := by simpa using hp
        simp only [hp', Bool.true_eq_false, if_false, Option.some.injEq] at e
        subst e
        simp [proc, hg, hp']

theorem postOrder_of_proc {σ : Type} (visitFunc : σ × Heap α → Nat → Option (σ × Heap α))
    (fuel : Nat) {st : σ × Heap α} {root : Nat} (hp : proc st.2 root = true) :
    postOrder visitFunc (fuel + 1) st root = some st := by
  unfold postOrder
  unfold proc at hp
  cases hg : st.2[root]? with
  | none => simp [hg] at hp
  | some n =>
    simp only [hg] at hp
    simp [hp]

theorem adj_withAdj_eq [Zero α] (h : Heap α) (a : Nat → α) (j : Nat) :
    adj (withAdj h a) j = if j < h.length then a j else 0 := by
  by_cases hj : j < h.length
  · simp [hj, adj_withAdj h a hj]
  · have : h.length ≤ j := Nat.le_of_not_lt hj
    simp [hj, adj, adjoint, getElem?_withAdj, List.getElem?_eq_none this]

theorem adj_of_ge [Zero α] {h : Heap α} {j : Nat} (hj : h.length ≤ j) : adj h j = 0 := by
  simp [adj, adjoint, List.getElem?_eq_none hj]

theorem order_withAdj (h : Heap α) (a : Nat → α) (j : Nat) :
    order (withAdj h a) j = order h j := by
  simp only [order, getElem?_withAdj]
  cases h[j]? <;> rfl

theorem proc_withAdj (h : Heap α) (a : Nat → α) (j : Nat) :
    proc (withAdj h a) j = proc h j := by
  simp only [proc, getElem?_withAdj]
  cases h[j]? <;> rfl

/-! ## The breadth-first walk -/

theorem preSeq_fuel {g : Nat → List Nat} (hg : WFg g) :
    ∀ (fuel fuel' i : Nat), i < fuel → i < fuel' → preSeq g fuel i = preSeq g fuel' i := by
  intro fuel
  induction fuel with
  | zero => intro _ i hi; exact absurd hi (Nat.not_lt_zero _)
  | succ fuel ih =>
    intro fuel' i hi hi'
    cases fuel' with
    | zero => exact absurd hi' (Nat.not_lt_zero _)
    | succ fuel' =>
      simp only [preSeq]
      congr 1
      apply List.flatMap_congr
      intro a ha
      have := hg i a ha
      exact ih fuel' a (by omega) (by omega)

theorem preSeq_unfold {g : Nat → List Nat} (hg : WFg g) (n : Nat) :
    preSeq g (n + 1) n = n :: (g n).flatMap fun a => preSeq g (a + 1) a := by
  simp only [preSeq]
  congr 1
  apply List.flatMap_congr
  intro a ha
  have := hg n a ha
  exact preSeq_fuel hg n (a + 1) a this (by omega)

/-- On an acyclic graph the breadth-first visiting sequence exists and is a rearrangement of
the pre-order visiting sequences of the nodes in the queue. -/
theorem bfSeq_exists {g : Nat → List Nat} (hg : WFg g) :
    ∀ (m : Nat) (q : List Nat), (q.flatMap fun n => preSeq g (n + 1) n).length = m →
      ∃ L, bfSeq g (m + 1) q = some L ∧ L.Perm (q.flatMap fun n => preSeq g (n + 1) n) := by
  intro m
  induction m with
  | zero =>
    intro q hq
    cases q with
    | nil => exact ⟨[], rfl, List.Perm.refl _⟩
    | cons n q =>
      rw [List.flatMap_cons, preSeq_unfold hg] at hq
      simp at hq
  | succ m ih =>
    intro q hq
    cases q with
    | nil => simp at hq
    | cons n q =>
      rw [List.flatMap_cons, preSeq_unfold hg] at hq
      have hlen : ((q ++ g n).flatMap fun n => preSeq g (n + 1) n).length = m := by
        simp only [List.flatMap_append, List.length_append]
        simp only [List.cons_append, List.length_cons, List.length_append] at hq
        omega
      obtain ⟨L, e, hp⟩ := ih (q ++ g n) hlen
      refine ⟨n :: L, by simp [bfSeq, e], ?_⟩
      rw [List.flatMap_cons, preSeq_unfold hg, List.cons_append]
      refine List.Perm.cons n (hp.trans ?_)
      rw [List.flatMap_append]
      exact List.perm_append_comm

/-- With enough recursion budget the loop of the breadth-first walk is the visitor applied
along the breadth-first visiting sequence, and it leaves the queue empty. -/
theorem breadthFirstWhile_eq_fold {σ : Type}
    {visitFunc : σ × Heap α → Nat → Option (σ × Heap α)} (hv : Pres visitFunc) :
    ∀ (k : Nat) (q L : List Nat) (st : σ × Heap α),
      bfSeq (args st.2) k q = some L → WF st.2 → (∀ n ∈ q, n < st.2.length) →
      ∀ F, 2 * L.length + 1 ≤ F →
        breadthFirstWhile visitFunc F st q = (L.foldlM visitFunc st).map fun s => (s, []) := by
  intro k
  induction k with
  | zero => intro q L st e; simp [bfSeq] at e
  | succ k ih =>
    intro q L st e hw hq F hF
    cases q with
    | nil =>
      simp only [bfSeq, Option.some.injEq] at e
      subst e
      cases F with
      | zero => omega
      | succ F => simp [breadthFirstWhile]
    | cons n q =>
      simp only [bfSeq, Option.map_eq_some'] at e
      obtain ⟨L', e', rfl⟩ := e
      simp only [List.length_cons] at hF
      obtain ⟨F1, rfl⟩ : ∃ F1, F = F1 + 1 := ⟨F - 1, by omega⟩
      obtain ⟨F2, rfl⟩ : ∃ F2, F1 = F2 + 1 := ⟨F1 - 1, by omega⟩
      have hn : n < st.2.length := hq n (List.mem_cons_self _ _)
      have hg : st.2[n]? = some st.2[n] := List.getElem?_eq_getElem hn
      have ha : args st.2 n = st.2[n].kind.myArguments := by simp [args, kindAt, hg]
      simp only [breadthFirstWhile, breadthFirstQ, hg, ← ha, List.foldlM_cons]
      cases e1 : visitFunc st n with
      | none => rfl
      | some st1 =>
        obtain ⟨p1, p2, _⟩ := hv _ _ _ e1
        have hw1 : WF st1.2 := hw.transport p1 p2
        have hq1 : ∀ m ∈ q ++ args st.2 n, m < st1.2.length := by
          intro m hm
          rw [p1]
          rcases List.mem_append.1 hm with hm | hm
          · exact hq m (List.mem_cons_of_mem _ hm)
          · exact (hw.arg_lt hm).2
        have := ih (q ++ args st.2 n) L' st1 (by rw [args_congr p2]; exact e') hw1 hq1 F2
          (by omega)
        simp only [Option.some_bind, bind, Option.bind, this]
        cases L'.foldlM visitFunc st1 with
        | none => rfl
        | some s' => simp [breadthFirstWhile]

/-- With enough recursion budget `Node::breadthFirst` on `root` is the visitor applied along
the breadth-first visiting sequence of the queue holding `root` alone. -/
theorem breadthFirst_eq_fold {σ : Type}
    {visitFunc : σ × Heap α → Nat → Option (σ × Heap α)} (hv : Pres visitFunc)
    {k : Nat} {L : List Nat} {st : σ × Heap α} {root : Nat}
    (e : bfSeq (args st.2) k [root] = some L) (hw : WF st.2) (hr : root < st.2.length) :
    ∀ F, 2 * L.length ≤ F → Node.breadthFirst visitFunc F st root = L.foldlM visitFunc st := by
  intro F hF
  cases k with
  | zero => simp [bfSeq] at e
  | succ k =>
    simp only [bfSeq, Option.map_eq_some', List.nil_append] at e
    obtain ⟨L', e', rfl⟩ := e
    simp only [List.length_cons] at hF
    obtain ⟨F1, rfl⟩ : ∃ F1, F = F1 + 1 := ⟨F - 1, by omega⟩
    have hg : st.2[root]? = some st.2[root] := List.getElem?_eq_getElem hr
    have ha : args st.2 root = st.2[root].kind.myArguments := by simp [args, kindAt, hg]
    simp only [Node.breadthFirst, breadthFirstQ, hg, ← ha, List.foldlM_cons, List.nil_append]
    cases e1 : visitFunc st root with
    | none => rfl
    | some st1 =>
      obtain ⟨p1, p2, _⟩ := hv _ _ _ e1
      have hw1 : WF st1.2 := hw.transport p1 p2
      have hq1 : ∀ m ∈ args st.2 root, m < st1.2.length := by
        intro m hm
        rw [p1]
        exact (hw.arg_lt hm).2
      have := breadthFirstWhile_eq_fold hv k (args st.2 root) L' st1
        (by rw [args_congr p2]; exact e') hw1 hq1 F1 (by omega)
      simp only [Option.some_bind, bind, Option.bind, this]
      cases L'.foldlM visitFunc st1 <;> rfl

/-- The breadth-first visiting sequence from a root: it exists, and it is a rearrangement of
the pre-order visiting sequence from that root. -/
theorem bfSeq_root {h : Heap α} (hw : WF h) {root : Nat} (hr : root < h.length) :
    ∃ k L, bfSeq (args h) k [root] = some L ∧ L.Perm (preSeq (args h) h.length root) := by
  obtain ⟨L, e, hp⟩ := bfSeq_exists hw.wfg _ [root] rfl
  refine ⟨_, L, e, ?_⟩
  simp only [List.flatMap_cons, List.flatMap_nil, List.append_nil] at hp
  rw [preSeq_fuel hw.wfg (root + 1) h.length root (by omega) hr] at hp
  exact hp

/-! ## Breadth-first adjoint propagation -/

/-- The reset and the seeding that both forms of `propagateAdjoints` start with. -/
theorem reset_seed_spec [Field α] (h : Heap α) (root : Nat) (hw : WF h)
    (hr : root < h.length) :
    ∃ h1 h2, resetAdjoints h.length h root = some h1 ∧
      update h1 root (fun m => { m with myAdjoint := 1 }) = some h2 ∧
      h2 = withAdj h (adj h2) ∧ adj h2 root = 1 ∧
      (∀ j, Reach (args h) root j → j ≠ root → adj h2 j = 0) ∧
      (∀ j, ¬ Reach (args h) root j → adj h2 j = adj h j) := by
  obtain ⟨h1, e1, l1, r1, n1⟩ := resetWith_spec (F := fun m : Node α => { m with myAdjoint := 0 })
    (fun _ => rfl) (fun _ => rfl) h.length h root hw hr hr
  obtain ⟨h2, e2⟩ := update_of_lt (fun m : Node α => { m with myAdjoint := 1 })
    (l1 ▸ hr : root < h1.length)
  obtain ⟨_, l2, q2⟩ := update_eq_some e2
  have hform : ∀ j : Nat, ∃ x : α, h2[j]? =
      (h[j]?).map (fun m : Node α => { m with myAdjoint := x }) := by
    intro j
    rw [q2 j]
    by_cases hj : j = root
    · refine ⟨1, ?_⟩
      simp only [hj, if_true]
      rw [r1 root (Reach.refl _)]
      cases h[root]? <;> rfl
    · simp only [hj, if_false]
      by_cases hrj : Reach (args h) root j
      · exact ⟨0, r1 j hrj⟩
      · refine ⟨adj h j, ?_⟩
        rw [n1 j hrj]
        cases hg : h[j]? with
        | none => rfl
        | some m => simp [adj, adjoint, hg]
  refine ⟨h1, h2, by rw [resetAdjoints_eq]; exact e1, e2, eq_withAdj hform, ?_, ?_, ?_⟩
  · simp [adj, adjoint, q2 root, r1 root (Reach.refl _), List.getElem?_eq_getElem hr]
  · intro j hrj hj
    have hjl := hrj.lt_length hw hr
    simp [adj, adjoint, q2 j, hj, r1 j hrj, List.getElem?_eq_getElem hjl]
  · intro j hrj
    have hj : j ≠ root := by
      rintro rfl
      exact hrj (Reach.refl _)
    simp [adj, adjoint, q2 j, hj, n1 j hrj]

/-- Calls on nodes reachable from the root leave the adjoints outside its sub-graph alone. -/
theorem foldl_stepAdj_outside [Field α] (h : Heap α) (root : Nat) :
    ∀ (L : List Nat) (a : Nat → α), (∀ n ∈ L, Reach (args h) root n) →
      ∀ m, ¬ Reach (args h) root m → L.foldl (stepAdj h) a m = a m := by
  intro L
  induction L with
  | nil => intro _ _ _ _; rfl
  | cons n L ih =>
    intro a hL m hm
    simp only [List.foldl_cons]
    rw [ih _ (fun x hx => hL x (List.mem_cons_of_mem _ hx)) m hm]
    have hn := hL n (List.mem_cons_self _ _)
    apply stepAdj_of_not_mem
    · rintro rfl
      exact hm hn
    · intro hmem
      exact hm (hn.tail hmem)

theorem foldl_stepAdj_leaves [Field α] (h : Heap α) :
    ∀ (L : List Nat) (a : Nat → α), (∀ n ∈ L, isLeaf h n = true) →
      L.foldl (stepAdj h) a = a := by
  intro L
  induction L with
  | nil => intro _ _; rfl
  | cons n L ih =>
    intro a hL
    simp only [List.foldl_cons]
    have e : stepAdj h a n = a := by
      funext j
      simp [stepAdj, hL n (List.mem_cons_self _ _)]
    rw [e]
    exact ih a (fun x hx => hL x (List.mem_cons_of_mem _ hx))

/-- While the breadth-first walk runs, an operation node that holds a non-zero adjoint is
still in the queue; so when the queue is empty every operation node holds 0. -/
theorem bfSeq_zero [Field α] {h : Heap α} (_hw : WF h) (root : Nat) :
    ∀ (k : Nat) (q L : List Nat) (a : Nat → α), bfSeq (args h) k q = some L →
      (∀ n ∈ q, Reach (args h) root n) →
      (∀ m, Reach (args h) root m → isLeaf h m = false → a m ≠ 0 → m ∈ q) →
      (∀ m, Reach (args h) root m → isLeaf h m = true ∨ L.foldl (stepAdj h) a m = 0) ∧
        (∀ n ∈ L, Reach (args h) root n) := by
  intro k
  induction k with
  | zero => intro q L a e; simp [bfSeq] at e
  | succ k ih =>
    intro q L a e hq hinv
    cases q with
    | nil =>
      simp only [bfSeq, Option.some.injEq] at e
      subst e
      refine ⟨?_, by simp⟩
      intro m hm
      by_cases hl : isLeaf h m = true
      · exact Or.inl hl
      · right
        by_contra hne
        have := hinv m hm (by simpa using hl) hne
        simp at this
    | cons n q =>
      simp only [bfSeq, Option.map_eq_some'] at e
      obtain ⟨L', e', rfl⟩ := e
      have hn := hq n (List.mem_cons_self _ _)
      have hq' : ∀ x ∈ q ++ args h n, Reach (args h) root x := by
        intro x hx
        rcases List.mem_append.1 hx with hx | hx
        · exact hq x (List.mem_cons_of_mem _ hx)
        · exact hn.tail hx
      have hinv' : ∀ m, Reach (args h) root m → isLeaf h m = false →
          stepAdj h a n m ≠ 0 → m ∈ q ++ args h n := by
        intro m hm hl hne
        by_cases hma : m ∈ args h n
        · exact List.mem_append_right _ hma
        · by_cases hmn : m = n
          · subst hmn
            rw [stepAdj_self h a hl] at hne
            exact absurd rfl hne
          · rw [stepAdj_of_not_mem h a hmn hma] at hne
            have := hinv m hm hl hne
            rcases List.mem_cons.1 this with e | e
            · exact absurd e hmn
            · exact List.mem_append_left _ e
      obtain ⟨z, r⟩ := ih (q ++ args h n) L' (stepAdj h a n) e' hq' hinv'
      refine ⟨?_, ?_⟩
      · intro m hm
        simpa [List.foldl_cons] using z m hm
      · intro x hx
        rcases List.mem_cons.1 hx with rfl | hx
        · exact hn
        · exact r x hx

/-- From seeded adjoints, any sequence of calls on nodes reachable from the root that ends
with every operation node at 0 leaves every reachable leaf with the chain-rule sum from
the root. -/
theorem seeded_fold_leaf [Field α] {h : Heap α} (hw : WF h) {root : Nat}
    (hr : root < h.length) (L : List Nat) (a0 : Nat → α)
    (hL : ∀ n ∈ L, Reach (args h) root n) (hroot : a0 root = 1)
    (hreach : ∀ j, Reach (args h) root j → j ≠ root → a0 j = 0)
    (z : ∀ m, Reach (args h) root m → isLeaf h m = true ∨ L.foldl (stepAdj h) a0 m = 0) :
    ∀ t, Reach (args h) root t → isLeaf h t = true →
      L.foldl (stepAdj h) a0 t = pathSum h root t := by
  intro t ht hl
  have hvalid : ∀ n ∈ L, n < h.length := fun n hn => (hL n hn).lt_length hw hr
  have u := foldl_stepAdj_outside h root L a0 hL
  by_cases hrl : isLeaf h root = true
  · have honly : ∀ n, Reach (args h) root n → n = root := by
      intro n hn
      rcases hn.eq_or_step with e | ⟨a, ha, _⟩
      · exact e
      · rw [isLeaf_args hrl] at ha
        simp at ha
    have ht' := honly t ht
    subst ht'
    rw [foldl_stepAdj_leaves h L a0 (fun n hn => by rw [honly n (hL n hn)]; exact hrl),
      hroot, pathSum_self]
  · have htr : t ≠ root := by
      rintro rfl
      exact hrl hl
    have hpot := potential_foldl hw hl L a0 hvalid
    have point : ∀ j,
        L.foldl (stepAdj h) a0 j * pathSum h j t -
          (if j = t then L.foldl (stepAdj h) a0 t else 0) =
        a0 j * pathSum h j t - (if j = root then pathSum h root t else 0) := by
      intro j
      by_cases hrj : Reach (args h) root j
      · by_cases hjt : j = t
        · subst hjt
          simp [htr, pathSum_self, hreach j hrj htr]
        · by_cases hjr : j = root
          · subst hjr
            rcases z j hrj with hl' | hz
            · exact absurd hl' hrl
            · simp [hjt, hz, hroot]
          · rcases z j hrj with hl' | hz
            · simp [hjt, hjr, pathSum_leaf h hl' hjt]
            · simp [hjt, hjr, hz, hreach j hrj hjr]
      · have hjt : j ≠ t := by
          rintro rfl
          exact hrj ht
        have hjr : j ≠ root := by
          rintro rfl
          exact hrj (Reach.refl _)
        simp [hjt, hjr, u j hrj]
    have hsum := Finset.sum_congr (rfl : Finset.range h.length = Finset.range h.length)
      (fun j _ => point j)
    simp only [Finset.sum_sub_distrib, Finset.sum_ite_eq',
      Finset.mem_range.2 (ht.lt_length hw hr), Finset.mem_range.2 hr, if_true, hpot] at hsum
    exact sub_right_injective hsum

/-- What the breadth-first form of `propagateAdjoints` does to a well-formed store, given
enough recursion budget: the same as the pre-order form does. -/
theorem propagateAdjointsBreadthFirst_spec [Field α] (h : Heap α) (root : Nat) (hw : WF h)
    (hr : root < h.length) :
    ∃ F0, ∀ F, F0 ≤ F → ∃ out h',
      Number.propagateAdjointsBreadthFirst F h root = some (out, h') ∧
      h' = withAdj h (adj h') ∧
      (∀ m, ¬ Reach (args h) root m → adj h' m = adj h m) ∧
      (∀ m, Reach (args h) root m → isLeaf h m = false → adj h' m = 0) ∧
      (∀ t, Reach (args h) root t → isLeaf h t = true → adj h' t = pathSum h root t) := by
  obtain ⟨h1, h2, e1, e2, hh2, a0root, a0reach, a0out⟩ := reset_seed_spec h root hw hr
  obtain ⟨k, L, eL, _⟩ := bfSeq_root hw hr
  have hinv : ∀ m, Reach (args h) root m → isLeaf h m = false → adj h2 m ≠ 0 →
      m ∈ [root] := by
    intro m hm _ hne
    by_contra hmr
    exact hne (a0reach m hm (by simpa using hmr))
  obtain ⟨z, hL⟩ := bfSeq_zero hw root k [root] L (adj h2) eL
    (by intro n hn; rw [List.mem_singleton.1 hn]; exact Reach.refl _) hinv
  have hvalid : ∀ n ∈ L, n < h.length := fun n hn => (hL n hn).lt_length hw hr
  have hwA : WF (withAdj h (adj h2)) := hw.transport (length_withAdj _ _) (kindAt_withAdj _ _)
  refine ⟨2 * L.length, ?_⟩
  intro F hF
  have hfold := @breadthFirst_eq_fold α _ _ (propagateAdjoint_pres (α := α)) k L
    (([] : List (LogLine α)), withAdj h (adj h2)) root
    (by rw [args_congr (kindAt_withAdj h (adj h2))]; exact eL) hwA
    (by rw [length_withAdj]; exact hr) F hF
  rw [foldlM_propagateAdjoint hw _ _ _ hvalid] at hfold
  refine ⟨propLog h (adj h2) L, withAdj h (L.foldl (stepAdj h) (adj h2)), ?_, ?_, ?_, ?_, ?_⟩
  · simp only [Number.propagateAdjointsBreadthFirst, e1, Option.some_bind, e2]
    conv_lhs => rw [hh2]
    rw [hfold]
    simp
  · apply eq_withAdj
    intro j
    exact ⟨_, getElem?_withAdj _ _ _⟩
  · intro m hm
    rw [adj_withAdj_eq, foldl_stepAdj_outside h root L _ hL m hm, a0out m hm]
    by_cases hml : m < h.length
    · simp [hml]
    · simp [hml, adj_of_ge (Nat.le_of_not_lt hml)]
  · intro m hm hl
    rw [adj_withAdj_eq, if_pos (hm.lt_length hw hr)]
    rcases z m hm with hl' | hz
    · rw [hl] at hl'
      exact absurd hl' (by simp)
    · exact hz
  · intro t ht hl
    rw [adj_withAdj_eq, if_pos (ht.lt_length hw hr)]
    exact seeded_fold_leaf hw hr L (adj h2) hL a0root a0reach z t ht hl

/-! ## The recording visitor -/

theorem recordLam_pres : Pres (recordLam (α := α)) := by
  intro st n st' e
  simp only [recordLam, Option.some.injEq] at e
  subst e
  exact ⟨rfl, fun _ => rfl, fun _ => rfl⟩

theorem foldlM_markStep_recordLam :
    ∀ (L tr : List Nat) (h : Heap α), (∀ n ∈ L, n < h.length) →
      ∃ h', L.foldlM (markStep recordLam) (tr, h) = some (tr ++ L, h') ∧
        h'.length = h.length := by
  intro L
  induction L with
  | nil => intro tr h _; exact ⟨h, by simp, rfl⟩
  | cons n L ih =>
    intro tr h hL
    obtain ⟨h1, e1⟩ := update_of_lt (fun m : Node α => { m with myProcessed := true })
      (hL n (List.mem_cons_self _ _))
    obtain ⟨_, l1, _⟩ := update_eq_some e1
    obtain ⟨h2, e2, l2⟩ := ih (tr ++ [n]) h1
      (fun m hm => by rw [l1]; exact hL m (List.mem_cons_of_mem _ hm))
    refine ⟨h2, ?_, by rw [l2, l1]⟩
    simp only [List.foldlM_cons, markStep, recordLam, Option.some_bind, e1, Option.map_some',
      bind, Option.bind]
    rw [e2]
    simp

/-! ## The expression templates -/

/-- C11, as the program has it: `Number::evaluate` never fails.  On every well-formed store
the forward pass completes and returns a value, `LogNode::evaluate` storing the logarithm
of the operand result whatever that result is, non-positive results included; and building
a graph with `log` never fails: it yields a well-formed store whose new node is a `LogNode`
and on which `evaluate` returns the logarithm of the value of the operand. -/
theorem C11_evaluate_never_fails [Field α] (log : α → α) (uninit : α) (h : Heap α)
    (root arg : Nat) (hw : WF h) (hr : root < h.length) (ha : arg < h.length) :
    (∃ v h1, Number.evaluate log h root = some (v, h1)) ∧
    WF (logOfNumber uninit h arg).1 ∧
    kindAt (logOfNumber uninit h arg).1 (logOfNumber uninit h arg).2 = some (.LogNode arg) ∧
    ∃ h1, Number.evaluate log (logOfNumber uninit h arg).1 (logOfNumber uninit h arg).2 =
      some (log (denote log (logOfNumber uninit h arg).1 arg), h1) := by
  obtain ⟨h1, e1, _⟩ := evaluate_results log h root hw hr
  have hw2 : WF (logOfNumber uninit h arg).1 := by
    apply wf_alloc hw
    intro a hm
    simp only [newNode, Kind.myArguments, List.mem_singleton] at hm
    rw [hm]
    exact ha
  have hk : kindAt (logOfNumber uninit h arg).1 (logOfNumber uninit h arg).2 =
      some (.LogNode arg) := (kindAt_alloc h _).1
  have hlen : (logOfNumber uninit h arg).2 < (logOfNumber uninit h arg).1.length := by
    simp [logOfNumber, alloc]
  obtain ⟨h2, e2, _⟩ := evaluate_results log _ _ hw2 hlen
  have hc := denote_consistent log hw2 (logOfNumber uninit h arg).2
  unfold Consistent at hc
  rw [hk] at hc
  rw [hc] at e2
  exact ⟨⟨_, h1, e1⟩, hw2, hk, h2, e2⟩

/-- C11 at the store holding `x = -1`, to which `log(x)` is added and evaluated. -/
theorem C11_witness :
    WF ([newNode 0 (.Leaf (-1))] : Heap ℚ) ∧ 0 < ([newNode 0 (.Leaf (-1))] : Heap ℚ).length ∧
    0 < ([newNode 0 (.Leaf (-1))] : Heap ℚ).length ∧
    ((∃ v h1, Number.evaluate (fun x => x) ([newNode 0 (.Leaf (-1))] : Heap ℚ) 0 =
        some (v, h1)) ∧
    WF (logOfNumber 0 ([newNode 0 (.Leaf (-1))] : Heap ℚ) 0).1 ∧
    kindAt (logOfNumber 0 ([newNode 0 (.Leaf (-1))] : Heap ℚ) 0).1
        (logOfNumber 0 ([newNode 0 (.Leaf (-1))] : Heap ℚ) 0).2 = some (.LogNode 0) ∧
    ∃ h1, Number.evaluate (fun x => x) (logOfNumber 0 ([newNode 0 (.Leaf (-1))] : Heap ℚ) 0).1
        (logOfNumber 0 ([newNode 0 (.Leaf (-1))] : Heap ℚ) 0).2 =
      some ((fun x => x)
        (denote (fun x => x) (logOfNumber 0 ([newNode 0 (.Leaf (-1))] : Heap ℚ) 0).1 0), h1)) :=
  ⟨by decide, by decide, by decide,
    C11_evaluate_never_fails (fun x => x) 0 ([newNode 0 (.Leaf (-1))] : Heap ℚ) 0 0
      (by decide) (by decide) (by decide)⟩

/-- C11 as stated fails on `y = log(x)` with `x = -1`: the `LogNode` is evaluated on an
operand of value `-1`, which is not positive, and `evaluate` returns. -/
theorem C11_counterexample :
    denote Real.log (logHeap (0 : ℝ) (-1)) 0 = -1 ∧ (-1 : ℝ) ≤ 0 ∧
    kindAt (logHeap (0 : ℝ) (-1)) 1 = some (.LogNode 0) ∧
    ∃ h1, Number.evaluate Real.log (logHeap (0 : ℝ) (-1)) 1 = some (Real.log (-1), h1) := by
  have hw : WF (logHeap (0 : ℝ) (-1)) := by decide
  obtain ⟨h1, e1, _⟩ := evaluate_results Real.log (logHeap (0 : ℝ) (-1)) 1 hw
    (by simp [logHeap])
  refine ⟨by simp [denote, value, kindAt, logHeap, newNode], by norm_num, rfl, h1, ?_⟩
  rw [e1]
  simp [denote, value, kindAt, logHeap, newNode]

/-- C12, as the program has it: `Number::setVal` and `Number::getVal` raise no error.  For a
`Number` whose `myNode` is a node of the store, the call runs into undefined behaviour (the
cast yields a null pointer, which is dereferenced) exactly when that node is not a `Leaf`;
it never throws, and then nothing is returned, neither a value nor a store.  On a `Leaf`
both return, and `getVal` after `setVal(v)` returns `v`. -/
theorem C12_non_leaf_access_is_undefined (h : Heap α) (n : Nat) (v : α) (hn : n < h.length) :
    (Number.setValOutcome h n v = .undefinedBehaviour ↔ isLeaf h n = false) ∧
    (Number.getValOutcome h n = .undefinedBehaviour ↔ isLeaf h n = false) ∧
    (∀ h', Number.setValOutcome h n v ≠ .throws h') ∧
    (∀ h', Number.getValOutcome h n ≠ .throws h') ∧
    (Number.setVal h n v = none ↔ isLeaf h n = false) ∧
    (Number.getVal h n = none ↔ isLeaf h n = false) ∧
    (isLeaf h n = true →
      ∃ h', Number.setValOutcome h n v = .returns h' ∧ Number.setVal h n v = some h' ∧
        Number.getValOutcome h' n = .returns v ∧ Number.getVal h' n = some v ∧
        ∃ w, Number.getValOutcome h n = .returns w ∧ Number.getVal h n = some w) := by
  have hg : h[n]? = some h[n] := List.getElem?_eq_getElem hn
  simp only [Number.setValOutcome, Number.getValOutcome, Number.setVal, Number.getVal, isLeaf,
    kindAt, hg, Option.map_some']
  cases hk : h[n].kind <;> simp [hn]

/-- C12 at the leaf of the diamond graph. -/
theorem C12_witness :
    0 < (diamondHeap (0 : ℚ) 3).length ∧ isLeaf (diamondHeap (0 : ℚ) 3) 0 = true ∧
    ∃ h', Number.setValOutcome (diamondHeap (0 : ℚ) 3) 0 5 = .returns h' ∧
      Number.setVal (diamondHeap (0 : ℚ) 3) 0 5 = some h' ∧
      Number.getValOutcome h' 0 = .returns 5 ∧ Number.getVal h' 0 = some 5 ∧
      ∃ w, Number.getValOutcome (diamondHeap (0 : ℚ) 3) 0 = .returns w ∧
        Number.getVal (diamondHeap (0 : ℚ) 3) 0 = some w :=
  ⟨by decide, rfl,
    (C12_non_leaf_access_is_undefined (diamondHeap (0 : ℚ) 3) 0 5 (by decide)).2.2.2.2.2.2 rfl⟩

/-- C12 as stated fails on `y = x * x`: the node of `y` is a `TimesNode`, and `y.setVal(5)`
and `y.getVal()` end in undefined behaviour, the dereference of a null pointer; they do not
end with an error that leaves the store as it was. -/
theorem C12_counterexample :
    isLeaf (diamondHeap (0 : ℚ) 3) 1 = false ∧
    Number.setValOutcome (diamondHeap (0 : ℚ) 3) 1 5 = .undefinedBehaviour ∧
    Number.getValOutcome (diamondHeap (0 : ℚ) 3) 1 = .undefinedBehaviour ∧
    Number.setValOutcome (diamondHeap (0 : ℚ) 3) 1 5 ≠ .throws (diamondHeap (0 : ℚ) 3) ∧
    Number.getValOutcome (diamondHeap (0 : ℚ) 3) 1 ≠ .throws (diamondHeap (0 : ℚ) 3) ∧
    Number.setVal (diamondHeap (0 : ℚ) 3) 1 5 = none ∧
    Number.getVal (diamondHeap (0 : ℚ) 3) 1 = none := by
  refine ⟨rfl, rfl, rfl, ?_, ?_, rfl, rfl⟩
  · intro e
    have : (Outcome.undefinedBehaviour : Outcome ℚ (Heap ℚ)) = .throws (diamondHeap (0 : ℚ) 3) := e
    cases this
  · intro e
    have : (Outcome.undefinedBehaviour : Outcome ℚ ℚ) = .throws (diamondHeap (0 : ℚ) 3) := e
    cases this

/-- C13. Local adjoint rules: on a well-formed store one call of `propagateAdjoint` on a
node holding adjoint `A` returns, changes no result, and adds to the adjoints of the other
nodes exactly: for a `PlusNode`, `A` to operand 0 and `A` to operand 1; for a `TimesNode`,
`A * result(operand 1)` to operand 0 and `A * result(operand 0)` to operand 1; for a
`LogNode`, `A / result(operand 0)` to operand 0; nothing for a `Leaf`.  A node that is both
operands receives both contributions. -/
theorem C13_local_adjoint_rules [Field α] (h : Heap α) (n : Nat) (out : List (LogLine α))
    (hw : WF h) (hn : n < h.length) :
    ∃ out' h', Node.propagateAdjoint (out, h) n = some (out', h') ∧
      (∀ j, result h' j = result h j) ∧
      (∀ l r, kindAt h n = some (.PlusNode l r) → ∀ j, j ≠ n →
        adj h' j = adj h j + ((if j = l then adj h n else 0) + (if j = r then adj h n else 0))) ∧
      (∀ l r, kindAt h n = some (.TimesNode l r) → ∀ j, j ≠ n →
        adj h' j = adj h j + ((if j = l then adj h n * res h r else 0) +
          (if j = r then adj h n * res h l else 0))) ∧
      (∀ a, kindAt h n = some (.LogNode a) → ∀ j, j ≠ n →
        adj h' j = adj h j + (if j = a then adj h n / res h a else 0)) ∧
      (∀ v, kindAt h n = some (.Leaf v) → h' = h) := by
  have hstep := propagateAdjoint_withAdj hw hn (adj h) out
  rw [withAdj_self] at hstep
  have hadj : ∀ j, j ≠ n → isLeaf h n = false →
      adj (withAdj h (stepAdj h (adj h) n)) j = adj h j + pushed h (adj h n) n j := by
    intro j hj hl
    rw [adj_withAdj_eq]
    by_cases hjl : j < h.length
    · simp [hjl, stepAdj, hl, hj]
    · have hge : h.length ≤ j := Nat.le_of_not_lt hjl
      have hnot : j ∉ args h n := fun hm => hjl (hw.arg_lt hm).2
      have := stepAdj_of_not_mem h (adj h) hj hnot
      simp only [stepAdj, hl, hj, if_false, Bool.false_eq_true] at this
      rw [if_neg hjl, this, adj_of_ge hge]
  refine ⟨_, _, hstep, fun j => result_withAdj h _ j, ?_, ?_, ?_, ?_⟩
  · intro l r hk j hj
    rw [hadj j hj (by simp [isLeaf, hk])]
    simp [pushed, hk]
  · intro l r hk j hj
    rw [hadj j hj (by simp [isLeaf, hk])]
    simp [pushed, hk]
  · intro a hk j hj
    rw [hadj j hj (by simp [isLeaf, hk])]
    simp [pushed, hk]
  · intro v hk
    have hl : isLeaf h n = true := by simp [isLeaf, hk]
    have e : stepAdj h (adj h) n = adj h := by
      funext j
      simp [stepAdj, hl]
    rw [e, withAdj_self]

/-- C13 at the root of the diamond graph `y = x * x` with `x = 3`, evaluated and with the
adjoint of `y` set to 1: the call on `y` adds `1 * 3` twice to the adjoint of `x`, which
becomes 6, clears the adjoint of `y`, and changes no result. -/
theorem C13_witness :
    WF (seededDiamondHeap (3 : ℚ)) ∧ 1 < (seededDiamondHeap (3 : ℚ)).length ∧
    adj (seededDiamondHeap (3 : ℚ)) 1 = 1 ∧ res (seededDiamondHeap (3 : ℚ)) 0 = 3 ∧
    Node.propagateAdjoint ([], seededDiamondHeap (3 : ℚ)) 1 =
      some ([⟨false, 0, 1⟩],
        [⟨.Leaf 3, true, 0, 3, 0 + 1 * 3 + 1 * 3⟩, ⟨.TimesNode 0 0, true, 0, 3 * 3, 0⟩]) ∧
    ∃ out' h', Node.propagateAdjoint ([], seededDiamondHeap (3 : ℚ)) 1 = some (out', h') ∧
      adj h' 0 = 6 ∧
      (∀ j, result h' j = result (seededDiamondHeap (3 : ℚ)) j) ∧
      (∀ l r, kindAt (seededDiamondHeap (3 : ℚ)) 1 = some (.PlusNode l r) → ∀ j, j ≠ 1 →
        adj h' j = adj (seededDiamondHeap (3 : ℚ)) j +
          ((if j = l then adj (seededDiamondHeap (3 : ℚ)) 1 else 0) +
            (if j = r then adj (seededDiamondHeap (3 : ℚ)) 1 else 0))) ∧
      (∀ l r, kindAt (seededDiamondHeap (3 : ℚ)) 1 = some (.TimesNode l r) → ∀ j, j ≠ 1 →
        adj h' j = adj (seededDiamondHeap (3 : ℚ)) j +
          ((if j = l then
              adj (seededDiamondHeap (3 : ℚ)) 1 * res (seededDiamondHeap (3 : ℚ)) r else 0) +
            (if j = r then
              adj (seededDiamondHeap (3 : ℚ)) 1 * res (seededDiamondHeap (3 : ℚ)) l else 0))) ∧
      (∀ a, kindAt (seededDiamondHeap (3 : ℚ)) 1 = some (.LogNode a) → ∀ j, j ≠ 1 →
        adj h' j = adj (seededDiamondHeap (3 : ℚ)) j +
          (if j = a then
            adj (seededDiamondHeap (3 : ℚ)) 1 / res (seededDiamondHeap (3 : ℚ)) a else 0)) ∧
      (∀ v, kindAt (seededDiamondHeap (3 : ℚ)) 1 = some (.Leaf v) →
        h' = seededDiamondHeap (3 : ℚ)) := by
  obtain ⟨out', h', e, p1, p2, p3, p4, p5⟩ :=
    C13_local_adjoint_rules (seededDiamondHeap (3 : ℚ)) 1 [] (by decide) (by decide)
  have hadj : adj (seededDiamondHeap (3 : ℚ)) 1 = 1 := rfl
  have hres : res (seededDiamondHeap (3 : ℚ)) 0 = 3 := rfl
  have h0 : adj (seededDiamondHeap (3 : ℚ)) 0 = 0 := rfl
  refine ⟨by decide, by decide, hadj, hres, rfl, out', h', e, ?_, p1, p2, p3, p4, p5⟩
  have := p3 0 0 rfl 0 (by decide)
  rw [this, hadj, hres, h0]
  norm_num

/-- C14. On every well-formed store, for every visitor that leaves the kinds and the
processed flags alone: after `resetProcessed` on the root, `Node::postOrder` on the root
is the visitor (each call followed by setting the flag) applied along a sequence that
contains every node reachable from the root exactly once and no other node, every node
after all of its operands.  With the recording visitor the walk returns and what it
records is that sequence. -/
theorem C14_postOrder_visits_each_node_once {σ : Type}
    (visitFunc : σ × Heap α → Nat → Option (σ × Heap α)) (hv : Pres visitFunc)
    (h : Heap α) (root : Nat) (s : σ) (hw : WF h) (hr : root < h.length) :
    ∃ h1 L, resetProcessed h.length h root = some h1 ∧
      L.Nodup ∧ (∀ n, n ∈ L ↔ Reach (args h) root n) ∧
      (∀ L1 n L2, L = L1 ++ n :: L2 → ∀ a ∈ args h n, a ∈ L1) ∧
      postOrder visitFunc h.length (s, h1) root = L.foldlM (markStep visitFunc) (s, h1) ∧
      ∃ h2, postOrder recordLam h.length ([], h1) root = some (L, h2) := by
  obtain ⟨h1, e1, l1, r1, n1⟩ := resetWith_spec (F := fun m => { m with myProcessed := false })
    (fun _ => rfl) (fun _ => rfl) h.length h root hw hr hr
  have k1 : ∀ j, kindAt h1 j = kindAt h j := by
    intro j
    by_cases hj : Reach (args h) root j
    · exact kindAt_of_map (F := fun m => { m with myProcessed := false }) (fun _ => rfl)
        (Or.inl (r1 j hj))
    · exact kindAt_of_map (F := id) (fun _ => rfl) (Or.inr (n1 j hj))
  have hw1 : WF h1 := hw.transport l1 k1
  have hr1 : root < h1.length := by rw [l1]; exact hr
  obtain ⟨f1, f2, f3, f4, _⟩ := postSeq_fresh hw.wfg h.length (proc h1) root hr (by
    intro n hn
    simp only [proc, r1 n hn]
    cases h[n]? <;> rfl)
  have hfold := postOrder_eq_fold hv h.length (s, h1) root hw1 hr1 hr
  have hfold' := postOrder_eq_fold (recordLam_pres (α := α)) h.length
    (([] : List Nat), h1) root hw1 hr1 hr
  simp only [args_congr k1] at hfold hfold'
  have hvalid : ∀ n ∈ postSeq (args h) h.length (proc h1) root, n < h1.length := by
    intro n hn
    rw [l1]
    exact ((f2 n).1 hn).lt_length hw hr
  obtain ⟨h2, e2, _⟩ := foldlM_markStep_recordLam _ [] h1 hvalid
  refine ⟨h1, postSeq (args h) h.length (proc h1) root, by rw [resetProcessed_eq]; exact e1,
    f3, f2, ?_, hfold, h2, ?_⟩
  · intro L1 n L2 hL a ha
    rw [hL] at f4
    rcases f4.split a ha with hf | hm
    · simp at hf
    · exact hm
  · rw [hfold', e2]
    simp

/-- C14 at the graph of `f`, with the visitor of `Number::setOrder`. -/
theorem C14_witness :
    Pres (setOrderLam (α := ℚ)) ∧ WF (fHeap (0 : ℚ) 1 2 3 4 5) ∧
    13 < (fHeap (0 : ℚ) 1 2 3 4 5).length ∧
    ∃ h1 L, resetProcessed (fHeap (0 : ℚ) 1 2 3 4 5).length (fHeap (0 : ℚ) 1 2 3 4 5) 13 =
        some h1 ∧
      L.Nodup ∧ (∀ n, n ∈ L ↔ Reach (args (fHeap (0 : ℚ) 1 2 3 4 5)) 13 n) ∧
      (∀ L1 n L2, L = L1 ++ n :: L2 → ∀ a ∈ args (fHeap (0 : ℚ) 1 2 3 4 5) n, a ∈ L1) ∧
      postOrder setOrderLam (fHeap (0 : ℚ) 1 2 3 4 5).length (0, h1) 13 =
        L.foldlM (markStep setOrderLam) (0, h1) ∧
      ∃ h2, postOrder recordLam (fHeap (0 : ℚ) 1 2 3 4 5).length ([], h1) 13 = some (L, h2) :=
  ⟨setOrderLam_pres, wf_fHeap _ _ _ _ _ _, by decide,
    C14_postOrder_visits_each_node_once setOrderLam setOrderLam_pres
      (fHeap (0 : ℚ) 1 2 3 4 5) 13 0 (wf_fHeap _ _ _ _ _ _) (by decide)⟩

/-- C16. Stale skip: after a completed `Node::postOrder` pass from a root, a further
`Node::postOrder` from the same root with no `resetProcessed` in between returns at once:
it applies the visitor to no node and changes nothing, neither the store nor what the
visitor holds.  In particular, after a leaf is changed by `setVal`, a pass with the
evaluating visitor leaves the cached results of all nodes at their old values. -/
theorem C16_stale_skip {σ : Type} (visitFunc : σ × Heap α → Nat → Option (σ × Heap α))
    [Add α] [Mul α] (log : α → α) (fuel fuel' : Nat) (st st1 : σ × Heap α) (root : Nat)
    (hpass : postOrder visitFunc fuel st root = some st1) :
    postOrder visitFunc (fuel' + 1) st1 root = some st1 ∧
    (∀ s : σ, postOrder visitFunc (fuel' + 1) (s, st1.2) root = some (s, st1.2)) ∧
    ∀ x val h2, Number.setVal st1.2 x val = some h2 →
      postOrder (evaluateLam log) (fuel' + 1) ((), h2) root = some ((), h2) ∧
      ∀ j, result h2 j = result st1.2 j := by
  have hp := proc_of_postOrder hpass
  refine ⟨postOrder_of_proc visitFunc fuel' hp, ?_, ?_⟩
  · intro s
    exact @postOrder_of_proc α _ visitFunc fuel' (s, st1.2) _ hp
  · intro x val h2 e
    obtain ⟨_, _, hres, _, _, hproc⟩ := setVal_frame e
    refine ⟨@postOrder_of_proc α _ (evaluateLam log) fuel' ((), h2) _ ?_, hres⟩
    show proc h2 root = true
    rw [hproc root]
    exact hp

/-- C16 at the diamond graph: a first pass with the evaluating visitor, then the second. -/
theorem C16_witness :
    postOrder (evaluateLam (fun x : ℚ => x)) 2 ((), diamondHeap (0 : ℚ) 3) 1 =
      some ((), [⟨.Leaf 3, true, 0, 3, 0⟩, ⟨.TimesNode 0 0, true, 0, 3 * 3, 0⟩]) ∧
    (postOrder (evaluateLam (fun x : ℚ => x)) (0 + 1)
        ((), [⟨.Leaf 3, true, 0, 3, 0⟩, ⟨.TimesNode 0 0, true, 0, 3 * 3, 0⟩]) 1 =
      some ((), [⟨.Leaf 3, true, 0, 3, 0⟩, ⟨.TimesNode 0 0, true, 0, 3 * 3, 0⟩]) ∧
    (∀ s : Unit, postOrder (evaluateLam (fun x : ℚ => x)) (0 + 1)
        (s, ((), ([⟨.Leaf 3, true, 0, 3, 0⟩, ⟨.TimesNode 0 0, true, 0, 3 * 3, 0⟩] : Heap ℚ)).2) 1 =
      some (s, ((), ([⟨.Leaf 3, true, 0, 3, 0⟩, ⟨.TimesNode 0 0, true, 0, 3 * 3, 0⟩] : Heap ℚ)).2)) ∧
    ∀ x val h2,
      Number.setVal
          ((), ([⟨.Leaf 3, true, 0, 3, 0⟩, ⟨.TimesNode 0 0, true, 0, 3 * 3, 0⟩] : Heap ℚ)).2
          x val = some h2 →
      postOrder (evaluateLam (fun x : ℚ => x)) (0 + 1) ((), h2) 1 = some ((), h2) ∧
      ∀ j, result h2 j =
        result ((), ([⟨.Leaf 3, true, 0, 3, 0⟩, ⟨.TimesNode 0 0, true, 0, 3 * 3, 0⟩] : Heap ℚ)).2
          j) :=
  ⟨rfl, C16_stale_skip (evaluateLam (fun x : ℚ => x)) (fun x : ℚ => x) 2 0
    ((), diamondHeap (0 : ℚ) 3)
    ((), [⟨.Leaf 3, true, 0, 3, 0⟩, ⟨.TimesNode 0 0, true, 0, 3 * 3, 0⟩]) 1 rfl⟩

/-- C17. `Number::setVal(v)` on a `Leaf` returns and changes only the value that leaf
stores: every other node is as before, and the cached result, the adjoint, the order index
and the processed flag of every node, the changed leaf included, are as before. -/
theorem C17_setVal_changes_only_the_leaf_value (h : Heap α) (x : Nat) (v : α)
    (hl : isLeaf h x = true) :
    ∃ h', Number.setVal h x v = some h' ∧ h'.length = h.length ∧
      kindAt h' x = some (.Leaf v) ∧ (∀ j, j ≠ x → h'[j]? = h[j]?) ∧
      (∀ j, result h' j = result h j) ∧ (∀ j, adjoint h' j = adjoint h j) ∧
      (∀ j, order h' j = order h j) ∧ (∀ j, proc h' j = proc h j) := by
  obtain ⟨h', e, _, kx, _, _⟩ := setVal_spec v hl
  obtain ⟨l, f, r, a, o, p⟩ := setVal_frame e
  exact ⟨h', e, l, kx, f, r, a, o, p⟩

/-- C17 at a leaf whose cached result, adjoint, order index and flag are all set. -/
theorem C17_witness :
    isLeaf ([⟨.Leaf 3, true, 1, 3, 6⟩, ⟨.TimesNode 0 0, true, 2, 9, 0⟩] : Heap ℚ) 0 = true ∧
    ∃ h', Number.setVal ([⟨.Leaf 3, true, 1, 3, 6⟩, ⟨.TimesNode 0 0, true, 2, 9, 0⟩] : Heap ℚ)
        0 5 = some h' ∧
      h'.length = ([⟨.Leaf 3, true, 1, 3, 6⟩, ⟨.TimesNode 0 0, true, 2, 9, 0⟩] : Heap ℚ).length ∧
      kindAt h' 0 = some (.Leaf 5) ∧
      (∀ j, j ≠ 0 → h'[j]? =
        ([⟨.Leaf 3, true, 1, 3, 6⟩, ⟨.TimesNode 0 0, true, 2, 9, 0⟩] : Heap ℚ)[j]?) ∧
      (∀ j, result h' j =
        result ([⟨.Leaf 3, true, 1, 3, 6⟩, ⟨.TimesNode 0 0, true, 2, 9, 0⟩] : Heap ℚ) j) ∧
      (∀ j, adjoint h' j =
        adjoint ([⟨.Leaf 3, true, 1, 3, 6⟩, ⟨.TimesNode 0 0, true, 2, 9, 0⟩] : Heap ℚ) j) ∧
      (∀ j, order h' j =
        order ([⟨.Leaf 3, true, 1, 3, 6⟩, ⟨.TimesNode 0 0, true, 2, 9, 0⟩] : Heap ℚ) j) ∧
      (∀ j, proc h' j =
        proc ([⟨.Leaf 3, true, 1, 3, 6⟩, ⟨.TimesNode 0 0, true, 2, 9, 0⟩] : Heap ℚ) j) :=
  ⟨rfl, C17_setVal_changes_only_the_leaf_value
    ([⟨.Leaf 3, true, 1, 3, 6⟩, ⟨.TimesNode 0 0, true, 2, 9, 0⟩] : Heap ℚ) 0 5 rfl⟩

theorem preSeq_fHeap [Field α] (u x0 x1 x2 x3 x4 : α) :
    preSeq (args (fHeap u x0 x1 x2 x3 x4)) (fHeap u x0 x1 x2 x3 x4).length 13 =
      [13, 11, 8, 2, 7, 6, 5, 0, 1, 10, 3, 9, 8, 2, 7, 6, 5, 0, 1, 12, 8, 2, 7, 6, 5, 0, 1,
        9, 8, 2, 7, 6, 5, 0, 1] := rfl

/-- `Number::propagateAdjoints` changes only adjoints, and none outside the sub-graph of the
root. -/
theorem propagateAdjoints_frame [Field α] (h : Heap α) (root : Nat)
    (hw : WF h) (hr : root < h.length) :
    ∃ out h', Number.propagateAdjoints h root = some (out, h') ∧
      (∀ j, ¬ Reach (args h) root j → adjoint h' j = adjoint h j) ∧
      (∀ j, result h' j = result h j) ∧ (∀ j, order h' j = order h j) ∧
      (∀ j, proc h' j = proc h j) ∧ (∀ j, kindAt h' j = kindAt h j) := by
  obtain ⟨out, h', e, _, _, hform, u, _, _⟩ := propagateAdjoints_spec h root hw hr
  refine ⟨out, h', e, ?_, ?_, ?_, ?_, ?_⟩
  · intro j hj
    have hlen : h'.length = h.length := by rw [hform, length_withAdj]
    by_cases hjl : j < h.length
    · rw [adjoint_of_lt (by rw [hlen]; exact hjl), adjoint_of_lt hjl, u j hj]
    · have hge : h.length ≤ j := Nat.le_of_not_lt hjl
      simp [adjoint, List.getElem?_eq_none hge, List.getElem?_eq_none (hlen ▸ hge)]
  · intro j; rw [hform, result_withAdj]
  · intro j; rw [hform, order_withAdj]
  · intro j; rw [hform, proc_withAdj]
  · intro j; rw [hform, kindAt_withAdj]

/-- The calls of `main` leave the adjoint of a node outside the sub-graph of `y` as it
was. -/
theorem runMain_outside [Field α] (log : α → α) (h : Heap α) (y : Nat) (hw : WF h)
    (hy : y < h.length) (hsz : h.length < 2 ^ 31) (j : Nat)
    (hj : ¬ Reach (args h) y j) :
    (runMain log h y).bind (fun r => adjoint r.2.2 j) = adjoint h j := by
  obtain ⟨h1, e1, l1, k1, _, r1⟩ := setOrder_spec h y hw hy hsz
  have hw1 : WF h1 := hw.transport l1 k1
  have hy1 : y < h1.length := by rw [l1]; exact hy
  have a1 : args h1 = args h := args_congr k1
  obtain ⟨h2, e2, l2, _, n2⟩ := evaluate_spec log h1 y hw1 hy1
  obtain ⟨_, e2', _, k2, _⟩ := evaluate_results log h1 y hw1 hy1
  rw [e2] at e2'
  have hw2 : WF h2 := hw1.transport l2 (by
    intro i
    have := Option.some.inj e2'
    have h22 := congrArg Prod.snd this
    simp only at h22
    rw [h22]
    exact k2 i)
  have a2 : args h2 = args h1 := by
    have := Option.some.inj e2'
    have h22 := congrArg Prod.snd this
    simp only at h22
    rw [h22]
    exact args_congr k2
  obtain ⟨out, h3, e3, f3, _⟩ := propagateAdjoints_frame h2 y hw2 (by rw [l2]; exact hy1)
  simp only [runMain, e1, Option.some_bind, e2, e3, Option.map_some']
  rw [f3 j (by rw [a2, a1]; exact hj)]
  simp only [adjoint]
  rw [n2 j (by rw [a1]; exact hj), r1 j hj]

/-- C18. On every well-formed store `Number::propagateAdjoints` returns and changes only
adjoints, and only those of nodes reachable from the root: the adjoint of every node not
reachable from the root, and the result, the order index, the processed flag and the kind
of every node, are as before.  In the example the input `x[4]` is not reachable from `y`,
and after the calls of `main` its adjoint is 0. -/
theorem C18_propagateAdjoints_frame [Field α] (log : α → α) (h : Heap α) (root : Nat)
    (hw : WF h) (hr : root < h.length) :
    (∃ out h', Number.propagateAdjoints h root = some (out, h') ∧
      (∀ j, ¬ Reach (args h) root j → adjoint h' j = adjoint h j) ∧
      (∀ j, result h' j = result h j) ∧ (∀ j, order h' j = order h j) ∧
      (∀ j, proc h' j = proc h j) ∧ (∀ j, kindAt h' j = kindAt h j)) ∧
    ∀ uninit : α, ¬ Reach (args (fHeap uninit 1 2 3 4 5)) 13 4 ∧
      (runMain log (fHeap uninit 1 2 3 4 5) 13).bind (fun r => adjoint r.2.2 4) = some 0 := by
  refine ⟨propagateAdjoints_frame h root hw hr, ?_⟩
  intro uninit
  have hnot : ¬ Reach (args (fHeap uninit 1 2 3 4 5)) 13 4 := by
    intro hreach
    have hm := (mem_preSeq (wf_fHeap uninit 1 2 3 4 5).wfg
      (fHeap uninit 1 2 3 4 5).length 13 4 (by simp [fHeap])).2 hreach
    rw [preSeq_fHeap] at hm
    simp at hm
  refine ⟨hnot, ?_⟩
  rw [runMain_outside log _ 13 (wf_fHeap _ _ _ _ _ _) (by simp [fHeap])
    (by simp [fHeap]) 4 hnot]
  rfl

/-- C18 at the graph of `f` over the rationals. -/
theorem C18_witness :
    WF (fHeap (0 : ℚ) 1 2 3 4 5) ∧ 13 < (fHeap (0 : ℚ) 1 2 3 4 5).length ∧
    ∃ out h', Number.propagateAdjoints (fHeap (0 : ℚ) 1 2 3 4 5) 13 = some (out, h') ∧
      (∀ j, ¬ Reach (args (fHeap (0 : ℚ) 1 2 3 4 5)) 13 j →
        adjoint h' j = adjoint (fHeap (0 : ℚ) 1 2 3 4 5) j) ∧
      (∀ j, result h' j = result (fHeap (0 : ℚ) 1 2 3 4 5) j) ∧
      (∀ j, order h' j = order (fHeap (0 : ℚ) 1 2 3 4 5) j) ∧
      (∀ j, proc h' j = proc (fHeap (0 : ℚ) 1 2 3 4 5) j) ∧
      (∀ j, kindAt h' j = kindAt (fHeap (0 : ℚ) 1 2 3 4 5) j) :=
  ⟨wf_fHeap _ _ _ _ _ _, by decide,
    (C18_propagateAdjoints_frame (fun x => x) (fHeap (0 : ℚ) 1 2 3 4 5) 13
      (wf_fHeap _ _ _ _ _ _) (by decide)).1⟩

/-- The breadth-first form of `propagateAdjoints` gives the same result for every recursion
budget of at least twice the number of visits. -/
theorem propagateAdjointsBreadthFirst_fuel [Zero α] [One α] [Add α] [Mul α] [Div α]
    (h : Heap α) (root : Nat) (hw : WF h) (hr : root < h.length) (F F' : Nat)
    (hF : 2 * (preSeq (args h) h.length root).length ≤ F)
    (hF' : 2 * (preSeq (args h) h.length root).length ≤ F') :
    Number.propagateAdjointsBreadthFirst F h root =
      Number.propagateAdjointsBreadthFirst F' h root := by
  obtain ⟨h1, e1, l1, r1, n1⟩ := resetWith_spec (F := fun m : Node α => { m with myAdjoint := 0 })
    (fun _ => rfl) (fun _ => rfl) h.length h root hw hr hr
  obtain ⟨h2, e2⟩ := update_of_lt (fun m : Node α => { m with myAdjoint := 1 })
    (l1 ▸ hr : root < h1.length)
  obtain ⟨_, l2, q2⟩ := update_eq_some e2
  have k2 : ∀ j, kindAt h2 j = kindAt h j := by
    intro j
    have k1 : kindAt h1 j = kindAt h j := by
      by_cases hj : Reach (args h) root j
      · exact kindAt_of_map (F := fun m : Node α => { m with myAdjoint := 0 }) (fun _ => rfl)
          (Or.inl (r1 j hj))
      · exact kindAt_of_map (F := id) (fun _ => rfl) (Or.inr (n1 j hj))
    rw [← k1]
    by_cases hj : j = root
    · exact kindAt_of_map (F := fun m : Node α => { m with myAdjoint := 1 }) (fun _ => rfl)
        (Or.inl (by rw [q2 j, if_pos hj]))
    · exact kindAt_of_map (F := id) (fun _ => rfl) (Or.inr (by rw [q2 j, if_neg hj]))
  have hw2 : WF h2 := hw.transport (by rw [l2, l1]) k2
  obtain ⟨k, L, eL, hp⟩ := bfSeq_root hw hr
  have hlen : L.length = (preSeq (args h) h.length root).length := hp.length_eq
  have e2' : bfSeq (args h2) k [root] = some L := by rw [args_congr k2]; exact eL
  have hr2 : root < h2.length := by rw [l2, l1]; exact hr
  unfold Number.propagateAdjointsBreadthFirst
  rw [resetAdjoints_eq, e1]
  simp only [Option.some_bind, e2]
  rw [@breadthFirst_eq_fold α _ _ propagateAdjoint_pres k L ([], h2) root e2' hw2 hr2 F
      (by omega),
    @breadthFirst_eq_fold α _ _ propagateAdjoint_pres k L ([], h2) root e2' hw2 hr2 F'
      (by omega)]

/-- C19, in exact arithmetic: on every well-formed store over a field (acyclic, shared nodes
allowed; in particular one that has been evaluated), with enough recursion budget the
breadth-first form of `propagateAdjoints` (reset the adjoints, set the adjoint of the root
to 1, apply `propagateAdjoint` through `Node::breadthFirst`) and the pre-order form both
return, and they return the same store; in particular every leaf reachable from the root
has the same adjoint after either, the sum over the operand paths from the root of the
products of the local partial derivatives.  The statement rests on the laws of a field,
which the rounded arithmetic of `double` does not have. -/
theorem C19_breadthFirst_agrees_with_preOrder [Field α] (h : Heap α) (root : Nat)
    (hw : WF h) (hr : root < h.length) :
    ∃ F0, ∀ F, F0 ≤ F → ∃ outB hB outP hP,
      Number.propagateAdjointsBreadthFirst F h root = some (outB, hB) ∧
      Number.propagateAdjoints h root = some (outP, hP) ∧
      hB = hP ∧
      ∀ t, Reach (args h) root t → isLeaf h t = true →
        adjoint hB t = adjoint hP t ∧ adjoint hP t = some (pathSum h root t) := by
  obtain ⟨F0, hF0⟩ := propagateAdjointsBreadthFirst_spec h root hw hr
  obtain ⟨outP, hP, eP, _, _, fP, uP, zP, pP⟩ := propagateAdjoints_spec h root hw hr
  refine ⟨F0, ?_⟩
  intro F hF
  obtain ⟨outB, hB, eB, fB, uB, zB, pB⟩ := hF0 F hF
  have hfun : adj hB = adj hP := by
    funext m
    by_cases hm : Reach (args h) root m
    · cases hl : isLeaf h m with
      | true => rw [pB m hm hl, pP m hm hl]
      | false => rw [zB m hm hl, zP m hm hl]
    · rw [uB m hm, uP m hm]
  have heq : hB = hP := by rw [fB, fP, hfun]
  refine ⟨outB, hB, outP, hP, eB, eP, heq, ?_⟩
  intro t ht hl
  refine ⟨by rw [heq], ?_⟩
  have hlen : hP.length = h.length := by rw [fP, length_withAdj]
  rw [adjoint_of_lt (by rw [hlen]; exact ht.lt_length hw hr), pP t ht hl]

/-- C19 at the diamond graph `y = x * x` with `x = 3`, evaluated: after either walk the
adjoint of `x` is the chain-rule sum, which is 6. -/
theorem C19_witness :
    WF (evaluatedDiamondHeap (3 : ℚ)) ∧ 1 < (evaluatedDiamondHeap (3 : ℚ)).length ∧
    pathSum (evaluatedDiamondHeap (3 : ℚ)) 1 0 = 6 ∧
    ∃ F0, ∀ F, F0 ≤ F → ∃ outB hB outP hP,
      Number.propagateAdjointsBreadthFirst F (evaluatedDiamondHeap (3 : ℚ)) 1 =
        some (outB, hB) ∧
      Number.propagateAdjoints (evaluatedDiamondHeap (3 : ℚ)) 1 = some (outP, hP) ∧
      hB = hP ∧
      ∀ t, Reach (args (evaluatedDiamondHeap (3 : ℚ))) 1 t →
        isLeaf (evaluatedDiamondHeap (3 : ℚ)) t = true →
        adjoint hB t = adjoint hP t ∧
        adjoint hP t = some (pathSum (evaluatedDiamondHeap (3 : ℚ)) 1 t) := by
  have hw : WF (evaluatedDiamondHeap (3 : ℚ)) := by decide
  have hsum : pathSum (evaluatedDiamondHeap (3 : ℚ)) 1 0 = 6 := by
    rw [pathSum_rec hw (by decide : (1 : Nat) ≠ 0)]
    have hk : kindAt (evaluatedDiamondHeap (3 : ℚ)) 1 = some (.TimesNode 0 0) := rfl
    rw [hk]
    simp only [pathSum_self]
    have hres : res (evaluatedDiamondHeap (3 : ℚ)) 0 = 3 := rfl
    rw [hres]
    norm_num
  exact ⟨hw, by decide, hsum,
    C19_breadthFirst_agrees_with_preOrder (evaluatedDiamondHeap (3 : ℚ)) 1 hw (by decide)⟩

/-- C19 as stated fails in the arithmetic of `double` on `x = 0.1`, `a = x + x`,
`b = x + a`, `c = x * a`, `y = b * c`: after `y.evaluate()` the pre-order walk leaves
`6485183463413515 * 2 ^ (-55)` in the adjoint of the leaf `x` (printed with 17 digits,
0.18000000000000002) and the breadth-first walk, for every sufficient recursion budget,
`1621295865853379 * 2 ^ (-53)` (0.18000000000000005).  The graph has no `LogNode`, so the
function passed for `log` is not called. -/
theorem C19_counterexample :
    WF roundingHeap ∧ Reach (args roundingHeap) 4 0 ∧ isLeaf roundingHeap 0 = true ∧
    (Number.evaluate (fun _ => Binary64.nan) roundingHeap 4).bind (fun r =>
      (Number.propagateAdjoints r.2 4).bind (fun p => adjoint p.2 0)) =
      some (.finite (6485183463413515 * 2 ^ 1019)) ∧
    (∀ F, 22 ≤ F →
      (Number.evaluate (fun _ => Binary64.nan) roundingHeap 4).bind (fun r =>
        (Number.propagateAdjointsBreadthFirst F r.2 4).bind (fun p => adjoint p.2 0)) =
        some (.finite (1621295865853379 * 2 ^ 1021))) ∧
    (6485183463413515 * 2 ^ 1019 : Int) ≠ 1621295865853379 * 2 ^ 1021 := by
  have hw : WF roundingHeap := by decide
  refine ⟨hw, ?_, rfl, by decide!, ?_, by decide!⟩
  · exact Reach.step (a := 2) (by decide) (Reach.step (a := 0) (by decide) (Reach.refl 0))
  · intro F hF
    have t22 : (Number.evaluate (fun _ => Binary64.nan) roundingHeap 4).bind (fun r =>
        (Number.propagateAdjointsBreadthFirst 22 r.2 4).bind (fun p => adjoint p.2 0)) =
        some (.finite (1621295865853379 * 2 ^ 1021)) := by decide!
    obtain ⟨h1, e1, l1, r1, n1⟩ := evaluate_spec (fun _ => Binary64.nan) roundingHeap 4 hw
      (by decide)
    have k1 : ∀ j, kindAt h1 j = kindAt roundingHeap j := by
      intro j
      by_cases hj : Reach (args roundingHeap) 4 j
      · exact kindAt_of_map
          (F := fun m => { m with
            myResult := denote (fun _ => Binary64.nan) roundingHeap j, myProcessed := true })
          (fun _ => rfl) (Or.inl (r1 j hj))
      · exact kindAt_of_map (F := id) (fun _ => rfl) (Or.inr (n1 j hj))
    have hw1 : WF h1 := hw.transport l1 k1
    have hpre : (preSeq (args h1) h1.length 4).length = 11 := by
      rw [args_congr k1, l1]
      rfl
    rw [e1] at t22 ⊢
    simp only [Option.some_bind] at t22 ⊢
    rw [propagateAdjointsBreadthFirst_fuel h1 4 hw1 (by rw [l1]; decide) F 22
      (by rw [hpre]; omega) (by rw [hpre])]
    exact t22

end AAD
